import Mathlib

/-!
DigitalFilters_x32: the FIR run stage and the aperiodic filter.

A shallow embedding of `src/files/FIR_filt.hpp` (the inline run-stage functions
`filt`, `filt_eff`, `get_coeff`, `get_flt_order`) and of
`src/files/aperiodic_filt.cpp`.

Arithmetic is exact: the sample type is a commutative ring `R` (the reals where
trigonometry is needed), so `float`/`double` rounding is not part of the model.
`int` fields are `Int`; no claim below depends on 32-bit wraparound.
-/

namespace DigitalFilters

/-! ## The mirror ring buffer -/

/-- Modelled from the spec: the class `mirror_ring_buff` of the header
`mirror_ring_buff_x32.hpp`, which is included by `FIR_filt.hpp` but is not among the
sources. Spec §3/§4.1: capacity C, storage of 2C slots, one fill-down cursor.
`m_buff` is the storage, `m_ptr_fill_down` the cursor as an offset into `m_buff`. -/
structure mirror_ring_buff (R : Type) where
  m_buff_size : Nat
  m_buff : List R
  m_ptr_fill_down : Nat

namespace mirror_ring_buff

variable {R : Type}

/-- Modelled from the spec: `init(capacity C)` of the missing header "fixes C" (§4.1);
the source calls it `BuffInit`. -/
def BuffInit (b : mirror_ring_buff R) (C : Nat) : mirror_ring_buff R :=
  { b with m_buff_size := C }

/-- Modelled from the spec: `allocate()` of the missing header "reserves 2C storage
slots, initializes to zero, sets the fill-down pointer to the midpoint" (§4.1). -/
def allocate [Zero R] (b : mirror_ring_buff R) : mirror_ring_buff R :=
  { b with m_buff := List.replicate (2 * b.m_buff_size) 0
           m_ptr_fill_down := b.m_buff_size }

/-- Modelled from the spec: `push(x)` of the missing header (the source calls it
`fill_buff`) "places x at two mirrored positions; advances the fill-down pointer by one
with wraparound inside the 2C region" (§4.1). The two positions are the cursor and the
slot C away from it (modulo 2C); the cursor then moves down by one and wraps from slot 0
to slot C-1, so that the newest sample is read at `m_ptr_fill_down[1]`. -/
def fill_buff (b : mirror_ring_buff R) (x : R) : mirror_ring_buff R :=
  { b with
    m_buff := (b.m_buff.set b.m_ptr_fill_down x).set
                ((b.m_ptr_fill_down + b.m_buff_size) % (2 * b.m_buff_size)) x
    m_ptr_fill_down :=
      if b.m_ptr_fill_down = 0 then b.m_buff_size - 1 else b.m_ptr_fill_down - 1 }

/-- The read `m_ptr_fill_down[i]` of the source: the storage slot `i` places above the
cursor. Modelled from the spec: "Read access: `ptr_fill_down[1..=C]`" (§4.1). A read
outside the 2C slots is undefined in the source; the model gives it the value 0. -/
def at_fill_down [Zero R] (b : mirror_ring_buff R) (i : Int) : R :=
  if 0 ≤ (b.m_ptr_fill_down : Int) + i
  then b.m_buff.getD ((b.m_ptr_fill_down : Int) + i).toNat 0
  else 0

/-- The state after pushing the first `k` samples of the stream `x`, oldest first. -/
def push_stream (b : mirror_ring_buff R) (x : Nat → R) : Nat → mirror_ring_buff R
  | 0 => b
  | k + 1 => (push_stream b x k).fill_buff (x k)

/-- Well-formed buffer state (§3, §4.1): the storage has 2C slots, the cursor is at most
the midpoint, and the two slots C apart hold the same value. -/
def wf [Zero R] (b : mirror_ring_buff R) : Prop :=
  b.m_buff.length = 2 * b.m_buff_size ∧ b.m_ptr_fill_down ≤ b.m_buff_size ∧
  ∀ j, j < b.m_buff_size → b.m_buff.getD j 0 = b.m_buff.getD (j + b.m_buff_size) 0

/-- Zero-filled buffer: every storage slot holds 0. -/
def zero_filled [Zero R] (b : mirror_ring_buff R) : Prop :=
  ∀ j, b.m_buff.getD j 0 = 0

end mirror_ring_buff

/-! ## The FIR filter: run stage -/

/-- The nested type `FIR_filt::vector` (FIR_filt.hpp:62-66). -/
structure FIR_filt.vector (R : Type) where
  re : R
  im : R

/-- The fields of `class FIR_filt` that the inline run-stage functions read or write
(FIR_filt.hpp:41, 56, 68-72, 78, 89). The heap arrays `m_Wnum`, `m_Wden`, `m_y_re`,
`m_y_im` are maps from the index to the element. -/
structure FIR_filt (R : Type) where
  m_order : Int
  m_BUFF_WIND_CX : mirror_ring_buff R
  m_Wnum : Nat → FIR_filt.vector R
  m_Wden : Nat → FIR_filt.vector R
  m_ElemNum : Int
  m_Ncplx_coeff : Int
  m_a0 : R
  m_dx : R
  m_y_re : Nat → R
  m_y_im : Nat → R
  m_BUFF_WIND_SX : mirror_ring_buff R
  m_out : R

namespace FIR_filt

variable {R : Type} [CommRing R]

/-- The loop `for (int n = m_order; n >= 0; n--) m_out += sx.m_ptr_fill_down[n + 1] *
cx.m_buff[n];` of FIR_filt.hpp:141-144, entered at `n` with `m_out = out`. -/
def filt_loop (sx cx : mirror_ring_buff R) : Nat → R → R
  | 0, out => out + sx.at_fill_down ((0 : Nat) + 1) * cx.m_buff.getD 0 0
  | n + 1, out =>
      filt_loop sx cx n (out + sx.at_fill_down ((n + 1 : Nat) + 1) * cx.m_buff.getD (n + 1) 0)

/-- The function `filt(double *in)` / `filt(float *in)` (FIR_filt.hpp:132-167): push the
sample, clear `m_out`, run the tap loop. With a negative `m_order` the loop body never
runs. -/
def filt (f : FIR_filt R) (x : R) : FIR_filt R :=
  let sx := f.m_BUFF_WIND_SX.fill_buff x
  { f with
    m_BUFF_WIND_SX := sx
    m_out := if 0 ≤ f.m_order then filt_loop sx f.m_BUFF_WIND_CX f.m_order.toNat 0 else 0 }

/-- The function `filt()` (FIR_filt.hpp:170-184): the buffer is filled by the caller. -/
def filt_noarg (f : FIR_filt R) : FIR_filt R :=
  { f with
    m_out :=
      if 0 ≤ f.m_order
      then filt_loop f.m_BUFF_WIND_SX f.m_BUFF_WIND_CX f.m_order.toNat 0
      else 0 }

/-- One pass of the loop body of `filt_eff` (FIR_filt.hpp:200-203) at index `i`. -/
def filt_eff_body (f : FIR_filt R) (i : Nat) : FIR_filt R :=
  let a0 := f.m_dx * (f.m_Wnum i).re
              + (f.m_y_re i * (f.m_Wden i).re - f.m_y_im i * (f.m_Wden i).im)
  let yim := f.m_dx * (f.m_Wnum i).im
              + (f.m_y_im i * (f.m_Wden i).re + f.m_y_re i * (f.m_Wden i).im)
  { f with
    m_a0 := a0
    m_y_im := Function.update f.m_y_im i yim
    m_y_re := Function.update f.m_y_re i a0
    m_out := f.m_out + a0 }

/-- The function `filt_eff(double *input)` / `filt_eff(float *input)`
(FIR_filt.hpp:188-227): push, `m_dx = *input - m_ptr_fill_down[m_ElemNum]`, clear
`m_out`, then the loop `for (i = 0; i < m_Ncplx_coeff; i++)`. -/
def filt_eff (f : FIR_filt R) (x : R) : FIR_filt R :=
  let sx := f.m_BUFF_WIND_SX.fill_buff x
  let f1 := { f with
    m_BUFF_WIND_SX := sx
    m_dx := x - sx.at_fill_down f.m_ElemNum
    m_out := 0 }
  (List.range f.m_Ncplx_coeff.toNat).foldl filt_eff_body f1

/-- The function `get_coeff(int n)` (FIR_filt.hpp:232-235) for `n >= 0`. -/
def get_coeff (f : FIR_filt R) (n : Nat) : R :=
  f.m_BUFF_WIND_CX.m_buff.getD n 0

/-- The function `get_flt_order()` (FIR_filt.hpp:238-241). -/
def get_flt_order (f : FIR_filt R) : Int :=
  f.m_order + 1

/-- The sum of §4.6 step 2, `y = Σ c[n]·s[n+1]` for n = 0..N, accumulated from the
lowest tap index to the highest. -/
def sum_low_to_high (c : Nat → R) (s : Int → R) (N : Nat) : R :=
  (List.range (N + 1)).foldl (fun acc n => acc + c n * s ((n : Int) + 1)) 0

/-- The filter after the first `k` samples of the stream `x` went through `filt`. -/
def filt_stream (f : FIR_filt R) (x : Nat → R) : Nat → FIR_filt R
  | 0 => f
  | k + 1 => (filt_stream f x k).filt (x k)

/-- The filter after the first `k` samples of the stream `x` went through `filt_eff`. -/
def filt_eff_stream (f : FIR_filt R) (x : Nat → R) : Nat → FIR_filt R
  | 0 => f
  | k + 1 => (filt_eff_stream f x k).filt_eff (x k)

end FIR_filt


/-! ## The run stage with the read windows enforced -/

namespace mirror_ring_buff

variable {R : Type}

/-- The read `m_ptr_fill_down[i]` with the window of §4.1 enforced: positions 1..C are
defined, every other position (0 and C+1 among them) is not. -/
def read_fill_down [Zero R] (b : mirror_ring_buff R) (i : Int) : Option R :=
  if 1 ≤ i ∧ i ≤ (b.m_buff_size : Int) then some (b.at_fill_down i) else none

end mirror_ring_buff

namespace FIR_filt

variable {R : Type} [CommRing R]

/-- The read `m_BUFF_WIND_CX.m_buff[n]` with the tap range enforced: a filter of order N
has the taps c[0..N] (§3), every other index is not defined. -/
def read_coeff (f : FIR_filt R) (n : Nat) : Option R :=
  if (n : Int) ≤ f.m_order then some (f.m_BUFF_WIND_CX.m_buff.getD n 0) else none

/-- The tap loop of FIR_filt.hpp:141-144 over the guarded reads: `none` as soon as one
read leaves its window. -/
def filt_loop_checked (f : FIR_filt R) (sx : mirror_ring_buff R) : Nat → R → Option R
  | 0, out =>
      (sx.read_fill_down ((0 : Nat) + 1)).bind fun s =>
      (f.read_coeff 0).bind fun c =>
      some (out + s * c)
  | n + 1, out =>
      (sx.read_fill_down ((n + 1 : Nat) + 1)).bind fun s =>
      (f.read_coeff (n + 1)).bind fun c =>
      filt_loop_checked f sx n (out + s * c)

/-- The function `filt(in)` (FIR_filt.hpp:132-167) over the guarded reads. -/
def filt_checked (f : FIR_filt R) (x : R) : Option (FIR_filt R) :=
  let sx := f.m_BUFF_WIND_SX.fill_buff x
  if 0 ≤ f.m_order
  then (filt_loop_checked f sx f.m_order.toNat 0).map fun out =>
    { f with m_BUFF_WIND_SX := sx, m_out := out }
  else some { f with m_BUFF_WIND_SX := sx, m_out := 0 }

/-- The function `filt()` (FIR_filt.hpp:170-184) over the guarded reads. -/
def filt_noarg_checked (f : FIR_filt R) : Option (FIR_filt R) :=
  if 0 ≤ f.m_order
  then (filt_loop_checked f f.m_BUFF_WIND_SX f.m_order.toNat 0).map fun out =>
    { f with m_out := out }
  else some { f with m_out := 0 }

/-- The function `filt_eff(input)` (FIR_filt.hpp:188-227) over the guarded read of the
fill-down view; the pole arrays are read at the loop index only. -/
def filt_eff_checked (f : FIR_filt R) (x : R) : Option (FIR_filt R) :=
  let sx := f.m_BUFF_WIND_SX.fill_buff x
  (sx.read_fill_down f.m_ElemNum).map fun s =>
    (List.range f.m_Ncplx_coeff.toNat).foldl filt_eff_body
      { f with m_BUFF_WIND_SX := sx, m_dx := x - s, m_out := 0 }

/-- A pole weight as a complex number. -/
def vector.toComplex (v : FIR_filt.vector Real) : Complex :=
  ⟨v.re, v.im⟩

end FIR_filt

/-! ## The math library and the design stage -/

/-- The functions of `<cmath>` that the sources call, with `two_pi` the real number for
which the sources write the decimal literal 6.283185307179586476925286766559. -/
structure cmath (R : Type) where
  cos : R → R
  sin : R → R
  sqrt : R → R
  atan2 : R → R → R
  two_pi : R

/-- Modelled from the spec: the design stage of the efficient realization lives in
`FIR_filt.cpp`, which is not among the sources. §4.5: the poles are "uniformly spaced at
ω_k = 2π·k/N" and "W_den[k] = e^{jω_k}". -/
def design_Wden {R : Type} [Field R] (m : cmath R) (N k : Nat) : FIR_filt.vector R :=
  ⟨m.cos (m.two_pi * (k : R) / (N : R)), m.sin (m.two_pi * (k : R) / (N : R))⟩

/-- Modelled from the spec: the numerator weights of the same missing design stage,
§4.5: "W_num[k] = c[k]·e^{jω_k·N}" with ω_k = 2π·k/N and c the taps. -/
def design_Wnum {R : Type} [Field R] (m : cmath R) (c : Nat → R) (N k : Nat) :
    FIR_filt.vector R :=
  ⟨c k * m.cos (m.two_pi * (k : R) / (N : R) * (N : R)),
    c k * m.sin (m.two_pi * (k : R) / (N : R) * (N : R))⟩

/-! ## The aperiodic filter -/

/-- The fields of `class aperiodic_filt` that `aperiodic_filt.cpp` reads or writes. -/
structure aperiodic_filt (R : Type) where
  m_Fs : R
  m_Fn : R
  m_Ts : R
  m_order : Int
  m_ElemNum : Int
  m_MBUFF : mirror_ring_buff R
  m_out : R
  m_Km : R
  m_pH : R
  m_in_F : R

namespace aperiodic_filt

variable {R : Type} [Field R]

/-- The function `aperiodic_filt::FreqCharacteristics()` (aperiodic_filt.cpp:71-85);
the products associate to the left as in the source. -/
def FreqCharacteristics (m : cmath R) (a : aperiodic_filt R) : aperiodic_filt R :=
  let Re := 1 - m.cos ((((-m.two_pi) * (a.m_order : R)) * a.m_in_F) * a.m_Ts)
  let Im := 0 - m.sin ((((-m.two_pi) * (a.m_order : R)) * a.m_in_F) * a.m_Ts)
  { a with
    m_pH := m.atan2 Im Re
    m_Km := m.sqrt (Re * Re + Im * Im) * 0.5 }

end aperiodic_filt

/-! ## Concrete states used to evaluate the definitions -/

/-- A sample buffer of capacity 3, allocated and still empty. -/
def sx3 (R : Type) [Zero R] : mirror_ring_buff R :=
  (mirror_ring_buff.BuffInit ⟨0, [], 0⟩ 3).allocate

/-- An order-2 filter with the taps 1, 2, 1, a window of 3 samples and one pole with the
weights 1+0j. -/
def fir121 (R : Type) [CommRing R] : FIR_filt R :=
  { m_order := 2
    m_BUFF_WIND_CX := ⟨3, [1, 2, 1, 1, 2, 1], 0⟩
    m_Wnum := fun _ => ⟨1, 0⟩
    m_Wden := fun _ => ⟨1, 0⟩
    m_ElemNum := 3
    m_Ncplx_coeff := 1
    m_a0 := 0
    m_dx := 0
    m_y_re := fun _ => 0
    m_y_im := fun _ => 0
    m_BUFF_WIND_SX := sx3 R
    m_out := 0 }

/-- An order-2 filter with the taps 1, -1, 0 and the one pole W_num = 1, W_den = -1,
for which 1, -1 are the values Re(W_num·W_den^m), m = 0, 1. -/
def fir_alt (R : Type) [CommRing R] : FIR_filt R :=
  { m_order := 2
    m_BUFF_WIND_CX := ⟨3, [1, -1, 0, 1, -1, 0], 0⟩
    m_Wnum := fun _ => ⟨1, 0⟩
    m_Wden := fun _ => ⟨-1, 0⟩
    m_ElemNum := 3
    m_Ncplx_coeff := 1
    m_a0 := 0
    m_dx := 0
    m_y_re := fun _ => 0
    m_y_im := fun _ => 0
    m_BUFF_WIND_SX := sx3 R
    m_out := 0 }

/-- The unit impulse 1, 0, 0, ... -/
def impulse (R : Type) [Zero R] [One R] : Nat → R :=
  fun m => if m = 0 then 1 else 0


/-! ## Quantities in which the efficient path is described -/

/-- The sample `m` places back from the newest of the first `K` samples of the stream
`x`; 0 where the stream has not started yet. -/
def delayed {R : Type} [Zero R] (x : Nat → R) (K m : Nat) : R :=
  if m < K then x (K - 1 - m) else 0

namespace FIR_filt

/-- The complex accumulator y_k = (m_y_re[k], m_y_im[k]). -/
def accum (f : FIR_filt ℝ) (k : Nat) : ℂ :=
  ⟨f.m_y_re k, f.m_y_im k⟩

/-- The impulse response carried by the pole data: h[m] is the sum over the poles k
below `m_Ncplx_coeff` of Re(W_num[k]·W_den[k]^m). -/
def pole_response (f : FIR_filt ℝ) (m : Nat) : ℝ :=
  ∑ k ∈ Finset.range f.m_Ncplx_coeff.toNat,
    ((f.m_Wnum k).toComplex * (f.m_Wden k).toComplex ^ m).re

end FIR_filt

/-- The order-2 filter with the taps 1, 2, 1 and a window of 3 samples, with the pole
weights and the number of poles given. -/
def fir121_poles (R : Type) [CommRing R] (Wnum Wden : Nat → FIR_filt.vector R) (M : Int) :
    FIR_filt R :=
  { m_order := 2
    m_BUFF_WIND_CX := ⟨3, [1, 2, 1, 1, 2, 1], 0⟩
    m_Wnum := Wnum
    m_Wden := Wden
    m_ElemNum := 3
    m_Ncplx_coeff := M
    m_a0 := 0
    m_dx := 0
    m_y_re := fun _ => 0
    m_y_im := fun _ => 0
    m_BUFF_WIND_SX := sx3 R
    m_out := 0 }

/-! ## The aperiodic filter: construction and initialisation -/

/-- The conversion of a `double` to an `int` (truncation toward zero), as in the
assignment `m_order = m_Fs / m_Fn / 2` of aperiodic_filt.cpp:16 and :39. -/
def fx_to_int {R : Type} [LinearOrderedField R] [FloorRing R] (x : R) : Int :=
  if 0 ≤ x then ⌊x⌋ else ⌈x⌉

namespace mirror_ring_buff

/-- Modelled from the spec: the call `allocate(true)` of the missing header together with
its status. §7: an allocation can fail ("AllocationFailure: inability to reserve a buffer
during `allocate()`"); `reserved` says whether the storage could be reserved. On failure
the buffer is left as it was and the status is non-zero. -/
def allocate_status {R : Type} [Zero R] (b : mirror_ring_buff R) (reserved : Bool) :
    mirror_ring_buff R × Int :=
  if reserved then (b.allocate, 0) else (b, 1)

end mirror_ring_buff

namespace aperiodic_filt

variable {R : Type} [LinearOrderedField R] [FloorRing R]

/-- The constructor `aperiodic_filt::aperiodic_filt()` (aperiodic_filt.cpp:10-27); `b0` is
the member `m_MBUFF` as its own constructor left it. -/
def constructor (b0 : mirror_ring_buff R) : aperiodic_filt R :=
  { m_Fs := 4000
    m_Fn := 50
    m_Ts := 1 / 4000
    m_order := fx_to_int ((4000 : R) / 50 / 2)
    m_ElemNum := fx_to_int ((4000 : R) / 50 / 2) + 1
    m_MBUFF := b0.BuffInit (fx_to_int ((4000 : R) / 50 / 2) + 1).toNat
    m_out := 0
    m_Km := 0
    m_pH := 0
    m_in_F := 50 }

/-- The function `aperiodic_filt::filtInit(Fs, Fn)` (aperiodic_filt.cpp:33-52): the new
state and the returned status. -/
def filtInit (a : aperiodic_filt R) (Fs Fn : R) : aperiodic_filt R × Int :=
  ({ a with
      m_Fs := Fs
      m_Fn := Fn
      m_Ts := 1 / Fs
      m_order := fx_to_int (Fs / Fn / 2)
      m_ElemNum := fx_to_int (Fs / Fn / 2) + 1
      m_MBUFF := a.m_MBUFF.BuffInit (fx_to_int (Fs / Fn / 2) + 1).toNat
      m_out := 0
      m_Km := 0
      m_pH := 0
      m_in_F := Fn }, 0)

/-- The function `aperiodic_filt::allocate()` (aperiodic_filt.cpp:55-60): it calls
`m_MBUFF.allocate(true)`, drops what the call returns and returns 0. `reserved` is the
outcome of the underlying allocation. -/
def allocate (a : aperiodic_filt R) (reserved : Bool) : aperiodic_filt R × Int :=
  ({ a with m_MBUFF := (a.m_MBUFF.allocate_status reserved).1 }, 0)

/-- The function `aperiodic_filt::deallocate()` (aperiodic_filt.cpp:63-68), with the
released buffer modelled as empty storage. -/
def deallocate (a : aperiodic_filt R) : aperiodic_filt R × Int :=
  ({ a with m_MBUFF := { a.m_MBUFF with m_buff := [] } }, 0)

end aperiodic_filt

/-- A mirror buffer before `BuffInit`. -/
def mbuff0 (R : Type) : mirror_ring_buff R :=
  ⟨0, [], 0⟩

/-! ## The FIR filter: cascading and the design calls -/

namespace FIR_filt

variable {R : Type} [CommRing R]

/-- Modelled from the spec: the inner loop of a convolution, `g[i + j] += h[i] * c[j]`
for j = 0..Nc-1, on the taps `g` under construction (§6 "convolve current taps with an
external tap set Nc long"). -/
def convolve_row (hi : R) (c : Nat → R) (Nc i : Nat) (g : Nat → R) : Nat → R :=
  (List.range Nc).foldl (fun acc j => Function.update acc (i + j) (acc (i + j) + hi * c j)) g

/-- Modelled from the spec: the convolution of the taps h[0..L-1] with the taps
c[0..Nc-1] (§6), accumulated product by product into taps that start at 0. -/
def convolve (h c : Nat → R) (L Nc : Nat) : Nat → R :=
  (List.range L).foldl (fun acc i => convolve_row (h i) c Nc i acc) (fun _ => 0)

/-- Modelled from the spec: the function `FIR_filt::Cascade(float *c, int Nc)` is declared
in FIR_filt.hpp:127 and its body (FIR_filt.cpp) is not among the sources. §6:
"`cascade(c[], Nc)` — convolve current taps with an external tap set Nc long, producing an
equivalent single filter of order N+Nc−1". The new taps fill both halves of the
coefficient storage, the sample window is reserved anew for the new order (§3), the
status is 0. -/
def Cascade (f : FIR_filt R) (c : Nat → R) (Nc : Nat) : FIR_filt R × Int :=
  let L := (f.m_order + 1).toNat
  let g := (List.range (L + Nc - 1)).map (convolve f.get_coeff c L Nc)
  ({ f with
      m_order := f.m_order + (Nc : Int) - 1
      m_BUFF_WIND_CX := ⟨L + Nc - 1, g ++ g, 0⟩
      m_BUFF_WIND_SX := (f.m_BUFF_WIND_SX.BuffInit (L + Nc - 1)).allocate }, 0)

end FIR_filt

namespace FIR_filt

variable {R : Type} [LinearOrderedField R]

/-- Modelled from the spec: the function `FIR_filt::LP_Init(Fs, Fn, F_stop, order, scale)`
is declared in FIR_filt.hpp:105 and its body (FIR_filt.cpp) is not among the sources.
§4.5: "When `Fstop ≥ Fs/2`, the design call reports an out-of-range failure"; §7:
"InvalidParameter: cutoff outside (0, Fs/2); ... non-positive order", returned as a
status code, 0 for success. A rejected call leaves the filter as it was. The computation
of the low-pass taps (§4.5) is the parameter `design`. -/
def LP_Init (design : FIR_filt R → R → R → R → Int → Bool → FIR_filt R) (f : FIR_filt R)
    (Fs Fn F_stop : R) (order : Int) (scale : Bool) : FIR_filt R × Int :=
  if 0 < F_stop ∧ F_stop < Fs / 2 ∧ 0 < order
  then (design f Fs Fn F_stop order scale, 0)
  else (f, 1)

/-- Modelled from the spec: the function `FIR_filt::HP_Init(Fs, Fn, F_stop, order, scale)`
is declared in FIR_filt.hpp:106 and its body (FIR_filt.cpp) is not among the sources. The
same rejections as for `LP_Init` (§4.5, §7); the computation of the high-pass taps is the
parameter `design`. -/
def HP_Init (design : FIR_filt R → R → R → R → Int → Bool → FIR_filt R) (f : FIR_filt R)
    (Fs Fn F_stop : R) (order : Int) (scale : Bool) : FIR_filt R × Int :=
  if 0 < F_stop ∧ F_stop < Fs / 2 ∧ 0 < order
  then (design f Fs Fn F_stop order scale, 0)
  else (f, 1)

end FIR_filt

/-- The length-5 box filter with the taps 0.2, 0.2, 0.2, 0.2, 0.2 (§8, scenario 5). -/
def fir_box (R : Type) [Field R] : FIR_filt R :=
  { m_order := 4
    m_BUFF_WIND_CX := ⟨5, [0.2, 0.2, 0.2, 0.2, 0.2, 0.2, 0.2, 0.2, 0.2, 0.2], 0⟩
    m_Wnum := fun _ => ⟨0, 0⟩
    m_Wden := fun _ => ⟨0, 0⟩
    m_ElemNum := 5
    m_Ncplx_coeff := 0
    m_a0 := 0
    m_dx := 0
    m_y_re := fun _ => 0
    m_y_im := fun _ => 0
    m_BUFF_WIND_SX := ((mbuff0 R).BuffInit 5).allocate
    m_out := 0 }

/-! ## Special functions (special_functions.h) -/

/-- The number of low bits that the whole number `v` loses when it is stored in a
`long double`, whose significand has 64 bits (`__EPSILON_xx64__`, special_functions.h:172,
is 2^-63): 0 below 2^64, and otherwise the `e` with 2^63 <= v / 2^e < 2^64. `fuel` bounds
the search. -/
def fxx64_drop : Nat → Nat → Nat
  | 0, _ => 0
  | fuel + 1, v => if v < 2 ^ 64 then 0 else fxx64_drop fuel (v / 2) + 1

/-- The whole number `v` rounded to the `long double` format: to the nearest number with
64 bits of significand, a tie going to the even significand. A whole number below 2^64 is
kept as it is. The exponent range of the format is not modelled: it is left only from
1755! on, where the product in the source is infinity. -/
def fxx64_round (v : Nat) : Nat :=
  let e := fxx64_drop v v
  let q := v / 2 ^ e
  let r := v % 2 ^ e
  (if 2 * r > 2 ^ e ∨ (2 * r = 2 ^ e ∧ q % 2 = 1) then q + 1 else q) * 2 ^ e

/-- The function `__factorial__( __ix64 n )` (special_functions.h:811-817):
`__fxx64 out = 1; for( __ix64 i = 1 ; i <= n ; i++ ) out *= i;`. The counter converts to
`long double` unchanged and every product is rounded to that format, so the value is a
whole number, the exact product as long as it needs no more than 64 bits of significand. -/
def __factorial__ (n : Int) : Nat :=
  (List.range' 1 n.toNat).foldl (fun out i => fxx64_round (out * i)) 1

/-- The conversion of an unsigned 64-bit integer to `__ix64` (two's complement), as at the
call `__factorial__(n-1)` of special_functions.h:823. -/
def uix64_to_ix64 (u : Nat) : Int :=
  if u < 2 ^ 63 then (u : Int) else (u : Int) - 2 ^ 64

/-- The conversion of a `long double` holding the whole number `v` to `__uix64`: the
value itself when it fits in 64 bits; otherwise the conversion is undefined in the source
and the model takes the 64-bit value `undef v`. -/
def fxx64_to_uix64 (undef : Nat → Nat) (v : Nat) : Nat :=
  if v < 2 ^ 64 then v else undef v % 2 ^ 64

/-- The function `__gamma_integer__( __uix64 n )` (special_functions.h:823):
`return __factorial__(n-1);` with `n-1` taken in unsigned 64-bit arithmetic. -/
def __gamma_integer__ (undef : Nat → Nat) (n : Nat) : Nat :=
  fxx64_to_uix64 undef (__factorial__ (uix64_to_ix64 ((n + 2 ^ 64 - 1) % 2 ^ 64)))

/-- The loop of `__modified_bessel_in__` (special_functions.h:890-896) with `fuel` passes
left, entered at the index `n` with the running `sum` and the last `gamma2`. -/
def modified_bessel_loop {R : Type} [LinearOrderedField R] (undef : Nat → Nat) (x : R)
    (order : Int) : Nat → Nat → R → R → R
  | 0, _, sum, _ => sum
  | fuel + 1, n, sum, gamma2 =>
      if gamma2 / 1.7976931348623158e+308 > 0.9 then sum
      else
        modified_bessel_loop undef x order fuel (n + 1)
          (sum + (x / 2) ^ (2 * (n : Int) + order)
            / (__gamma_integer__ undef (n + 1) : R)
            / (__gamma_integer__ undef (((n : Int) + order + 1) % 2 ^ 64).toNat : R))
          (__gamma_integer__ undef (((n : Int) + order + 1) % 2 ^ 64).toNat : R)

/-- The function `__modified_bessel_in__( x , order )` (special_functions.h:887-898):
at most 16 passes of the loop, from `sum = 0` and `gamma2 = 0`. -/
def __modified_bessel_in__ {R : Type} [LinearOrderedField R] (undef : Nat → Nat) (x : R)
    (order : Int) : R :=
  modified_bessel_loop undef x order 16 0 0 0

/-! ## Window functions (special_functions.h, class wind_fcn) -/

/-- The functions of `<cmath>` that the Chebyshev window calls, with `pi` the real number
for which the source writes the literal `PI0`. -/
structure cmath_win (R : Type) where
  cos : R → R
  acos : R → R
  cosh : R → R
  acosh : R → R
  pow : R → R → R
  pi : R

/-- The fields of `class wind_fcn` (special_functions.h:917-923). `m_order` is a `double`
in the source that `init( __ix32 )` alone writes, so it holds a whole number; `m_buff` is
`none` for the null pointer and the array otherwise. -/
structure wind_fcn (R : Type) where
  m_order : Int
  m_wind_ready : Bool
  m_buff : Option (List R)

namespace wind_fcn

variable {R : Type}

/-- The constructor `wind_fcn()` (special_functions.h:927-931); it does not write
`m_order`, whose value before `init` is `order0`. -/
def constructor (order0 : Int) : wind_fcn R :=
  { m_order := order0, m_wind_ready := false, m_buff := none }

/-- The function `init( __ix32 order )` (special_functions.h:939-943). -/
def init (w : wind_fcn R) (order : Int) : wind_fcn R :=
  { w with m_order := order, m_buff := none }

/-- The function `allocate()` (special_functions.h:950-954): `calloc` of `m_order`
zeroed elements, `reserved` telling whether it succeeds; returns `!m_buff`. -/
def allocate [Zero R] (w : wind_fcn R) (reserved : Bool) : wind_fcn R × Int :=
  if reserved then ({ w with m_buff := some (List.replicate w.m_order.toNat 0) }, 0)
  else ({ w with m_buff := none }, 1)

/-- The function `deallocate()` (special_functions.h:962-969). -/
def deallocate (w : wind_fcn R) : wind_fcn R :=
  { w with m_buff := none }

/-- The assignment `m_buff[n] = v`. A write through the null pointer or past the array is
undefined in the source; the model drops it. -/
def store (w : wind_fcn R) (n : Nat) (v : R) : wind_fcn R :=
  { w with m_buff := w.m_buff.map fun l => l.set n v }

/-- The read `m_buff[n]`, which is also `operator []` (special_functions.h:1496). A read
through the null pointer or past the array is undefined in the source; the model gives it
the value 0. -/
def load [Zero R] (w : wind_fcn R) (n : Nat) : R :=
  match w.m_buff with
  | some l => l.getD n 0
  | none => 0

/-- The function `is_ready()` (special_functions.h:1491). -/
def is_ready (w : wind_fcn R) : Bool :=
  w.m_wind_ready

/-- The function `Kaiser( betta )` (special_functions.h:1284-1305): the new state and the
returned `m_wind_ready`. -/
def Kaiser [LinearOrderedField R] (m : cmath R) (undef : Nat → Nat) (w : wind_fcn R)
    (reserved : Bool) (betta : R) : wind_fcn R × Int :=
  let w1 := (w.allocate reserved).1
  let w2 := (List.range w1.m_order.toNat).foldl
    (fun acc (n : Nat) =>
      let A := ((n : R) - ((w1.m_order : R) - 1) / 2) / (((w1.m_order : R) - 1) / 2)
      let B := betta * m.sqrt (1 - A * A)
      let C := betta
      acc.store n (__modified_bessel_in__ undef B 0 / __modified_bessel_in__ undef C 0))
    w1
  ({ w2 with m_wind_ready := true }, 1)

/-- The function `cheby_poly( n , x )` (special_functions.h:1103-1109). -/
def cheby_poly [LinearOrderedField R] (m : cmath_win R) (n : Int) (x : R) : R :=
  if |x| ≤ 1 then m.cos ((n : R) * m.acos x) else m.cosh ((n : R) * m.acosh x)

/-- The inner loop of `Chebyshev` (special_functions.h:1148),
`for (kk = 1; kk <= M; kk++) sum += cheby_poly(Ns - 1, x0*cos(PI0*kk / Ns))*cos(2.0*n*PI0*kk / Ns);`
entered at `kk` with the running `sum`, with `fuel` passes allowed. -/
def Chebyshev_sum [LinearOrderedField R] (m : cmath_win R) (Ns : Int) (x0 M n : R) :
    Nat → Int → R → R
  | 0, _, sum => sum
  | fuel + 1, kk, sum =>
      if (kk : R) ≤ M then
        Chebyshev_sum m Ns x0 M n fuel (kk + 1)
          (sum + cheby_poly m (Ns - 1) (x0 * m.cos (m.pi * (kk : R) / (Ns : R)))
            * m.cos (2.0 * n * m.pi * (kk : R) / (Ns : R)))
      else sum

/-- The line `tg = pow(10, atten / 20)` of `Chebyshev` (special_functions.h:1138). -/
def Chebyshev_tg [LinearOrderedField R] (m : cmath_win R) (atten : R) : R :=
  m.pow 10 (atten / 20)

/-- The line `x0 = cosh((1.0 / (Ns - 1))*acosh(tg))` of `Chebyshev`
(special_functions.h:1139). -/
def Chebyshev_x0 [LinearOrderedField R] (m : cmath_win R) (Ns : Int) (atten : R) : R :=
  m.cosh ((1.0 / ((Ns : R) - 1)) * m.acosh (Chebyshev_tg m atten))

/-- The lines `M = (Ns - 1) / 2; if (Ns % 2 == 0) M = M + 0.5;` of `Chebyshev`
(special_functions.h:1140-1142); the division and the remainder are those of `int`. -/
def Chebyshev_M [LinearOrderedField R] (Ns : Int) : R :=
  if Int.tmod Ns 2 = 0 then ((Int.tdiv (Ns - 1) 2 : Int) : R) + 0.5
  else ((Int.tdiv (Ns - 1) 2 : Int) : R)

/-- The value `tg + 2 * sum` that the pass `nn` of the outer loop of `Chebyshev` stores
(special_functions.h:1146-1149), with `n = nn - M` and the inner loop run from `sum = 0`. -/
def Chebyshev_value [LinearOrderedField R] (m : cmath_win R) (Ns : Int) (atten : R)
    (nn : Nat) : R :=
  Chebyshev_tg m atten
    + 2 * Chebyshev_sum m Ns (Chebyshev_x0 m Ns atten) (Chebyshev_M Ns)
        ((nn : R) - Chebyshev_M Ns) Ns.toNat 1 0

/-- One pass of the outer loop of `Chebyshev` (special_functions.h:1144-1152) at the
index `nn`, on the window and the running `max`. -/
def Chebyshev_body [LinearOrderedField R] (m : cmath_win R) (Ns : Int) (atten : R)
    (s : wind_fcn R × R) (nn : Nat) : wind_fcn R × R :=
  let w1 := s.1.store nn (Chebyshev_value m Ns atten nn)
  let w2 := w1.store (Ns - (nn : Int) - 1).toNat (w1.load nn)
  (w2, if w2.load nn > s.2 then w2.load nn else s.2)

/-- The outer loop of `Chebyshev`, `for (nn = 0; nn < (Ns / 2 + 1); nn++)`, from
`max = 0`: the window and the final `max`. -/
def Chebyshev_fill [LinearOrderedField R] (m : cmath_win R) (w : wind_fcn R) (atten : R) :
    wind_fcn R × R :=
  (List.range (Int.tdiv w.m_order 2 + 1).toNat).foldl
    (Chebyshev_body m w.m_order atten) (w, 0)

/-- The function `Chebyshev( atten )` (special_functions.h:1130-1157): the new state and
the returned `m_wind_ready`. After the outer loop every element is divided by `max`. -/
def Chebyshev [LinearOrderedField R] (m : cmath_win R) (w : wind_fcn R) (reserved : Bool)
    (atten : R) : wind_fcn R × Int :=
  let w1 := (w.allocate reserved).1
  let s := Chebyshev_fill m w1 atten
  let w3 := (List.range w1.m_order.toNat).foldl
    (fun acc nn => acc.store nn (acc.load nn / s.2)) s.1
  ({ w3 with m_wind_ready := true }, 1)

end wind_fcn

/-! ## Nonnegative Chebyshev combinations -/

/-- The nonnegative combinations of the Chebyshev polynomials T_k whose index k has the
parity of `e`. -/
inductive ChebCone : Nat → Polynomial ℝ → Prop
  | zero (e : Nat) : ChebCone e 0
  | gen (e k : Nat) (c : ℝ) : 0 ≤ c → k % 2 = e % 2 →
      ChebCone e (Polynomial.C c * Polynomial.Chebyshev.T ℝ (k : ℤ))
  | add (e : Nat) (p q : Polynomial ℝ) : ChebCone e p → ChebCone e q → ChebCone e (p + q)


/-- The math library over the reals: cos, acos, cosh and the power are the real
functions, acosh(y) = log(y + sqrt(y^2 - 1)) and `pi` is π. -/
def cmath_win.is_real (m : cmath_win ℝ) : Prop :=
  m.cos = Real.cos ∧ m.acos = Real.arccos ∧ m.cosh = Real.cosh ∧
  (∀ y, m.acosh y = Real.log (y + Real.sqrt (y ^ 2 - 1))) ∧
  (∀ a b : ℝ, m.pow a b = a ^ b) ∧ m.pi = Real.pi

/-! ## The Gaussian window -/

namespace wind_fcn

variable {R : Type}

/-- The index `n` of the pass `k` of `Gaussian` (special_functions.h:1214-1215):
`n = k - Ns/2; if (n >= 0) n = k - Ns/2 + 1;` with the division of `int`. -/
def Gaussian_n (Ns : Int) (k : Nat) : Int :=
  if (k : Int) - Int.tdiv Ns 2 ≥ 0 then (k : Int) - Int.tdiv Ns 2 + 1
  else (k : Int) - Int.tdiv Ns 2

/-- The function `Gaussian( alpha )` (special_functions.h:1203-1223): the new state and
the returned `m_wind_ready`; `exp` is the function of `<cmath>`. Every pass computes
`sigma = ((__fx64)Ns-1) / 2 / alpha` and stores
`exp(-(__fx64)n * (__fx64)n / 2 / sigma / sigma)`. -/
def Gaussian [LinearOrderedField R] (exp : R → R) (w : wind_fcn R) (reserved : Bool)
    (alpha : R) : wind_fcn R × Int :=
  let w1 := (w.allocate reserved).1
  let w2 := (List.range w1.m_order.toNat).foldl
    (fun acc (k : Nat) =>
      let n := Gaussian_n w1.m_order k
      let sigma := ((w1.m_order : R) - 1) / 2 / alpha
      acc.store k (exp (-(n : R) * (n : R) / 2 / sigma / sigma)))
    w1
  ({ w2 with m_wind_ready := true }, 1)

end wind_fcn

/-! ## Elliptic functions (special_functions.h) -/

/-- The functions of `<cmath>` that the elliptic functions call; `pi` is the real number
of which the source writes the multiples `PI2` (2π) and `PI_2` (π/2) as decimal
literals. -/
structure cmath_ellip (R : Type) where
  sqrt : R → R
  sin : R → R
  asin : R → R
  atan : R → R
  exp : R → R
  pi : R

/-- The macro `__ITERATIONS_NUMBER__` (special_functions.h:33). -/
def __ITERATIONS_NUMBER__ : Nat := 30

/-- The macro `__EPSILON_xx64__` (special_functions.h:172). -/
def __EPSILON_xx64__ {R : Type} [Field R] : R := 1.0842e-19

/-- The local variables of the arithmetic-geometric-mean loops of `__am__`, `__ellip_k__`
and `__ellip_e__`: the arrays `a`, `g`, `c`, the numbers `two_n` and `sum`, and the
index `n`. -/
structure agm_vars (R : Type) where
  a : List R
  g : List R
  c : List R
  two_n : R
  sum : R
  n : Nat

/-- A local array `__fxx64 arr[__ITERATIONS_NUMBER__ + 1]` before anything is written to
it. Its elements are indeterminate in the source; the model holds 0 there. -/
def agm_array (R : Type) [Zero R] : List R :=
  List.replicate (__ITERATIONS_NUMBER__ + 1) 0

/-- The read `arr[i]`: defined for an index inside the array, undefined otherwise. -/
def arr_read {R : Type} (arr : List R) (i : Nat) : Option R :=
  arr[i]?

/-- The write `arr[i] = v`: defined for an index inside the array, undefined otherwise. -/
def arr_write {R : Type} (arr : List R) (i : Nat) (v : R) : Option (List R) :=
  if i < arr.length then some (arr.set i v) else none

/-- The modulus after `k = fabsl(k); if (k < -1) k = -1; else if (k > +1) k = +1;`
(special_functions.h:217-221, 731-735, 768-772). -/
def ellip_modulus {R : Type} [LinearOrderedField R] (k : R) : R :=
  if |k| < -1 then -1 else if |k| > 1 then 1 else |k|

/-- The loop of `__ellip_k__` (special_functions.h:747-753) from the state `s` on:
`for (; n < __ITERATIONS_NUMBER__; n++) { if (fabsl(a[n] - g[n]) < a[n] * __EPSILON_xx64__)
break; two_n += two_n; a[n+1] = 0.5L*(a[n] + g[n]); g[n+1] = sqrtl(a[n]*g[n]); }`.
The result is the state at the exit, or `none` when an index leaves its array. -/
def ellip_k_loop {R : Type} [LinearOrderedField R] (m : cmath_ellip R) (s : agm_vars R) :
    Option (agm_vars R) :=
  if s.n < __ITERATIONS_NUMBER__ then
    match arr_read s.a s.n, arr_read s.g s.n with
    | some an, some gn =>
      if |an - gn| < an * __EPSILON_xx64__ then some s
      else
        match arr_write s.a (s.n + 1) (0.5 * (an + gn)),
            arr_write s.g (s.n + 1) (m.sqrt (an * gn)) with
        | some a1, some g1 =>
          ellip_k_loop m { s with two_n := s.two_n + s.two_n, a := a1, g := g1, n := s.n + 1 }
        | _, _ => none
    | _, _ => none
  else some s
termination_by __ITERATIONS_NUMBER__ - s.n

/-- The function `__ellip_k__` up to the exit of its loop (special_functions.h:726-753):
the modulus, `a[0] = 1.0L; g[0] = sqrtl(1.0L - k * k); two_n = 1.0L;`, then the loop. -/
def ellip_k_agm {R : Type} [LinearOrderedField R] (m : cmath_ellip R) (k : R) :
    Option (agm_vars R) :=
  match arr_write (agm_array R) 0 1,
      arr_write (agm_array R) 0 (m.sqrt (1 - ellip_modulus k * ellip_modulus k)) with
  | some a0, some g0 => ellip_k_loop m ⟨a0, g0, [], 1, 0, 0⟩
  | _, _ => none

/-- The function `__ellip_k__( k )` (special_functions.h:724-755): `return PI_2 / a[n];`
after the loop. -/
def __ellip_k__ {R : Type} [LinearOrderedField R] (m : cmath_ellip R) (k : R) : Option R :=
  match ellip_k_agm m k with
  | some s => (arr_read s.a s.n).map fun an => m.pi / 2 / an
  | none => none

/-- The loop of `__ellip_e__` (special_functions.h:784-792) from the state `s` on: the
loop of `__ellip_k__` with `c[n+1] = 0.5L*(a[n] - g[n]);` and
`sum = 0.5 * c[n+1] * c[n+1] * two_n + sum;` added to each pass. -/
def ellip_e_loop {R : Type} [LinearOrderedField R] (m : cmath_ellip R) (s : agm_vars R) :
    Option (agm_vars R) :=
  if s.n < __ITERATIONS_NUMBER__ then
    match arr_read s.a s.n, arr_read s.g s.n with
    | some an, some gn =>
      if |an - gn| < an * __EPSILON_xx64__ then some s
      else
        match arr_write s.a (s.n + 1) (0.5 * (an + gn)),
            arr_write s.g (s.n + 1) (m.sqrt (an * gn)),
            arr_write s.c (s.n + 1) (0.5 * (an - gn)) with
        | some a1, some g1, some c1 =>
          match arr_read c1 (s.n + 1) with
          | some cn1 =>
            ellip_e_loop m
              { s with
                two_n := s.two_n + s.two_n
                a := a1
                g := g1
                c := c1
                sum := 0.5 * cn1 * cn1 * (s.two_n + s.two_n) + s.sum
                n := s.n + 1 }
          | none => none
        | _, _, _ => none
    | _, _ => none
  else some s
termination_by __ITERATIONS_NUMBER__ - s.n

/-- The function `__ellip_e__` up to the exit of its loop (special_functions.h:764-792):
the modulus, `two_n = 1.0L, sum = 0`,
`a[0] = 1.0L; g[0] = sqrtl(1.0L - k * k); c[0] = k;`, then the loop. -/
def ellip_e_agm {R : Type} [LinearOrderedField R] (m : cmath_ellip R) (k : R) :
    Option (agm_vars R) :=
  match arr_write (agm_array R) 0 1,
      arr_write (agm_array R) 0 (m.sqrt (1 - ellip_modulus k * ellip_modulus k)),
      arr_write (agm_array R) 0 (ellip_modulus k) with
  | some a0, some g0, some c0 => ellip_e_loop m ⟨a0, g0, c0, 1, 0, 0⟩
  | _, _, _ => none

/-- The function `__ellip_e__( k )` (special_functions.h:762-795):
`return PI_2*(1 - (sum + 0.5 * c[0] * c[0]))/ a[n];` after the loop. -/
def __ellip_e__ {R : Type} [LinearOrderedField R] (m : cmath_ellip R) (k : R) : Option R :=
  match ellip_e_agm m k with
  | some s =>
    match arr_read s.c 0, arr_read s.a s.n with
    | some c0, some an => some (m.pi / 2 * (1 - (s.sum + 0.5 * c0 * c0)) / an)
    | _, _ => none
  | none => none

/-- The forward loop of `__am__` (special_functions.h:240-247) from the state `s` on: the
loop of `__ellip_k__` with `c[n+1] = 0.5L*(a[n] - g[n]);` added to each pass. -/
def am_loop {R : Type} [LinearOrderedField R] (m : cmath_ellip R) (s : agm_vars R) :
    Option (agm_vars R) :=
  if s.n < __ITERATIONS_NUMBER__ then
    match arr_read s.a s.n, arr_read s.g s.n with
    | some an, some gn =>
      if |an - gn| < an * __EPSILON_xx64__ then some s
      else
        match arr_write s.a (s.n + 1) (0.5 * (an + gn)),
            arr_write s.g (s.n + 1) (m.sqrt (an * gn)),
            arr_write s.c (s.n + 1) (0.5 * (an - gn)) with
        | some a1, some g1, some c1 =>
          am_loop m
            { s with two_n := s.two_n + s.two_n, a := a1, g := g1, c := c1, n := s.n + 1 }
        | _, _, _ => none
    | _, _ => none
  else some s
termination_by __ITERATIONS_NUMBER__ - s.n

/-- The function `__am__` from the initialisation of the arrays to the exit of the forward
loop (special_functions.h:228-247), for the modulus `k` already clamped:
`a[0] = 1.0L; g[0] = sqrtl(1.0L - k * k); c[0] = k; two_n = 1.0L;`, then the loop. -/
def am_agm {R : Type} [LinearOrderedField R] (m : cmath_ellip R) (k : R) :
    Option (agm_vars R) :=
  match arr_write (agm_array R) 0 1,
      arr_write (agm_array R) 0 (m.sqrt (1 - k * k)),
      arr_write (agm_array R) 0 k with
  | some a0, some g0, some c0 => am_loop m ⟨a0, g0, c0, 1, 0, 0⟩
  | _, _, _ => none

/-- The backward loop of `__am__` (special_functions.h:251),
`for (; n > 0; n--) phi = 0.5L * (phi + asinl(c[n] * sinl(phi) / a[n]));`, entered at the
index `n` with the running `phi`. -/
def am_back {R : Type} [LinearOrderedField R] (m : cmath_ellip R) (s : agm_vars R) :
    Nat → R → Option R
  | 0, phi => some phi
  | n + 1, phi =>
    match arr_read s.c (n + 1), arr_read s.a (n + 1) with
    | some cn, some an => am_back m s n (0.5 * (phi + m.asin (cn * m.sin phi / an)))
    | _, _ => none

/-- The function `__am__( u , k )` (special_functions.h:208-253): the modulus, the two
special cases `if (k == 0.0) return u;` and
`if (k == 1.0) return 2.0 * atan(exp(u)) - PI2;`, the forward loop,
`phi = two_n * a[n] * u;` and the backward loop. -/
def __am__ {R : Type} [LinearOrderedField R] (m : cmath_ellip R) (u k : R) : Option R :=
  if ellip_modulus k = 0 then some u
  else if ellip_modulus k = 1 then some (2 * m.atan (m.exp u) - 2 * m.pi)
  else
    match am_agm m (ellip_modulus k) with
    | some s =>
      match arr_read s.a s.n with
      | some an => am_back m s s.n (s.two_n * an * u)
      | none => none
    | none => none

/-- The function `__sn__( u , x )` (special_functions.h:261):
`return sin( __am__( u , x ) );`. -/
def __sn__ {R : Type} [LinearOrderedField R] (m : cmath_ellip R) (u x : R) : Option R :=
  (__am__ m u x).map m.sin

/-! ## Bessel functions (special_functions.h) -/

/-- The loop of `__bessel_i1__` (special_functions.h:852-858) with `fuel` passes left,
entered at the index `n` with the running `sum`:
`fact_n = __factorial__(n); fact_n_1 = __factorial__(n + 1);
if (fact_n == 0 || fact_n_1 == 0) break;
sum = sum + pow(-1, n) * powl(x / 2, 2 * n) / fact_n / fact_n_1;`. -/
def bessel_i1_loop {R : Type} [LinearOrderedField R] (x : R) : Nat → Nat → R → R
  | 0, _, sum => sum
  | fuel + 1, n, sum =>
      if (__factorial__ (n : Int) : R) = 0 ∨ (__factorial__ ((n : Int) + 1) : R) = 0 then sum
      else
        bessel_i1_loop x fuel (n + 1)
          (sum + (-1) ^ n * (x / 2) ^ (2 * n)
            / (__factorial__ (n : Int) : R) / (__factorial__ ((n : Int) + 1) : R))

/-- The function `__bessel_i1__( x )` (special_functions.h:849-860): at most
`__ITERATIONS_NUMBER__` passes of the loop, from `sum = 0`. -/
def __bessel_i1__ {R : Type} [LinearOrderedField R] (x : R) : R :=
  bessel_i1_loop x __ITERATIONS_NUMBER__ 0 0

/-- The loop of `__bessel_in__` (special_functions.h:871-877) with `fuel` passes left,
entered at the index `n` with the running `sum`:
`fact_n = __factorial__(n); fact_n_order = __factorial__(n + order);
if (fact_n == 0 || fact_n_order == 0) break;
sum = sum + powl(-1, n) * powl(x / 2, 2 * n + order) / fact_n / fact_n_order;`. -/
def bessel_in_loop {R : Type} [LinearOrderedField R] (x : R) (order : Int) :
    Nat → Nat → R → R
  | 0, _, sum => sum
  | fuel + 1, n, sum =>
      if (__factorial__ (n : Int) : R) = 0 ∨ (__factorial__ ((n : Int) + order) : R) = 0
      then sum
      else
        bessel_in_loop x order fuel (n + 1)
          (sum + (-1) ^ n * (x / 2) ^ (2 * (n : Int) + order)
            / (__factorial__ (n : Int) : R) / (__factorial__ ((n : Int) + order) : R))

/-- The function `__bessel_in__( x , order )` (special_functions.h:868-879): at most
`__ITERATIONS_NUMBER__` passes of the loop, from `sum = 0`. -/
def __bessel_in__ {R : Type} [LinearOrderedField R] (x : R) (order : Int) : R :=
  bessel_in_loop x order __ITERATIONS_NUMBER__ 0 0

/-! ## The other window builders (special_functions.h, class wind_fcn)

Every builder calls `allocate()`, stores its weights and sets `m_wind_ready`. The literals
`PI0` and `PI2` are read as `m.pi` and `2 * m.pi`. -/

namespace wind_fcn

variable {R : Type}

/-- The function `Bartlett()` (special_functions.h:986-999): the new state and the
returned `m_wind_ready`. -/
def Bartlett [LinearOrderedField R] (w : wind_fcn R) (reserved : Bool) : wind_fcn R × Int :=
  let w1 := (w.allocate reserved).1
  let Ns : R := (w1.m_order : R)
  let w2 := (List.range w1.m_order.toNat).foldl
    (fun acc (n : Nat) =>
      acc.store n
        (if (n : R) ≤ (Ns - 1) / 2 then ((2 * (n : Int) : Int) : R) / (Ns - 1)
         else 2 - ((2 * (n : Int) : Int) : R) / (Ns - 1)))
    w1
  ({ w2 with m_wind_ready := true }, 1)

/-- The function `BartlettHanning()` (special_functions.h:1010-1023). -/
def BartlettHanning [LinearOrderedField R] (m : cmath_win R) (w : wind_fcn R)
    (reserved : Bool) : wind_fcn R × Int :=
  let w1 := (w.allocate reserved).1
  let Ns : R := (w1.m_order : R)
  let w2 := (List.range w1.m_order.toNat).foldl
    (fun acc (n : Nat) =>
      acc.store n
        (0.62 - 0.48 * |(n : R) / (Ns - 1) - 0.5|
          + 0.38 * m.cos (2 * m.pi * ((n : R) / (Ns - 1) - 0.5))))
    w1
  ({ w2 with m_wind_ready := true }, 1)

/-- The function `Blackman()` (special_functions.h:1033-1046); it returns 0. -/
def Blackman [LinearOrderedField R] (m : cmath_win R) (w : wind_fcn R) (reserved : Bool) :
    wind_fcn R × Int :=
  let w1 := (w.allocate reserved).1
  let Ns : R := (w1.m_order : R)
  let w2 := (List.range w1.m_order.toNat).foldl
    (fun acc (n : Nat) =>
      acc.store n
        (0.42 - 0.50 * m.cos (2 * m.pi * (n : R) / (Ns - 1))
          + 0.08 * m.cos (4 * m.pi * (n : R) / (Ns - 1))))
    w1
  ({ w2 with m_wind_ready := true }, 0)

/-- The function `BlackmanHarris()` (special_functions.h:1056-1069). -/
def BlackmanHarris [LinearOrderedField R] (m : cmath_win R) (w : wind_fcn R)
    (reserved : Bool) : wind_fcn R × Int :=
  let w1 := (w.allocate reserved).1
  let Ns : R := (w1.m_order : R)
  let w2 := (List.range w1.m_order.toNat).foldl
    (fun acc (n : Nat) =>
      acc.store n
        (0.35875 - 0.48829 * m.cos (2 * m.pi * (n : R) / (Ns - 1))
          + 0.14128 * m.cos (4 * m.pi * (n : R) / (Ns - 1))
          - 0.01168 * m.cos (6 * m.pi * (n : R) / (Ns - 1))))
    w1
  ({ w2 with m_wind_ready := true }, 1)

/-- The index `n` of the pass `k` of `Bohman` (special_functions.h:1091-1092):
`n = k - Ns; if ( n >= 0 ) n = k - Ns + 1;` with `Ns` and `n` of type `double`. -/
def Bohman_n [LinearOrderedField R] (Ns : R) (k : Nat) : R :=
  if (k : R) - Ns ≥ 0 then (k : R) - Ns + 1 else (k : R) - Ns

/-- The function `Bohman()` (special_functions.h:1083-1100), with
`Ns = ceil( (__fx64)m_order / 2)`; `sin` is the function of `<cmath>`. -/
def Bohman [LinearOrderedField R] [FloorRing R] (m : cmath_win R) (sin : R → R)
    (w : wind_fcn R) (reserved : Bool) : wind_fcn R × Int :=
  let w1 := (w.allocate reserved).1
  let Ns : R := ((Int.ceil ((w1.m_order : R) / 2) : Int) : R)
  let w2 := (List.range w1.m_order.toNat).foldl
    (fun acc (k : Nat) =>
      let n := Bohman_n Ns k
      acc.store k
        ((1 - |n / (Ns + 1)|) * m.cos (m.pi * |n / (Ns + 1)|)
          + 1 / m.pi * sin (m.pi * |n / (Ns + 1)|)))
    w1
  ({ w2 with m_wind_ready := true }, 1)

/-- The function `FlatTop()` (special_functions.h:1171-1184). -/
def FlatTop [LinearOrderedField R] (m : cmath_win R) (w : wind_fcn R) (reserved : Bool) :
    wind_fcn R × Int :=
  let w1 := (w.allocate reserved).1
  let Ns : R := (w1.m_order : R)
  let w2 := (List.range w1.m_order.toNat).foldl
    (fun acc (n : Nat) =>
      acc.store n
        (0.21557895 - 0.41663158 * m.cos (2 * m.pi * (n : R) / (Ns - 1))
          + 0.277263158 * m.cos (4 * m.pi * (n : R) / (Ns - 1))
          - 0.083578947 * m.cos (6 * m.pi * (n : R) / (Ns - 1))
          + 0.006947368 * m.cos (8 * m.pi * (n : R) / (Ns - 1))))
    w1
  ({ w2 with m_wind_ready := true }, 1)

/-- The function `Hamming()` (special_functions.h:1234-1246); `Ns` is an `int` here and
`Ns-1` is converted for the division. -/
def Hamming [LinearOrderedField R] (m : cmath_win R) (w : wind_fcn R) (reserved : Bool) :
    wind_fcn R × Int :=
  let w1 := (w.allocate reserved).1
  let Ns : Int := w1.m_order
  let w2 := (List.range Ns.toNat).foldl
    (fun acc (n : Nat) =>
      acc.store n (0.54 - 0.46 * m.cos (2 * m.pi * (n : R) / ((Ns - 1 : Int) : R))))
    w1
  ({ w2 with m_wind_ready := true }, 1)

/-- The function `Hann()` (special_functions.h:1257-1269). -/
def Hann [LinearOrderedField R] (m : cmath_win R) (w : wind_fcn R) (reserved : Bool) :
    wind_fcn R × Int :=
  let w1 := (w.allocate reserved).1
  let Ns : Int := w1.m_order
  let w2 := (List.range Ns.toNat).foldl
    (fun acc (n : Nat) =>
      acc.store n (0.5 - 0.5 * m.cos (2 * m.pi * (n : R) / ((Ns - 1 : Int) : R))))
    w1
  ({ w2 with m_wind_ready := true }, 1)

/-- The function `Nutall()` (special_functions.h:1319-1334). -/
def Nutall [LinearOrderedField R] (m : cmath_win R) (w : wind_fcn R) (reserved : Bool) :
    wind_fcn R × Int :=
  let w1 := (w.allocate reserved).1
  let Ns : Int := w1.m_order
  let w2 := (List.range Ns.toNat).foldl
    (fun acc (n : Nat) =>
      acc.store n
        (0.3635819 - 0.4891775 * m.cos (2 * m.pi * (n : R) / ((Ns - 1 : Int) : R))
          + 0.1365995 * m.cos (4 * m.pi * (n : R) / ((Ns - 1 : Int) : R))
          - 0.0106411 * m.cos (6 * m.pi * (n : R) / ((Ns - 1 : Int) : R))))
    w1
  ({ w2 with m_wind_ready := true }, 1)

/-- One pass of the loop of `Parzen` (special_functions.h:1363-1375) at the index `k`: the
index `n` is computed as in `Gaussian`, and an element is stored in neither, one or the
other of the two ranges of |n|, with the divisions `(Ns-1)/4` and `Ns/2` of `int`. -/
def Parzen_body [LinearOrderedField R] (m : cmath_win R) (Ns : Int) (acc : wind_fcn R)
    (k : Nat) : wind_fcn R :=
  let n := Gaussian_n Ns k
  if |n| ≥ 0 ∧ |n| ≤ Int.tdiv (Ns - 1) 4 then
    acc.store k
      (1 - 6 * |(n : R)| * |(n : R)| / ((Ns : R) * (Ns : R) / 4)
        + 6 * |(n : R)| * |(n : R)| * |(n : R)| / ((Ns : R) * (Ns : R) * (Ns : R) / 8))
  else if |n| < Int.tdiv Ns 2 ∧ |n| > Int.tdiv (Ns - 1) 4 then
    acc.store k (2 * m.pow (1 - |(n : R)| / ((Ns : R) / 2)) 3)
  else acc

/-- The function `Parzen()` (special_functions.h:1354-1380). -/
def Parzen [LinearOrderedField R] (m : cmath_win R) (w : wind_fcn R) (reserved : Bool) :
    wind_fcn R × Int :=
  let w1 := (w.allocate reserved).1
  let w2 := (List.range w1.m_order.toNat).foldl (Parzen_body m w1.m_order) w1
  ({ w2 with m_wind_ready := true }, 1)

/-- The function `Rectangular()` (special_functions.h:1391-1402). -/
def Rectangular [LinearOrderedField R] (w : wind_fcn R) (reserved : Bool) :
    wind_fcn R × Int :=
  let w1 := (w.allocate reserved).1
  let w2 := (List.range w1.m_order.toNat).foldl (fun acc (n : Nat) => acc.store n 1) w1
  ({ w2 with m_wind_ready := true }, 1)

/-- The function `Triangular()` (special_functions.h:1418-1436), with the remainder
`Ns % 2` of `int`. -/
def Triangular [LinearOrderedField R] (w : wind_fcn R) (reserved : Bool) :
    wind_fcn R × Int :=
  let w1 := (w.allocate reserved).1
  let Ns : Int := w1.m_order
  let w2 :=
    if Int.tmod Ns 2 = 0 then
      (List.range Ns.toNat).foldl
        (fun acc (n : Nat) =>
          acc.store n (1.0 - |((n : R) - ((Ns : R) - 1) / 2) / ((((Ns : R) - 1) + 1) / 2)|))
        w1
    else
      (List.range Ns.toNat).foldl
        (fun acc (n : Nat) =>
          acc.store n (1.0 - |((n : R) - ((Ns : R) - 1) / 2) / ((((Ns : R) - 1) + 2) / 2)|))
        w1
  ({ w2 with m_wind_ready := true }, 1)

/-- The weight that the pass `n` of `Tukey` stores (special_functions.h:1471-1483), with
`x = (__fx64)n / ((__fx64)Ns - 1)`. -/
def Tukey_value [LinearOrderedField R] (m : cmath_win R) (Ns : Int) (R0 : R) (n : Nat) : R :=
  let x := (n : R) / ((Ns : R) - 1)
  if x ≥ 0 ∧ x < R0 / 2 then 0.5 + 0.5 * m.cos (2 * m.pi / R0 * (x - 0.5 * R0))
  else if x ≥ 1 - 0.5 * R0 ∧ x ≤ 1 then
    0.5 + 0.5 * m.cos (2 * m.pi / R0 * (x - 1 + 0.5 * R0))
  else 1

/-- The function `Tukey( R )` (special_functions.h:1461-1489). -/
def Tukey [LinearOrderedField R] (m : cmath_win R) (w : wind_fcn R) (reserved : Bool)
    (R0 : R) : wind_fcn R × Int :=
  let w1 := (w.allocate reserved).1
  let w2 := (List.range w1.m_order.toNat).foldl
    (fun acc (n : Nat) => acc.store n (Tukey_value m w1.m_order R0 n)) w1
  ({ w2 with m_wind_ready := true }, 1)

end wind_fcn

/-! ## Sequences of operations on a window object -/

/-- The math library functions that the window builders call: those of `Kaiser`, those of
the cosine windows and `Chebyshev`, `exp` of `Gaussian`, `sin` of `Bohman`, and the
conversion that `__gamma_integer__` leaves undefined. -/
structure wind_libs (R : Type) where
  kaiser : cmath R
  win : cmath_win R
  exp : R → R
  sin : R → R
  undef : Nat → Nat

/-- The window builders of `class wind_fcn` with their arguments. -/
inductive wind_builder (R : Type) where
  | Bartlett
  | BartlettHanning
  | Blackman
  | BlackmanHarris
  | Bohman
  | Chebyshev (atten : R)
  | FlatTop
  | Gaussian (alpha : R)
  | Hamming
  | Hann
  | Kaiser (betta : R)
  | Nutall
  | Parzen
  | Rectangular
  | Triangular
  | Tukey (R0 : R)

/-- The operations on a constructed window object: `init(order)`, `deallocate()` and a
window builder, `reserved` telling whether the allocation inside the builder succeeds. -/
inductive wind_op (R : Type) where
  | init (order : Int)
  | deallocate
  | build (b : wind_builder R) (reserved : Bool)

namespace wind_fcn

variable {R : Type}

/-- The call of a window builder: the new state and the value returned. -/
def build [LinearOrderedField R] [FloorRing R] (L : wind_libs R) (w : wind_fcn R)
    (reserved : Bool) : wind_builder R → wind_fcn R × Int
  | wind_builder.Bartlett => w.Bartlett reserved
  | wind_builder.BartlettHanning => w.BartlettHanning L.win reserved
  | wind_builder.Blackman => w.Blackman L.win reserved
  | wind_builder.BlackmanHarris => w.BlackmanHarris L.win reserved
  | wind_builder.Bohman => w.Bohman L.win L.sin reserved
  | wind_builder.Chebyshev atten => w.Chebyshev L.win reserved atten
  | wind_builder.FlatTop => w.FlatTop L.win reserved
  | wind_builder.Gaussian alpha => w.Gaussian L.exp reserved alpha
  | wind_builder.Hamming => w.Hamming L.win reserved
  | wind_builder.Hann => w.Hann L.win reserved
  | wind_builder.Kaiser betta => w.Kaiser L.kaiser L.undef reserved betta
  | wind_builder.Nutall => w.Nutall L.win reserved
  | wind_builder.Parzen => w.Parzen L.win reserved
  | wind_builder.Rectangular => w.Rectangular reserved
  | wind_builder.Triangular => w.Triangular reserved
  | wind_builder.Tukey R0 => w.Tukey L.win reserved R0

/-- One operation on a window object. -/
def run [LinearOrderedField R] [FloorRing R] (L : wind_libs R) (w : wind_fcn R) :
    wind_op R → wind_fcn R
  | wind_op.init order => w.init order
  | wind_op.deallocate => w.deallocate
  | wind_op.build b reserved => (w.build L reserved b).1

/-- A sequence of operations on a window object, first to last. -/
def run_all [LinearOrderedField R] [FloorRing R] (L : wind_libs R) (w : wind_fcn R)
    (ops : List (wind_op R)) : wind_fcn R :=
  ops.foldl (run L) w

end wind_fcn

/-- Math library functions over the rationals that stand in where no value of theirs is
looked at. -/
def wind_libs_rat : wind_libs ℚ :=
  ⟨⟨id, id, id, fun y _ => y, 0⟩, ⟨id, id, id, id, fun a _ => a, 0⟩, id, id, fun _ => 0⟩

/-! ## The definitions evaluated on a short run -/

/-- The direct path on 5, 7, 1, 0 with the taps 1, 2, 1: outputs 5, 17, 20, 9, and the
storage and cursor of the window after the fourth push. -/
theorem fir121_filt_trace :
    ((fir121 Int).filt 5).m_out = 5 ∧
    (((fir121 Int).filt 5).filt 7).m_out = 17 ∧
    ((((fir121 Int).filt 5).filt 7).filt 1).m_out = 20 ∧
    (((((fir121 Int).filt 5).filt 7).filt 1).filt 0).m_out = 9 ∧
    (((((fir121 Int).filt 5).filt 7).filt 1).filt 0).m_BUFF_WIND_SX.m_buff = [0, 1, 7, 0, 1, 7] ∧
    (((((fir121 Int).filt 5).filt 7).filt 1).filt 0).m_BUFF_WIND_SX.m_ptr_fill_down = 2 := by
  decide

/-- The efficient path of `fir121` (one pole, W_num = W_den = 1, window length 3) on
5, 7, 1: the running sum of the last two samples. -/
theorem fir121_filt_eff_trace :
    ((fir121 Int).filt_eff 5).m_out = 5 ∧
    (((fir121 Int).filt_eff 5).filt_eff 7).m_out = 12 ∧
    ((((fir121 Int).filt_eff 5).filt_eff 7).filt_eff 1).m_out = 8 := by
  decide

/-! ## Lemmas on the mirror ring buffer -/

namespace mirror_ring_buff

variable {R : Type}

theorem getD_set (l : List R) (i j : Nat) (a d : R) :
    (l.set i a).getD j d = if i = j ∧ i < l.length then a else l.getD j d := by
  by_cases hij : i = j
  · subst hij
    by_cases hl : i < l.length
    · simp [List.getD_eq_getElem?_getD, List.getElem?_set, hl]
    · simp [List.getD_eq_getElem?_getD, List.getElem?_set, hl,
        List.getElem?_eq_none (not_lt.mp hl)]
  · simp [List.getD_eq_getElem?_getD, List.getElem?_set, hij]

theorem at_fill_down_nat [Zero R] (b : mirror_ring_buff R) (n : Nat) :
    b.at_fill_down (n : Int) = b.m_buff.getD (b.m_ptr_fill_down + n) 0 := by
  unfold at_fill_down
  have h : (0 : Int) ≤ (b.m_ptr_fill_down : Int) + (n : Int) := by omega
  rw [if_pos h]
  congr 1

theorem at_fill_down_succ [Zero R] (b : mirror_ring_buff R) (n : Nat) :
    b.at_fill_down ((n : Int) + 1) = b.m_buff.getD (b.m_ptr_fill_down + (n + 1)) 0 := by
  have h := at_fill_down_nat b (n + 1)
  push_cast at h
  exact h

@[simp] theorem fill_buff_size (b : mirror_ring_buff R) (x : R) :
    (b.fill_buff x).m_buff_size = b.m_buff_size := rfl

@[simp] theorem fill_buff_length (b : mirror_ring_buff R) (x : R) :
    (b.fill_buff x).m_buff.length = b.m_buff.length := by
  simp [fill_buff]

theorem fill_buff_ptr (b : mirror_ring_buff R) (x : R) :
    (b.fill_buff x).m_ptr_fill_down =
      if b.m_ptr_fill_down = 0 then b.m_buff_size - 1 else b.m_ptr_fill_down - 1 := rfl

/-- The mirrored slot written by a push: C above the cursor, or slot 0 when the cursor
is at the midpoint. -/
theorem mirror_slot (p C : Nat) (hp : p ≤ C) :
    (p + C) % (2 * C) = if p = C then 0 else p + C := by
  by_cases h : p = C
  · subst h
    simp
    have : p + p = 2 * p := by ring
    rw [this, Nat.mod_self]
  · rw [if_neg h]
    apply Nat.mod_eq_of_lt
    omega

/-- The storage after a push, slot by slot. -/
theorem fill_buff_getD [Zero R] (b : mirror_ring_buff R) (x : R) (h : b.wf) (m : Nat) :
    (b.fill_buff x).m_buff.getD m 0 =
      if m < 2 * b.m_buff_size ∧
          (m = b.m_ptr_fill_down ∨ m = b.m_ptr_fill_down + b.m_buff_size ∨
            (b.m_ptr_fill_down = b.m_buff_size ∧ m = 0))
      then x else b.m_buff.getD m 0 := by
  obtain ⟨C, l, p⟩ := b
  obtain ⟨hlen, hp, _⟩ := h
  simp only at hlen hp
  simp only [fill_buff, getD_set, List.length_set, mirror_slot _ _ hp, hlen]
  split_ifs <;> first | rfl | (exfalso; omega)

theorem wf_fill_buff [Zero R] (b : mirror_ring_buff R) (x : R) (h : b.wf) :
    (b.fill_buff x).wf := by
  refine ⟨?_, ?_, ?_⟩
  · simp [h.1]
  · have hp := h.2.1
    rw [fill_buff_ptr, fill_buff_size]
    split_ifs <;> omega
  · intro j hj
    rw [fill_buff_getD b x h, fill_buff_getD b x h]
    simp only [fill_buff_size] at hj ⊢
    have hm := h.2.2 j hj
    have hp := h.2.1
    split_ifs <;> first | rfl | exact hm | (exfalso; omega)

/-- After a push the newest sample is read at position 1 of the fill-down view. -/
theorem at_fill_buff_one [Zero R] (b : mirror_ring_buff R) (x : R) (h : b.wf)
    (hC : 0 < b.m_buff_size) : (b.fill_buff x).at_fill_down 1 = x := by
  have e := at_fill_down_succ (b.fill_buff x) 0
  simp only [Nat.cast_zero, zero_add] at e
  rw [e, fill_buff_getD b x h]
  have hp := h.2.1
  rw [fill_buff_ptr]
  split_ifs <;> first | rfl | (exfalso; omega)

/-- A push moves every sample one position further down the fill-down view. -/
theorem at_fill_buff_succ [Zero R] (b : mirror_ring_buff R) (x : R) (h : b.wf) (i : Nat)
    (hi : 0 < i) (hiC : i < b.m_buff_size) :
    (b.fill_buff x).at_fill_down ((i : Int) + 1) = b.at_fill_down (i : Int) := by
  rw [at_fill_down_succ, at_fill_down_nat, fill_buff_getD b x h]
  have hp := h.2.1
  have hm := h.2.2 i hiC
  by_cases h0 : b.m_ptr_fill_down = 0
  · have e : (b.fill_buff x).m_ptr_fill_down + (i + 1) = i + b.m_buff_size := by
      rw [fill_buff_ptr, if_pos h0]
      omega
    rw [e]
    simp only [h0, zero_add]
    split_ifs <;> first | exact hm.symm | (exfalso; omega)
  · have e : (b.fill_buff x).m_ptr_fill_down + (i + 1) = b.m_ptr_fill_down + i := by
      rw [fill_buff_ptr, if_neg h0]
      omega
    rw [e]
    split_ifs <;> first | rfl | (exfalso; omega)

theorem wf_push_stream [Zero R] (b : mirror_ring_buff R) (x : Nat → R) (h : b.wf) (k : Nat) :
    (b.push_stream x k).wf := by
  induction k with
  | zero => exact h
  | succ k ih => exact wf_fill_buff _ _ ih

@[simp] theorem push_stream_size (b : mirror_ring_buff R) (x : Nat → R) (k : Nat) :
    (b.push_stream x k).m_buff_size = b.m_buff_size := by
  induction k with
  | zero => rfl
  | succ k ih => simp [push_stream, ih]

/-- The fill-down view after `k` pushes into a well-formed buffer: the pushed samples
newest first, followed by what the view held before. -/
theorem at_push_stream [Zero R] (b : mirror_ring_buff R) (x : Nat → R) (h : b.wf) (k i : Nat)
    (hi : i < b.m_buff_size) :
    (b.push_stream x k).at_fill_down ((i : Int) + 1) =
      if i < k then x (k - 1 - i) else b.at_fill_down (((i - k : Nat) : Int) + 1) := by
  induction k generalizing i with
  | zero => simp [push_stream]
  | succ k ih =>
    have hw := wf_push_stream b x h k
    simp only [push_stream]
    rcases Nat.eq_zero_or_pos i with h0 | hpos
    · subst h0
      have := at_fill_buff_one (b.push_stream x k) (x k) hw (by simpa using hi)
      simpa using this
    · rw [at_fill_buff_succ _ _ hw i hpos (by simpa using hi)]
      obtain ⟨j, rfl⟩ : ∃ j, i = j + 1 := ⟨i - 1, by omega⟩
      have := ih j (by omega)
      push_cast
      rw [this]
      by_cases hjk : j < k
      · have e : k - (j + 1) = k - 1 - j := by omega
        simp [hjk, e]
      · have e : j + 1 - (k + 1) = j - k := by omega
        simp [hjk, e]

theorem getD_replicate_zero [Zero R] (n j : Nat) :
    (List.replicate n (0 : R)).getD j 0 = 0 := by
  simp only [List.getD_eq_getElem?_getD, List.getElem?_replicate]
  split_ifs <;> rfl

theorem wf_allocate [Zero R] (b : mirror_ring_buff R) : b.allocate.wf := by
  refine ⟨?_, ?_, ?_⟩
  · simp [allocate]
  · simp [allocate]
  · intro j _
    simp only [allocate, getD_replicate_zero]

theorem zero_filled_allocate [Zero R] (b : mirror_ring_buff R) : b.allocate.zero_filled := by
  intro j
  simp only [allocate, getD_replicate_zero]

theorem at_fill_down_zero_filled [Zero R] (b : mirror_ring_buff R) (h : b.zero_filled)
    (i : Int) : b.at_fill_down i = 0 := by
  unfold at_fill_down
  split_ifs
  · exact h _
  · rfl

end mirror_ring_buff

/-! ## Lemmas on the direct path -/

namespace FIR_filt

variable {R : Type} [CommRing R]

theorem filt_loop_eq_sum (sx cx : mirror_ring_buff R) (n : Nat) (out : R) :
    filt_loop sx cx n out =
      out + ∑ m ∈ Finset.range (n + 1), cx.m_buff.getD m 0 * sx.at_fill_down ((m : Int) + 1) := by
  induction n generalizing out with
  | zero => simp [filt_loop, mul_comm]
  | succ n ih =>
    rw [filt_loop, ih, Finset.sum_range_succ _ (n + 1)]
    push_cast
    ring

theorem sum_low_to_high_eq_sum (c : Nat → R) (s : Int → R) (N : Nat) :
    sum_low_to_high c s N = ∑ n ∈ Finset.range (N + 1), c n * s ((n : Int) + 1) := by
  unfold sum_low_to_high
  induction N with
  | zero => simp [List.range_succ]
  | succ N ih =>
    rw [List.range_succ, List.foldl_append, ih, Finset.sum_range_succ _ (N + 1)]
    simp

theorem filt_out (f : FIR_filt R) (x : R) (N : Nat) (hN : f.m_order = (N : Int)) :
    (f.filt x).m_out =
      ∑ n ∈ Finset.range (N + 1),
        f.get_coeff n * (f.m_BUFF_WIND_SX.fill_buff x).at_fill_down ((n : Int) + 1) := by
  have h0 : (0 : Int) ≤ f.m_order := by omega
  have hn : f.m_order.toNat = N := by omega
  simp only [filt, if_pos h0, hn, filt_loop_eq_sum, zero_add, get_coeff]

end FIR_filt

/-- C1: for a filter of order N >= 0 and a sample x, `filt(x)` pushes x into the sample
buffer and sets `m_out` to the sum over n = 0..N of c[n]*s[n+1], with c the coefficient
buffer and s the fill-down view after the push; the loop's highest-to-lowest order gives
the same value as the lowest-to-highest accumulation. -/
theorem C1_filt_is_tap_sum {R : Type} [CommRing R] (f : FIR_filt R) (x : R) (N : Nat)
    (hN : f.m_order = (N : Int)) :
    (f.filt x).m_BUFF_WIND_SX = f.m_BUFF_WIND_SX.fill_buff x ∧
    (f.filt x).m_out =
      ∑ n ∈ Finset.range (N + 1),
        f.get_coeff n * (f.m_BUFF_WIND_SX.fill_buff x).at_fill_down ((n : Int) + 1) ∧
    (f.filt x).m_out =
      FIR_filt.sum_low_to_high f.get_coeff (f.m_BUFF_WIND_SX.fill_buff x).at_fill_down N := by
  refine ⟨rfl, FIR_filt.filt_out f x N hN, ?_⟩
  rw [FIR_filt.sum_low_to_high_eq_sum]
  exact FIR_filt.filt_out f x N hN

/-- Witness of C1 at the order-2 filter with taps 1, 2, 1 and the sample 5. -/
theorem C1_filt_is_tap_sum_witness :
    (fir121 Int).m_order = ((2 : Nat) : Int) ∧
    ((fir121 Int).filt 5).m_out =
      ∑ n ∈ Finset.range (2 + 1),
        (fir121 Int).get_coeff n * ((fir121 Int).m_BUFF_WIND_SX.fill_buff 5).at_fill_down ((n : Int) + 1) :=
  ⟨by decide, (C1_filt_is_tap_sum (fir121 Int) 5 2 (by decide)).2.1⟩

/-- C2: after k pushes of x_0..x_{k-1} into a zero-initialised ring of capacity C, the
fill-down view holds x_{k-1-i} at position 1+i for every i below min(k, C): positions
1..C hold the last C inputs newest first. -/
theorem C2_mirror_invariant {R : Type} [Zero R] (b0 : mirror_ring_buff R) (C k i : Nat)
    (x : Nat → R) (hi : i < min k C) :
    (((b0.BuffInit C).allocate).push_stream x k).at_fill_down (1 + (i : Int)) = x (k - 1 - i) := by
  have hw := mirror_ring_buff.wf_allocate (b0.BuffInit C)
  have hC : i < ((b0.BuffInit C).allocate).m_buff_size := by
    have : i < C := lt_of_lt_of_le hi (min_le_right _ _)
    simpa [mirror_ring_buff.allocate, mirror_ring_buff.BuffInit] using this
  have hk : i < k := lt_of_lt_of_le hi (min_le_left _ _)
  rw [add_comm, mirror_ring_buff.at_push_stream _ x hw k i hC, if_pos hk]

/-- Witness of C2: capacity 3, four pushes of 1, 2, 3, 4, position 1+1. -/
theorem C2_mirror_invariant_witness :
    1 < min 4 3 ∧
    ((((⟨0, [], 0⟩ : mirror_ring_buff Int).BuffInit 3).allocate).push_stream
        (fun n => (n : Int) + 1) 4).at_fill_down (1 + ((1 : Nat) : Int)) = 3 :=
  ⟨by decide, C2_mirror_invariant _ 3 4 1 _ (by decide)⟩


/-! ## The direct path on a stream -/

namespace FIR_filt

variable {R : Type} [CommRing R]

@[simp] theorem filt_stream_order (f : FIR_filt R) (x : Nat → R) (k : Nat) :
    (f.filt_stream x k).m_order = f.m_order := by
  induction k with
  | zero => rfl
  | succ k ih => simpa [filt_stream, filt] using ih

@[simp] theorem filt_stream_CX (f : FIR_filt R) (x : Nat → R) (k : Nat) :
    (f.filt_stream x k).m_BUFF_WIND_CX = f.m_BUFF_WIND_CX := by
  induction k with
  | zero => rfl
  | succ k ih => simpa [filt_stream, filt] using ih

theorem filt_stream_SX (f : FIR_filt R) (x : Nat → R) (k : Nat) :
    (f.filt_stream x k).m_BUFF_WIND_SX = f.m_BUFF_WIND_SX.push_stream x k := by
  induction k with
  | zero => rfl
  | succ k ih => simp [filt_stream, filt, mirror_ring_buff.push_stream, ih]

/-- The output of the call number `k` (counted from 0) of `filt` on a stream. -/
theorem filt_stream_out (f : FIR_filt R) (x : Nat → R) (k N : Nat)
    (hN : f.m_order = (N : Int)) :
    (f.filt_stream x (k + 1)).m_out =
      ∑ n ∈ Finset.range (N + 1),
        f.get_coeff n * (f.m_BUFF_WIND_SX.push_stream x (k + 1)).at_fill_down ((n : Int) + 1) := by
  have h := filt_out (f.filt_stream x k) (x k) N (by simpa using hN)
  simp only [get_coeff, filt_stream_CX, filt_stream_SX] at h
  simpa [filt_stream, get_coeff, mirror_ring_buff.push_stream] using h

/-- The fill-down view of a well-formed, zero-filled buffer of capacity C after `k`
pushes: the samples newest first, then zeros. -/
theorem at_push_stream_zero (b : mirror_ring_buff R) (x : Nat → R) (hw : b.wf)
    (hz : b.zero_filled) (k i : Nat) (hi : i < b.m_buff_size) :
    (b.push_stream x k).at_fill_down ((i : Int) + 1) = if i < k then x (k - 1 - i) else 0 := by
  rw [mirror_ring_buff.at_push_stream b x hw k i hi,
    mirror_ring_buff.at_fill_down_zero_filled b hz]

end FIR_filt

/-- C3: with taps c[0..N] and a zero-filled sample buffer of capacity N+1 in a
well-formed (mirror-invariant) state, feeding 1, 0, 0, ... through `filt` gives
`m_out = c[t]` on call number t for t = 0..N and `m_out = 0` on every later call. -/
theorem C3_impulse_response {R : Type} [CommRing R] (f : FIR_filt R) (N t : Nat)
    (hN : f.m_order = (N : Int)) (hC : f.m_BUFF_WIND_SX.m_buff_size = N + 1)
    (hw : f.m_BUFF_WIND_SX.wf) (hz : f.m_BUFF_WIND_SX.zero_filled) :
    (f.filt_stream (impulse R) (t + 1)).m_out = if t ≤ N then f.get_coeff t else 0 := by
  rw [FIR_filt.filt_stream_out f _ t N hN]
  have key : ∀ n ∈ Finset.range (N + 1),
      f.get_coeff n *
          (f.m_BUFF_WIND_SX.push_stream (impulse R) (t + 1)).at_fill_down ((n : Int) + 1) =
        if t = n then f.get_coeff n else 0 := by
    intro n hn
    have hn' : n < f.m_BUFF_WIND_SX.m_buff_size := by
      rw [hC]; exact Finset.mem_range.mp hn
    rw [FIR_filt.at_push_stream_zero _ _ hw hz (t + 1) n hn']
    by_cases h1 : n < t + 1
    · by_cases h2 : t = n
      · subst h2
        simp [impulse]
      · have h3 : ¬ (t - n = 0) := by omega
        simp [impulse, h1, h2, h3]
    · have h2 : t ≠ n := by omega
      simp [h1, h2]
  rw [Finset.sum_congr rfl key, Finset.sum_ite_eq]
  have : (t ∈ Finset.range (N + 1)) ↔ t ≤ N := by
    rw [Finset.mem_range]; omega
  simp only [this]

/-- Witness of C3: taps 1, 2, 1, call number 1 of the impulse gives the tap c[1] = 2. -/
theorem C3_impulse_response_witness :
    ((fir121 Int).filt_stream (impulse Int) (1 + 1)).m_out =
      if 1 ≤ 2 then (fir121 Int).get_coeff 1 else 0 :=
  C3_impulse_response (fir121 Int) 2 1 (by decide) (by decide)
    (mirror_ring_buff.wf_allocate _) (mirror_ring_buff.zero_filled_allocate _)

/-! ## Linearity of the direct path -/

namespace mirror_ring_buff

variable {R : Type}

@[simp] theorem push_stream_length (b : mirror_ring_buff R) (x : Nat → R) (k : Nat) :
    (b.push_stream x k).m_buff.length = b.m_buff.length := by
  induction k with
  | zero => rfl
  | succ k ih => simp [push_stream, ih]

theorem push_stream_ptr_indep (b : mirror_ring_buff R) (x y : Nat → R) (k : Nat) :
    (b.push_stream x k).m_ptr_fill_down = (b.push_stream y k).m_ptr_fill_down := by
  induction k with
  | zero => rfl
  | succ k ih => simp [push_stream, fill_buff_ptr, ih]

/-- Every storage slot is a linear function of the pushed stream. -/
theorem push_stream_linear [CommRing R] (b : mirror_ring_buff R) (x y : Nat → R) (a c : R)
    (hz : b.zero_filled) (k j : Nat) :
    (b.push_stream (fun n => a * x n + c * y n) k).m_buff.getD j 0 =
      a * (b.push_stream x k).m_buff.getD j 0 + c * (b.push_stream y k).m_buff.getD j 0 := by
  induction k generalizing j with
  | zero =>
    simp only [push_stream]
    rw [show b.m_buff.getD j 0 = 0 from hz j]
    ring
  | succ k ih =>
    simp only [push_stream, fill_buff, getD_set, List.length_set, push_stream_length,
      push_stream_size]
    rw [push_stream_ptr_indep b (fun n => a * x n + c * y n) x k,
      push_stream_ptr_indep b y x k]
    split_ifs
    · rfl
    · rfl
    · exact ih j

theorem at_push_stream_linear [CommRing R] (b : mirror_ring_buff R) (x y : Nat → R) (a c : R)
    (hz : b.zero_filled) (k : Nat) (i : Int) :
    (b.push_stream (fun n => a * x n + c * y n) k).at_fill_down i =
      a * (b.push_stream x k).at_fill_down i + c * (b.push_stream y k).at_fill_down i := by
  unfold at_fill_down
  rw [push_stream_ptr_indep b (fun n => a * x n + c * y n) x k,
    push_stream_ptr_indep b y x k]
  split_ifs
  · exact push_stream_linear b x y a c hz k _
  · simp

end mirror_ring_buff

namespace FIR_filt

variable {R : Type} [CommRing R]

/-- The output of call number `k` of `filt` on a stream, whatever the sign of the order. -/
theorem filt_stream_out_any (f : FIR_filt R) (x : Nat → R) (k : Nat) :
    (f.filt_stream x (k + 1)).m_out =
      if 0 ≤ f.m_order then
        ∑ n ∈ Finset.range (f.m_order.toNat + 1),
          f.get_coeff n *
            (f.m_BUFF_WIND_SX.push_stream x (k + 1)).at_fill_down ((n : Int) + 1)
      else 0 := by
  by_cases h : 0 ≤ f.m_order
  · rw [if_pos h]
    exact filt_stream_out f x k f.m_order.toNat (by omega)
  · rw [if_neg h]
    simp [filt_stream, filt, h]

end FIR_filt

/-- C6: for fixed taps, two input streams x and y and scalars a and c, running `filt`
sample by sample on the stream a*x + c*y from a zero-filled buffer gives at every call
`m_out = a*out(x) + c*out(y)`, the outputs of the same call for x and y alone. -/
theorem C6_filt_linear {R : Type} [CommRing R] (f : FIR_filt R) (x y : Nat → R) (a c : R)
    (k : Nat) (hz : f.m_BUFF_WIND_SX.zero_filled) :
    (f.filt_stream (fun n => a * x n + c * y n) (k + 1)).m_out =
      a * (f.filt_stream x (k + 1)).m_out + c * (f.filt_stream y (k + 1)).m_out := by
  simp only [FIR_filt.filt_stream_out_any]
  split_ifs
  · simp only [mirror_ring_buff.at_push_stream_linear _ x y a c hz, Finset.mul_sum,
      ← Finset.sum_add_distrib]
    apply Finset.sum_congr rfl
    intro n _
    ring
  · simp

/-- Witness of C6: taps 1, 2, 1, the streams n+1 and n*n with the scalars 3 and -2. -/
theorem C6_filt_linear_witness :
    ((fir121 Int).filt_stream (fun n => 3 * ((n : Int) + 1) + (-2) * ((n : Int) * n)) (3 + 1)).m_out =
      3 * ((fir121 Int).filt_stream (fun n => (n : Int) + 1) (3 + 1)).m_out +
        (-2) * ((fir121 Int).filt_stream (fun n => (n : Int) * n) (3 + 1)).m_out :=
  C6_filt_linear (fir121 Int) _ _ 3 (-2) 3 (mirror_ring_buff.zero_filled_allocate _)

/-- C7: with taps c[0..N] and a sample buffer of capacity N+1 in a well-formed
(mirror-invariant) state, once the last N+1 samples pushed through `filt` all equal v,
`m_out = v * (c[0] + ... + c[N])`; when the taps sum to 1 and v = 1 the output is 1. -/
theorem C7_steady_state {R : Type} [CommRing R] (f : FIR_filt R) (N T : Nat) (x : Nat → R)
    (v : R) (hN : f.m_order = (N : Int)) (hC : f.m_BUFF_WIND_SX.m_buff_size = N + 1)
    (hw : f.m_BUFF_WIND_SX.wf) (hT : N + 1 ≤ T)
    (hx : ∀ m, T - (N + 1) ≤ m → m < T → x m = v) :
    (f.filt_stream x T).m_out = v * ∑ n ∈ Finset.range (N + 1), f.get_coeff n ∧
    ((∑ n ∈ Finset.range (N + 1), f.get_coeff n) = 1 → v = 1 →
      (f.filt_stream x T).m_out = 1) := by
  obtain ⟨k, rfl⟩ : ∃ k, T = k + 1 := ⟨T - 1, by omega⟩
  have main : (f.filt_stream x (k + 1)).m_out =
      v * ∑ n ∈ Finset.range (N + 1), f.get_coeff n := by
    rw [FIR_filt.filt_stream_out f x k N hN, Finset.mul_sum]
    apply Finset.sum_congr rfl
    intro n hn
    have hn' : n < N + 1 := Finset.mem_range.mp hn
    rw [mirror_ring_buff.at_push_stream _ x hw (k + 1) n (by rw [hC]; exact hn'),
      if_pos (by omega), hx _ (by omega) (by omega)]
    ring
  refine ⟨main, ?_⟩
  intro hs hv
  rw [main, hs, hv, mul_one]

/-- Witness of C7: taps 1, 2, 1 and the stream 9, 9, 7, 7, 7 (v = 7 on the last three
pushes) give 7 * (1 + 2 + 1). -/
theorem C7_steady_state_witness :
    ((fir121 Int).filt_stream (fun n => if n < 2 then 9 else 7) 5).m_out =
      7 * ∑ n ∈ Finset.range (2 + 1), (fir121 Int).get_coeff n :=
  (C7_steady_state (fir121 Int) 2 5 (fun n => if n < 2 then 9 else 7) 7 (by decide)
    (by decide) (mirror_ring_buff.wf_allocate _) (by decide)
    (by intro m h1 h2; have : ¬ m < 2 := by omega
        simp [this])).1

/-! ## The no-argument variant and the read windows -/

/-- C8: `filt(x)` is one push followed by the no-argument `filt()`: both leave the same
state (the same `m_out` and sample buffer among it); `filt()` itself leaves the sample
buffer as it was, and calling it twice in a row gives the same `m_out` both times. -/
theorem C8_filt_is_push_then_filt_noarg {R : Type} [CommRing R] (f : FIR_filt R) (x : R) :
    f.filt x =
      ({ f with m_BUFF_WIND_SX := f.m_BUFF_WIND_SX.fill_buff x } : FIR_filt R).filt_noarg ∧
    f.filt_noarg.m_BUFF_WIND_SX = f.m_BUFF_WIND_SX ∧
    f.filt_noarg.filt_noarg.m_out = f.filt_noarg.m_out :=
  ⟨rfl, rfl, rfl⟩

namespace FIR_filt

variable {R : Type} [CommRing R]

theorem read_fill_down_inside (b : mirror_ring_buff R) (i : Int) (h1 : 1 ≤ i)
    (h2 : i ≤ (b.m_buff_size : Int)) : b.read_fill_down i = some (b.at_fill_down i) := by
  unfold mirror_ring_buff.read_fill_down
  rw [if_pos ⟨h1, h2⟩]

theorem read_coeff_inside (f : FIR_filt R) (n : Nat) (h : (n : Int) ≤ f.m_order) :
    f.read_coeff n = some (f.m_BUFF_WIND_CX.m_buff.getD n 0) := by
  unfold read_coeff
  rw [if_pos h]

/-- Entered at a tap index inside both windows, the guarded loop reads only inside them
and computes what the loop of the source computes. -/
theorem filt_loop_checked_eq (f : FIR_filt R) (sx : mirror_ring_buff R) (n : Nat) (out : R)
    (hn : (n : Int) ≤ f.m_order) (hc : n + 1 ≤ sx.m_buff_size) :
    filt_loop_checked f sx n out = some (filt_loop sx f.m_BUFF_WIND_CX n out) := by
  induction n generalizing out with
  | zero =>
    rw [filt_loop_checked, read_fill_down_inside sx _ (by omega) (by omega),
      read_coeff_inside f 0 hn]
    rfl
  | succ n ih =>
    rw [filt_loop_checked,
      read_fill_down_inside sx _ (by omega) (by omega),
      read_coeff_inside f (n + 1) hn]
    simp only [Option.some_bind]
    rw [ih _ (by push_cast at hn ⊢; omega) (by omega)]
    rfl

end FIR_filt

/-- C9: for a filter of order N >= 0 whose sample buffer has capacity C = N+1, `filt(x)`
and `filt()` run to completion over the guarded reads, which admit the fill-down view at
the positions 1..C only (positions 0 and C+1 are refused) and the coefficient buffer at
the indices 0..N only; `filt_eff(x)` reads the view at position `m_ElemNum` only and runs
to completion when `m_ElemNum = N+1`. -/
theorem C9_reads_inside_window {R : Type} [CommRing R] (f : FIR_filt R) (x : R) (N : Nat)
    (hN : f.m_order = (N : Int)) (hC : f.m_BUFF_WIND_SX.m_buff_size = N + 1) :
    f.filt_checked x = some (f.filt x) ∧
    f.filt_noarg_checked = some f.filt_noarg ∧
    (f.m_ElemNum = (N : Int) + 1 → f.filt_eff_checked x = some (f.filt_eff x)) ∧
    f.m_BUFF_WIND_SX.read_fill_down 0 = none ∧
    f.m_BUFF_WIND_SX.read_fill_down ((N : Int) + 1 + 1) = none ∧
    f.read_coeff (N + 1) = none := by
  have h0 : (0 : Int) ≤ f.m_order := by omega
  have hn : ((f.m_order.toNat : Nat) : Int) ≤ f.m_order := by omega
  have hc : f.m_order.toNat + 1 ≤ f.m_BUFF_WIND_SX.m_buff_size := by omega
  refine ⟨?_, ?_, ?_, ?_, ?_, ?_⟩
  · simp only [FIR_filt.filt_checked, FIR_filt.filt, if_pos h0]
    rw [FIR_filt.filt_loop_checked_eq f _ _ _ hn (by simpa using hc)]
    rfl
  · simp only [FIR_filt.filt_noarg_checked, FIR_filt.filt_noarg, if_pos h0]
    rw [FIR_filt.filt_loop_checked_eq f _ _ _ hn hc]
    rfl
  · intro hE
    simp only [FIR_filt.filt_eff_checked, FIR_filt.filt_eff]
    rw [FIR_filt.read_fill_down_inside _ _ (by omega)
      (by rw [mirror_ring_buff.fill_buff_size, hC, hE]; push_cast; omega)]
    rfl
  · simp [mirror_ring_buff.read_fill_down]
  · simp only [mirror_ring_buff.read_fill_down, hC]
    rw [if_neg]
    push_cast
    omega
  · simp only [FIR_filt.read_coeff, hN]
    rw [if_neg]
    push_cast
    omega

/-- Witness of C9: the order-2 filter with a window of capacity 3 and the sample 5. -/
theorem C9_reads_inside_window_witness :
    (fir121 Int).m_order = ((2 : Nat) : Int) ∧ (fir121 Int).m_BUFF_WIND_SX.m_buff_size = 2 + 1 ∧
    (fir121 Int).filt_checked 5 = some ((fir121 Int).filt 5) :=
  ⟨by decide, by decide, (C9_reads_inside_window (fir121 Int) 5 2 (by decide) (by decide)).1⟩

/-- The guarded reads do refuse: an order-3 tap loop over the window of capacity 3 stops
at the read of position 4. -/
theorem filt_checked_refuses :
    (({ fir121 Int with m_order := 3 } : FIR_filt Int).filt_checked 5).isNone = true := by
  decide

/-! ## The efficient path: one step -/

namespace FIR_filt

variable {R : Type} [CommRing R]

/-- What the pole loop of `filt_eff` leaves after `M` passes: pole `k < M` holds the
values computed from the accumulators the loop started with, `m_out` has grown by the
new real parts, everything else is as before. -/
theorem filt_eff_loop_spec (f : FIR_filt R) (M : Nat) :
    ((List.range M).foldl filt_eff_body f).m_Wnum = f.m_Wnum ∧
    ((List.range M).foldl filt_eff_body f).m_Wden = f.m_Wden ∧
    ((List.range M).foldl filt_eff_body f).m_dx = f.m_dx ∧
    ((List.range M).foldl filt_eff_body f).m_BUFF_WIND_SX = f.m_BUFF_WIND_SX ∧
    ((List.range M).foldl filt_eff_body f).m_BUFF_WIND_CX = f.m_BUFF_WIND_CX ∧
    ((List.range M).foldl filt_eff_body f).m_order = f.m_order ∧
    ((List.range M).foldl filt_eff_body f).m_ElemNum = f.m_ElemNum ∧
    ((List.range M).foldl filt_eff_body f).m_Ncplx_coeff = f.m_Ncplx_coeff ∧
    (∀ k, ((List.range M).foldl filt_eff_body f).m_y_re k =
      if k < M then
        f.m_dx * (f.m_Wnum k).re + (f.m_y_re k * (f.m_Wden k).re - f.m_y_im k * (f.m_Wden k).im)
      else f.m_y_re k) ∧
    (∀ k, ((List.range M).foldl filt_eff_body f).m_y_im k =
      if k < M then
        f.m_dx * (f.m_Wnum k).im + (f.m_y_im k * (f.m_Wden k).re + f.m_y_re k * (f.m_Wden k).im)
      else f.m_y_im k) ∧
    ((List.range M).foldl filt_eff_body f).m_out =
      f.m_out + ∑ k ∈ Finset.range M,
        (f.m_dx * (f.m_Wnum k).re
          + (f.m_y_re k * (f.m_Wden k).re - f.m_y_im k * (f.m_Wden k).im)) := by
  induction M with
  | zero => simp
  | succ M ih =>
    obtain ⟨h1, h2, h3, h4, h5, h6, h7, h8, h9, h10, h11⟩ := ih
    rw [List.range_succ, List.foldl_append]
    simp only [List.foldl_cons, List.foldl_nil]
    refine ⟨?_, ?_, ?_, ?_, ?_, ?_, ?_, ?_, ?_, ?_, ?_⟩
    · simpa [filt_eff_body] using h1
    · simpa [filt_eff_body] using h2
    · simpa [filt_eff_body] using h3
    · simpa [filt_eff_body] using h4
    · simpa [filt_eff_body] using h5
    · simpa [filt_eff_body] using h6
    · simpa [filt_eff_body] using h7
    · simpa [filt_eff_body] using h8
    · intro k
      simp only [filt_eff_body, Function.update_apply, h1, h2, h3, h9, h10]
      by_cases hk : k = M
      · subst hk
        simp
      · have : k < M + 1 ↔ k < M := by omega
        simp [hk, this]
    · intro k
      simp only [filt_eff_body, Function.update_apply, h1, h2, h3, h9, h10]
      by_cases hk : k = M
      · subst hk
        simp
      · have : k < M + 1 ↔ k < M := by omega
        simp [hk, this]
    · simp only [filt_eff_body, h1, h2, h3, h9, h10, h11, Finset.sum_range_succ]
      simp
      ring

end FIR_filt

namespace FIR_filt

variable {R : Type} [CommRing R]

/-- One call of `filt_eff`: the buffer, the difference `m_dx`, the accumulators and the
output, in terms of the state before the call. -/
theorem filt_eff_spec (f : FIR_filt R) (x : R) :
    (f.filt_eff x).m_BUFF_WIND_SX = f.m_BUFF_WIND_SX.fill_buff x ∧
    (f.filt_eff x).m_dx = x - (f.m_BUFF_WIND_SX.fill_buff x).at_fill_down f.m_ElemNum ∧
    (∀ k, (f.filt_eff x).m_y_re k =
      if k < f.m_Ncplx_coeff.toNat then
        (f.filt_eff x).m_dx * (f.m_Wnum k).re
          + (f.m_y_re k * (f.m_Wden k).re - f.m_y_im k * (f.m_Wden k).im)
      else f.m_y_re k) ∧
    (∀ k, (f.filt_eff x).m_y_im k =
      if k < f.m_Ncplx_coeff.toNat then
        (f.filt_eff x).m_dx * (f.m_Wnum k).im
          + (f.m_y_im k * (f.m_Wden k).re + f.m_y_re k * (f.m_Wden k).im)
      else f.m_y_im k) ∧
    (f.filt_eff x).m_out = ∑ k ∈ Finset.range f.m_Ncplx_coeff.toNat, (f.filt_eff x).m_y_re k := by
  obtain ⟨-, -, h3, h4, -, -, -, -, h9, h10, h11⟩ :=
    filt_eff_loop_spec
      ({ f with
          m_BUFF_WIND_SX := f.m_BUFF_WIND_SX.fill_buff x
          m_dx := x - (f.m_BUFF_WIND_SX.fill_buff x).at_fill_down f.m_ElemNum
          m_out := 0 } : FIR_filt R) f.m_Ncplx_coeff.toNat
  simp only [zero_add] at h3 h4 h9 h10 h11
  have hdx : (f.filt_eff x).m_dx =
      x - (f.m_BUFF_WIND_SX.fill_buff x).at_fill_down f.m_ElemNum := h3
  refine ⟨h4, hdx, ?_, ?_, ?_⟩
  · intro k
    rw [hdx]
    exact h9 k
  · intro k
    rw [hdx]
    exact h10 k
  · refine h11.trans (Finset.sum_congr rfl ?_)
    intro k hk
    have hk' : k < f.m_Ncplx_coeff.toNat := Finset.mem_range.mp hk
    exact ((h9 k).trans (if_pos hk')).symm

end FIR_filt

/-- C4: one call `filt_eff(x)` pushes x, sets D = x - s[m_ElemNum] with s the fill-down
view after the push, replaces for every pole k below `m_Ncplx_coeff` the complex
accumulator (m_y_re[k], m_y_im[k]) by D*W_num[k] + y_k*W_den[k] (the product taken with
the old real and imaginary parts), and sets `m_out` to the sum of the new real parts. -/
theorem C4_filt_eff_step (f : FIR_filt ℝ) (x : ℝ) :
    (f.filt_eff x).m_BUFF_WIND_SX = f.m_BUFF_WIND_SX.fill_buff x ∧
    (f.filt_eff x).m_dx = x - (f.m_BUFF_WIND_SX.fill_buff x).at_fill_down f.m_ElemNum ∧
    (∀ k : Nat, (k : Int) < f.m_Ncplx_coeff →
      (⟨(f.filt_eff x).m_y_re k, (f.filt_eff x).m_y_im k⟩ : ℂ) =
        (((f.filt_eff x).m_dx : ℝ) : ℂ) * (f.m_Wnum k).toComplex
          + (⟨f.m_y_re k, f.m_y_im k⟩ : ℂ) * (f.m_Wden k).toComplex) ∧
    (f.filt_eff x).m_out =
      ∑ k ∈ Finset.range f.m_Ncplx_coeff.toNat, (f.filt_eff x).m_y_re k := by
  obtain ⟨h1, h2, h3, h4, h5⟩ := FIR_filt.filt_eff_spec f x
  refine ⟨h1, h2, ?_, h5⟩
  intro k hk
  have hk' : k < f.m_Ncplx_coeff.toNat := by omega
  apply Complex.ext
  · rw [h3 k, if_pos hk']
    simp [FIR_filt.vector.toComplex]
  · simp only []
    rw [h4 k, if_pos hk']
    simp [FIR_filt.vector.toComplex]
    ring

/-! ## The aperiodic filter: frequency response -/

namespace aperiodic_filt

/-- The complex number 1 - e^{-jθ} has the real part 1 - cos θ and the imaginary part
sin θ. -/
theorem one_sub_exp_neg (θ : ℝ) :
    1 - Complex.exp (-((θ : ℂ) * Complex.I)) = ⟨1 - Real.cos θ, Real.sin θ⟩ := by
  have e : -((θ : ℂ) * Complex.I) = ((-θ : ℝ) : ℂ) * Complex.I := by
    push_cast; ring
  rw [e]
  apply Complex.ext
  · rw [Complex.sub_re, Complex.exp_ofReal_mul_I_re, Real.cos_neg]
    simp
  · rw [Complex.sub_im, Complex.exp_ofReal_mul_I_im, Real.sin_neg]
    simp

end aperiodic_filt

/-- C10: `aperiodic_filt::FreqCharacteristics` computes the response of
0.5*(1 - z^-order): with θ = 2π·m_order·m_in_F·m_Ts it sets
`m_Km = 0.5*|1 - e^{-jθ}|` and `m_pH = arg(1 - e^{-jθ})`, the atan2 of the imaginary part
sin θ and the real part 1 - cos θ. Here cos, sin and sqrt are the real functions,
atan2(y, x) is the argument of x + jy, and the source's literal stands for 2π. -/
theorem C10_aperiodic_freq_response (a : aperiodic_filt ℝ) :
    (a.FreqCharacteristics
        ⟨Real.cos, Real.sin, Real.sqrt, fun y x => Complex.arg ⟨x, y⟩, 2 * Real.pi⟩).m_Km =
      0.5 * Complex.abs (1 - Complex.exp
        (-(((2 * Real.pi * (a.m_order : ℝ) * a.m_in_F * a.m_Ts : ℝ) : ℂ) * Complex.I))) ∧
    (a.FreqCharacteristics
        ⟨Real.cos, Real.sin, Real.sqrt, fun y x => Complex.arg ⟨x, y⟩, 2 * Real.pi⟩).m_pH =
      Complex.arg (1 - Complex.exp
        (-(((2 * Real.pi * (a.m_order : ℝ) * a.m_in_F * a.m_Ts : ℝ) : ℂ) * Complex.I))) ∧
    (1 - Complex.exp
        (-(((2 * Real.pi * (a.m_order : ℝ) * a.m_in_F * a.m_Ts : ℝ) : ℂ) * Complex.I)) : ℂ) =
      ⟨1 - Real.cos (2 * Real.pi * (a.m_order : ℝ) * a.m_in_F * a.m_Ts),
        Real.sin (2 * Real.pi * (a.m_order : ℝ) * a.m_in_F * a.m_Ts)⟩ := by
  have hθ : -(2 * Real.pi) * (a.m_order : ℝ) * a.m_in_F * a.m_Ts =
      -(2 * Real.pi * (a.m_order : ℝ) * a.m_in_F * a.m_Ts) := by ring
  refine ⟨?_, ?_, aperiodic_filt.one_sub_exp_neg _⟩
  · rw [aperiodic_filt.one_sub_exp_neg, Complex.abs_apply, Complex.normSq_mk]
    simp only [aperiodic_filt.FreqCharacteristics, hθ, Real.cos_neg, Real.sin_neg]
    rw [mul_comm]
    simp
  · rw [aperiodic_filt.one_sub_exp_neg]
    simp only [aperiodic_filt.FreqCharacteristics, hθ, Real.cos_neg, Real.sin_neg]
    simp

/-! ## The efficient path on a stream -/

namespace FIR_filt

/-- What `filt_eff` leaves untouched. -/
theorem filt_eff_frame {R : Type} [CommRing R] (f : FIR_filt R) (x : R) :
    (f.filt_eff x).m_Wnum = f.m_Wnum ∧ (f.filt_eff x).m_Wden = f.m_Wden ∧
    (f.filt_eff x).m_ElemNum = f.m_ElemNum ∧
    (f.filt_eff x).m_Ncplx_coeff = f.m_Ncplx_coeff := by
  obtain ⟨h1, h2, -, -, -, -, h7, h8, -, -, -⟩ :=
    filt_eff_loop_spec
      ({ f with
          m_BUFF_WIND_SX := f.m_BUFF_WIND_SX.fill_buff x
          m_dx := x - (f.m_BUFF_WIND_SX.fill_buff x).at_fill_down f.m_ElemNum
          m_out := 0 } : FIR_filt R) f.m_Ncplx_coeff.toNat
  exact ⟨h1, h2, h7, h8⟩

theorem filt_eff_stream_frame {R : Type} [CommRing R] (f : FIR_filt R) (x : Nat → R)
    (K : Nat) :
    (f.filt_eff_stream x K).m_Wnum = f.m_Wnum ∧ (f.filt_eff_stream x K).m_Wden = f.m_Wden ∧
    (f.filt_eff_stream x K).m_ElemNum = f.m_ElemNum ∧
    (f.filt_eff_stream x K).m_Ncplx_coeff = f.m_Ncplx_coeff ∧
    (f.filt_eff_stream x K).m_BUFF_WIND_SX = f.m_BUFF_WIND_SX.push_stream x K := by
  induction K with
  | zero => exact ⟨rfl, rfl, rfl, rfl, rfl⟩
  | succ K ih =>
    obtain ⟨h1, h2, h3, h4, h5⟩ := ih
    obtain ⟨g1, g2, g3, g4⟩ := filt_eff_frame (f.filt_eff_stream x K) (x K)
    refine ⟨?_, ?_, ?_, ?_, ?_⟩
    · rw [filt_eff_stream, g1, h1]
    · rw [filt_eff_stream, g2, h2]
    · rw [filt_eff_stream, g3, h3]
    · rw [filt_eff_stream, g4, h4]
    · rw [filt_eff_stream, (filt_eff_spec _ _).1, h5]
      rfl

/-- The recurrence of a complex accumulator over one call of `filt_eff`. -/
theorem accum_filt_eff (f : FIR_filt ℝ) (x : ℝ) (k : Nat) (hk : k < f.m_Ncplx_coeff.toNat) :
    (f.filt_eff x).accum k =
      (((f.filt_eff x).m_dx : ℝ) : ℂ) * (f.m_Wnum k).toComplex
        + f.accum k * (f.m_Wden k).toComplex := by
  obtain ⟨-, -, h3, h4, -⟩ := filt_eff_spec f x
  apply Complex.ext
  · simp only [accum]
    rw [h3 k, if_pos hk]
    simp [vector.toComplex]
  · simp only [accum]
    rw [h4 k, if_pos hk]
    simp [vector.toComplex]
    ring

/-- The output of `filt_eff` is the sum of the real parts of the accumulators. -/
theorem filt_eff_out (f : FIR_filt ℝ) (x : ℝ) :
    (f.filt_eff x).m_out =
      ∑ k ∈ Finset.range f.m_Ncplx_coeff.toNat, ((f.filt_eff x).accum k).re :=
  (filt_eff_spec f x).2.2.2.2

theorem delayed_zero {R : Type} [Zero R] (x : Nat → R) (K : Nat) :
    delayed x (K + 1) 0 = x K := by
  simp [delayed]

theorem delayed_succ {R : Type} [Zero R] (x : Nat → R) (K m : Nat) :
    delayed x (K + 1) (m + 1) = delayed x K m := by
  unfold delayed
  by_cases h : m < K
  · have h' : m + 1 < K + 1 := by omega
    have e : K + 1 - 1 - (m + 1) = K - 1 - m := by omega
    rw [if_pos h, if_pos h', e]
  · have h' : ¬ m + 1 < K + 1 := by omega
    rw [if_neg h, if_neg h']

/-- The window sum over the last n+1 samples obeys the recurrence of an accumulator
whose pole W satisfies W^(n+1) = 1. -/
theorem window_sum_step (x : Nat → ℝ) (K n : Nat) (Wn W : ℂ) (hW : W ^ (n + 1) = 1) :
    ∑ m ∈ Finset.range (n + 1), ((delayed x (K + 1) m : ℝ) : ℂ) * Wn * W ^ m =
      (((x K - delayed x (K + 1) (n + 1) : ℝ)) : ℂ) * Wn
        + (∑ m ∈ Finset.range (n + 1), ((delayed x K m : ℝ) : ℂ) * Wn * W ^ m) * W := by
  rw [Finset.sum_range_succ', Finset.sum_range_succ _ n, delayed_zero, delayed_succ]
  simp only [delayed_succ]
  rw [add_mul, Finset.sum_mul]
  have e : ((delayed x K n : ℝ) : ℂ) * Wn * W ^ n * W = ((delayed x K n : ℝ) : ℂ) * Wn := by
    rw [mul_assoc _ (W ^ n) W, ← pow_succ, hW, mul_one]
  rw [e]
  have e2 : ∀ m ∈ Finset.range n,
      ((delayed x K m : ℝ) : ℂ) * Wn * W ^ (m + 1) = ((delayed x K m : ℝ) : ℂ) * Wn * W ^ m * W := by
    intro m _
    rw [pow_succ]
    ring
  rw [Finset.sum_congr rfl e2]
  push_cast
  ring

end FIR_filt

namespace FIR_filt

/-- The difference `m_dx` of call number `K` of `filt_eff` on a stream: the new sample
minus the one `m_ElemNum - 1` places back. -/
theorem filt_eff_stream_dx (f : FIR_filt ℝ) (x : Nat → ℝ) (n : Nat)
    (hE : f.m_ElemNum = (n : Int) + 2) (hC : f.m_BUFF_WIND_SX.m_buff_size = n + 2)
    (hw : f.m_BUFF_WIND_SX.wf) (hz : f.m_BUFF_WIND_SX.zero_filled) (K : Nat) :
    (f.filt_eff_stream x (K + 1)).m_dx = x K - delayed x (K + 1) (n + 1) := by
  obtain ⟨-, -, h3, -, h5⟩ := filt_eff_stream_frame f x K
  rw [filt_eff_stream, (filt_eff_spec _ _).2.1, h3, h5, hE]
  have e : (n : Int) + 2 = ((n + 1 : Nat) : Int) + 1 := by push_cast; ring
  have h := at_push_stream_zero f.m_BUFF_WIND_SX x hw hz (K + 1) (n + 1) (by omega)
  rw [e]
  simp only [mirror_ring_buff.push_stream] at h
  rw [h]
  rfl

/-- Closed form of an accumulator whose pole satisfies W_den^N = 1, N = m_ElemNum - 1:
the sum over the last N samples of x[K-1-m]·W_num·W_den^m. -/
theorem accum_filt_eff_stream (f : FIR_filt ℝ) (x : Nat → ℝ) (n : Nat)
    (hE : f.m_ElemNum = (n : Int) + 2) (hC : f.m_BUFF_WIND_SX.m_buff_size = n + 2)
    (hw : f.m_BUFF_WIND_SX.wf) (hz : f.m_BUFF_WIND_SX.zero_filled) (k : Nat)
    (hk : k < f.m_Ncplx_coeff.toNat) (hy : f.accum k = 0)
    (hden : (f.m_Wden k).toComplex ^ (n + 1) = 1) (K : Nat) :
    (f.filt_eff_stream x K).accum k =
      ∑ m ∈ Finset.range (n + 1),
        ((delayed x K m : ℝ) : ℂ) * (f.m_Wnum k).toComplex * (f.m_Wden k).toComplex ^ m := by
  induction K with
  | zero => simp [filt_eff_stream, hy, delayed]
  | succ K ih =>
    obtain ⟨h1, h2, -, h4, -⟩ := filt_eff_stream_frame f x K
    have hdx := filt_eff_stream_dx f x n hE hC hw hz K
    rw [filt_eff_stream] at hdx
    rw [filt_eff_stream, accum_filt_eff _ _ k (by rw [h4]; exact hk), hdx, h1, h2, ih,
      window_sum_step x K n _ _ hden]

/-- Closed form of the efficient path: the output of call number `K` is the convolution
of the last N samples with the impulse response carried by the poles. -/
theorem filt_eff_stream_out (f : FIR_filt ℝ) (x : Nat → ℝ) (n : Nat)
    (hE : f.m_ElemNum = (n : Int) + 2) (hC : f.m_BUFF_WIND_SX.m_buff_size = n + 2)
    (hw : f.m_BUFF_WIND_SX.wf) (hz : f.m_BUFF_WIND_SX.zero_filled)
    (hy : ∀ k, k < f.m_Ncplx_coeff.toNat → f.accum k = 0)
    (hden : ∀ k, k < f.m_Ncplx_coeff.toNat → (f.m_Wden k).toComplex ^ (n + 1) = 1)
    (K : Nat) :
    (f.filt_eff_stream x (K + 1)).m_out =
      ∑ m ∈ Finset.range (n + 1), delayed x (K + 1) m * f.pole_response m := by
  obtain ⟨-, -, -, h4, -⟩ := filt_eff_stream_frame f x K
  have ho := filt_eff_out (f.filt_eff_stream x K) (x K)
  rw [h4] at ho
  have e : ∀ k ∈ Finset.range f.m_Ncplx_coeff.toNat,
      (((f.filt_eff_stream x K).filt_eff (x K)).accum k).re =
        ∑ m ∈ Finset.range (n + 1),
          delayed x (K + 1) m * ((f.m_Wnum k).toComplex * (f.m_Wden k).toComplex ^ m).re := by
    intro k hk
    have hk' : k < f.m_Ncplx_coeff.toNat := Finset.mem_range.mp hk
    have h := accum_filt_eff_stream f x n hE hC hw hz k hk' (hy k hk') (hden k hk') (K + 1)
    rw [filt_eff_stream] at h
    rw [h, Complex.re_sum]
    apply Finset.sum_congr rfl
    intro m _
    rw [mul_assoc, Complex.re_ofReal_mul]
  rw [filt_eff_stream, ho, Finset.sum_congr rfl e, Finset.sum_comm]
  apply Finset.sum_congr rfl
  intro m _
  rw [pole_response, Finset.mul_sum]

/-- The output of call number `K` of the direct path from a zero-filled buffer of
capacity N+1: the convolution of the last N+1 samples with the taps. -/
theorem filt_stream_out_delayed {R : Type} [CommRing R] (f : FIR_filt R) (x : Nat → R)
    (N : Nat) (hN : f.m_order = (N : Int)) (hC : f.m_BUFF_WIND_SX.m_buff_size = N + 1)
    (hw : f.m_BUFF_WIND_SX.wf) (hz : f.m_BUFF_WIND_SX.zero_filled) (K : Nat) :
    (f.filt_stream x (K + 1)).m_out =
      ∑ m ∈ Finset.range (N + 1), f.get_coeff m * delayed x (K + 1) m := by
  rw [filt_stream_out f x K N hN]
  apply Finset.sum_congr rfl
  intro m hm
  rw [at_push_stream_zero _ x hw hz (K + 1) m (by rw [hC]; exact Finset.mem_range.mp hm)]
  rfl

end FIR_filt

/-! ## Direct path against efficient path -/

/-- The poles that the design stage places are N-th roots of unity: (e^{j·2π·k/N})^N = 1. -/
theorem design_Wden_pow (N k : Nat) (hN : 0 < N) :
    (design_Wden
        ⟨Real.cos, Real.sin, Real.sqrt, fun y x => Complex.arg ⟨x, y⟩, 2 * Real.pi⟩
        N k).toComplex ^ N = 1 := by
  have hN' : (N : ℂ) ≠ 0 := by exact_mod_cast hN.ne'
  have e : (design_Wden
        ⟨Real.cos, Real.sin, Real.sqrt, fun y x => Complex.arg ⟨x, y⟩, 2 * Real.pi⟩
        N k).toComplex =
      Complex.exp (((2 * Real.pi * (k : ℝ) / (N : ℝ) : ℝ) : ℂ) * Complex.I) := by
    apply Complex.ext
    · rw [Complex.exp_ofReal_mul_I_re]
      rfl
    · rw [Complex.exp_ofReal_mul_I_im]
      rfl
  rw [e, ← Complex.exp_nat_mul]
  have e2 : (N : ℂ) * (((2 * Real.pi * (k : ℝ) / (N : ℝ) : ℝ) : ℂ) * Complex.I) =
      (k : ℂ) * (2 * (Real.pi : ℂ) * Complex.I) := by
    push_cast
    field_simp
    ring
  rw [e2, Complex.exp_nat_mul_two_pi_mul_I]

/-- With the poles W_den[k] = e^{j·2π·k/N} at N = 2, the taps 1, 2, 1, the window length
3, zero accumulators and buffer and the input 1, 0, 0, ...: whatever the numerator weights
and the number of poles are, call number 2 of `filt` gives 1 and call number 2 of
`filt_eff` gives 0. -/
theorem filt_eff_misses_last_tap (Wnum : Nat → FIR_filt.vector ℝ) (M : Nat) :
    ((fir121_poles ℝ Wnum
        (design_Wden
          ⟨Real.cos, Real.sin, Real.sqrt, fun y x => Complex.arg ⟨x, y⟩, 2 * Real.pi⟩ 2)
        (M : Int)).filt_stream (impulse ℝ) 3).m_out = 1 ∧
    ((fir121_poles ℝ Wnum
        (design_Wden
          ⟨Real.cos, Real.sin, Real.sqrt, fun y x => Complex.arg ⟨x, y⟩, 2 * Real.pi⟩ 2)
        (M : Int)).filt_eff_stream (impulse ℝ) 3).m_out = 0 := by
  have hw : (sx3 ℝ).wf := mirror_ring_buff.wf_allocate _
  have hz : (sx3 ℝ).zero_filled := mirror_ring_buff.zero_filled_allocate _
  constructor
  · have h := FIR_filt.filt_stream_out_delayed
      (fir121_poles ℝ Wnum
        (design_Wden
          ⟨Real.cos, Real.sin, Real.sqrt, fun y x => Complex.arg ⟨x, y⟩, 2 * Real.pi⟩ 2)
        (M : Int)) (impulse ℝ) 2 rfl rfl hw hz 2
    refine h.trans ?_
    simp [Finset.sum_range_succ, delayed, impulse, FIR_filt.get_coeff, fir121_poles]
  · have h := FIR_filt.filt_eff_stream_out
      (fir121_poles ℝ Wnum
        (design_Wden
          ⟨Real.cos, Real.sin, Real.sqrt, fun y x => Complex.arg ⟨x, y⟩, 2 * Real.pi⟩ 2)
        (M : Int)) (impulse ℝ) 1 rfl rfl hw hz
      (fun k _ => by apply Complex.ext <;> simp [FIR_filt.accum, fir121_poles])
      (fun k _ => design_Wden_pow 2 k (by norm_num)) 2
    refine h.trans ?_
    simp [Finset.sum_range_succ, delayed, impulse]

/-- C5 (as stated, refuted): order N = 2, the taps c = 1, 2, 1, window length 3, zero
accumulators and a zero-filled buffer, three poles with the weights of the design stage,
W_num[k] = c[k]·e^{jω_k·N} and W_den[k] = e^{jω_k}, ω_k = 2π·k/N, and the input
1, 0, 0, 0. On sample number 2, the first after the 2-sample warm-up, `filt` gives 1 and
`filt_eff` gives 0. -/
theorem C5_counterexample :
    ((fir121_poles ℝ
        (design_Wnum
          ⟨Real.cos, Real.sin, Real.sqrt, fun y x => Complex.arg ⟨x, y⟩, 2 * Real.pi⟩
          (fir121 ℝ).get_coeff 2)
        (design_Wden
          ⟨Real.cos, Real.sin, Real.sqrt, fun y x => Complex.arg ⟨x, y⟩, 2 * Real.pi⟩ 2)
        ((3 : Nat) : Int)).filt_stream (impulse ℝ) 3).m_out = 1 ∧
    ((fir121_poles ℝ
        (design_Wnum
          ⟨Real.cos, Real.sin, Real.sqrt, fun y x => Complex.arg ⟨x, y⟩, 2 * Real.pi⟩
          (fir121 ℝ).get_coeff 2)
        (design_Wden
          ⟨Real.cos, Real.sin, Real.sqrt, fun y x => Complex.arg ⟨x, y⟩, 2 * Real.pi⟩ 2)
        ((3 : Nat) : Int)).filt_eff_stream (impulse ℝ) 3).m_out = 0 :=
  filt_eff_misses_last_tap _ 3

/-- C5 (amended): over the reals, let the order be N >= 1, the window length
`m_ElemNum = N+1`, the buffer zero-filled with capacity N+1, the accumulators zero, every
pole satisfy W_den[k]^N = 1 and the taps c[0..N-1] be the impulse response of the poles,
c[m] = Σ_k Re(W_num[k]·W_den[k]^m). Then on every sample the output of `filt` is the
output of `filt_eff` plus the last tap's term c[N]·x[t-N] (absent while t < N); the two
paths agree on every sample when c[N] = 0. -/
theorem C5_direct_vs_efficient (f : FIR_filt ℝ) (N : Nat) (x : Nat → ℝ) (t : Nat)
    (hpos : 0 < N) (hN : f.m_order = (N : Int)) (hE : f.m_ElemNum = (N : Int) + 1)
    (hC : f.m_BUFF_WIND_SX.m_buff_size = N + 1) (hw : f.m_BUFF_WIND_SX.wf)
    (hz : f.m_BUFF_WIND_SX.zero_filled)
    (hy : ∀ k, k < f.m_Ncplx_coeff.toNat → f.m_y_re k = 0 ∧ f.m_y_im k = 0)
    (hden : ∀ k, k < f.m_Ncplx_coeff.toNat → (f.m_Wden k).toComplex ^ N = 1)
    (htap : ∀ m, m < N → f.get_coeff m = f.pole_response m) :
    (f.filt_stream x (t + 1)).m_out =
      (f.filt_eff_stream x (t + 1)).m_out + f.get_coeff N * delayed x (t + 1) N ∧
    (f.get_coeff N = 0 →
      (f.filt_stream x (t + 1)).m_out = (f.filt_eff_stream x (t + 1)).m_out) := by
  obtain ⟨n, rfl⟩ : ∃ n, N = n + 1 := ⟨N - 1, by omega⟩
  have hE' : f.m_ElemNum = (n : Int) + 2 := by rw [hE]; push_cast; ring
  have hy' : ∀ k, k < f.m_Ncplx_coeff.toNat → f.accum k = 0 := by
    intro k hk
    obtain ⟨h1, h2⟩ := hy k hk
    apply Complex.ext
    · simpa [FIR_filt.accum] using h1
    · simpa [FIR_filt.accum] using h2
  have main : (f.filt_stream x (t + 1)).m_out =
      (f.filt_eff_stream x (t + 1)).m_out + f.get_coeff (n + 1) * delayed x (t + 1) (n + 1) := by
    rw [FIR_filt.filt_stream_out_delayed f x (n + 1) hN hC hw hz t,
      FIR_filt.filt_eff_stream_out f x n hE' hC hw hz hy' hden t,
      Finset.sum_range_succ _ (n + 1)]
    congr 1
    apply Finset.sum_congr rfl
    intro m hm
    rw [htap m (Finset.mem_range.mp hm), mul_comm]
  refine ⟨main, ?_⟩
  intro h0
  rw [main, h0, zero_mul, add_zero]

/-- Witness of C5 (amended): order 2, taps 1, -1, 0, the one pole W_num = 1,
W_den = -1, the stream 1, 3, 5, 7, 9, ..., sample number 4. -/
theorem C5_direct_vs_efficient_witness :
    ((fir_alt ℝ).filt_stream (fun n => 2 * (n : ℝ) + 1) (4 + 1)).m_out =
      ((fir_alt ℝ).filt_eff_stream (fun n => 2 * (n : ℝ) + 1) (4 + 1)).m_out :=
  (C5_direct_vs_efficient (fir_alt ℝ) 2 (fun n => 2 * (n : ℝ) + 1) 4 (by decide) rfl rfl rfl
    (mirror_ring_buff.wf_allocate _) (mirror_ring_buff.zero_filled_allocate _)
    (fun _ _ => ⟨rfl, rfl⟩)
    (fun k _ => by
      apply Complex.ext <;> simp [FIR_filt.vector.toComplex, fir_alt, pow_two])
    (fun m hm => by
      have hM : (fir_alt ℝ).m_Ncplx_coeff.toNat = 1 := rfl
      rcases m with _ | _ | m
      · simp [FIR_filt.get_coeff, FIR_filt.pole_response, hM, FIR_filt.vector.toComplex, fir_alt]
      · simp [FIR_filt.get_coeff, FIR_filt.pole_response, hM, FIR_filt.vector.toComplex, fir_alt]
      · omega)).2 (by simp [FIR_filt.get_coeff, fir_alt])

/-! ## The aperiodic filter: initialisation and rejection -/

namespace aperiodic_filt

theorem fx_to_int_natCast {R : Type} [LinearOrderedField R] [FloorRing R] (k : Nat) :
    fx_to_int ((k : R)) = (k : Int) := by
  unfold fx_to_int
  rw [if_pos (Nat.cast_nonneg k)]
  exact Int.floor_natCast k

/-- The magnitude computed by `FreqCharacteristics` vanishes if and only if the angle
makes the real part vanish, cos θ = 1 (the imaginary part sin θ then vanishes too). -/
theorem Km_real (a : aperiodic_filt ℝ) :
    (a.FreqCharacteristics
        ⟨Real.cos, Real.sin, Real.sqrt, fun y x => Complex.arg ⟨x, y⟩, 2 * Real.pi⟩).m_Km =
      Real.sqrt
        ((1 - Real.cos (2 * Real.pi * (a.m_order : ℝ) * a.m_in_F * a.m_Ts)) *
            (1 - Real.cos (2 * Real.pi * (a.m_order : ℝ) * a.m_in_F * a.m_Ts))
          + Real.sin (2 * Real.pi * (a.m_order : ℝ) * a.m_in_F * a.m_Ts) *
            Real.sin (2 * Real.pi * (a.m_order : ℝ) * a.m_in_F * a.m_Ts)) * 0.5 := by
  have hθ : -(2 * Real.pi) * (a.m_order : ℝ) * a.m_in_F * a.m_Ts =
      -(2 * Real.pi * (a.m_order : ℝ) * a.m_in_F * a.m_Ts) := by ring
  simp only [FreqCharacteristics, hθ, Real.cos_neg, Real.sin_neg]
  congr 2
  ring

end aperiodic_filt

/-- C12: the aperiodic filter cancels DC: after `filtInit(Fs, Fn)` (for every Fs and Fn,
the positive ones among them) and with the probe frequency `m_in_F` set to 0,
`FreqCharacteristics` yields `m_Km = 0`. -/
theorem C12_aperiodic_cancels_dc (a : aperiodic_filt ℝ) (Fs Fn : ℝ) :
    (aperiodic_filt.FreqCharacteristics
        ⟨Real.cos, Real.sin, Real.sqrt, fun y x => Complex.arg ⟨x, y⟩, 2 * Real.pi⟩
        { (a.filtInit Fs Fn).1 with m_in_F := 0 }).m_Km = 0 := by
  rw [aperiodic_filt.Km_real]
  simp

/-- C13: whatever the state before, `filtInit(Fs, Fn)` returns 0 and leaves `m_Fs = Fs`,
`m_Fn = Fn`, `m_Ts = 1/Fs`, `m_order` the integer conversion of Fs/Fn/2,
`m_ElemNum = m_order + 1`, which is the capacity handed to the mirror buffer,
`m_in_F = Fn` and `m_out = m_Km = m_pH = 0`; for Fs = 4000 and Fn = 50 this gives
`m_order = 40` and `m_ElemNum = 41`, and the state the default constructor builds. -/
theorem C13_filtInit_postcondition {R : Type} [LinearOrderedField R] [FloorRing R]
    (a : aperiodic_filt R) (Fs Fn : R) :
    (a.filtInit Fs Fn).2 = 0 ∧
    (a.filtInit Fs Fn).1.m_Fs = Fs ∧ (a.filtInit Fs Fn).1.m_Fn = Fn ∧
    (a.filtInit Fs Fn).1.m_Ts = 1 / Fs ∧
    (a.filtInit Fs Fn).1.m_order = fx_to_int (Fs / Fn / 2) ∧
    (a.filtInit Fs Fn).1.m_ElemNum = (a.filtInit Fs Fn).1.m_order + 1 ∧
    (a.filtInit Fs Fn).1.m_MBUFF.m_buff_size = (a.filtInit Fs Fn).1.m_ElemNum.toNat ∧
    (a.filtInit Fs Fn).1.m_in_F = Fn ∧
    (a.filtInit Fs Fn).1.m_out = 0 ∧ (a.filtInit Fs Fn).1.m_Km = 0 ∧
    (a.filtInit Fs Fn).1.m_pH = 0 ∧
    (a.filtInit 4000 50).1.m_order = 40 ∧ (a.filtInit 4000 50).1.m_ElemNum = 41 ∧
    (a.filtInit 4000 50).1 = aperiodic_filt.constructor a.m_MBUFF := by
  have h40 : fx_to_int ((4000 : R) / 50 / 2) = 40 := by
    have e : (4000 : R) / 50 / 2 = ((40 : Nat) : R) := by norm_num
    rw [e, aperiodic_filt.fx_to_int_natCast]
    rfl
  refine ⟨rfl, rfl, rfl, rfl, rfl, rfl, rfl, rfl, rfl, rfl, rfl, ?_, ?_, ?_⟩
  · exact h40
  · show fx_to_int ((4000 : R) / 50 / 2) + 1 = 41
    rw [h40]
    rfl
  · rfl

/-- C14 (the code at the failing input): when the underlying allocation of the mirror
buffer fails, `aperiodic_filt::allocate()` still returns 0, the success status, and the
buffer holds no storage. -/
theorem C14_allocate_hides_failure :
    ((aperiodic_filt.constructor (mbuff0 ℚ)).allocate false).2 = 0 ∧
    ((aperiodic_filt.constructor (mbuff0 ℚ)).allocate false).1.m_MBUFF.m_buff = [] ∧
    ((aperiodic_filt.constructor (mbuff0 ℚ)).m_MBUFF.allocate_status false).2 ≠ 0 := by
  refine ⟨rfl, rfl, ?_⟩
  decide

/-- C11 (as stated, refuted): Fs = 4000 and Fn = 60 are positive; `filtInit` stores
`m_order = 33`, the integer part of 4000/60/2, and with the probe frequency 2*Fn = 120
the angle is 1.98π, so `FreqCharacteristics` yields `m_Km ≠ 0`. -/
theorem C11_counterexample :
    (aperiodic_filt.FreqCharacteristics
        ⟨Real.cos, Real.sin, Real.sqrt, fun y x => Complex.arg ⟨x, y⟩, 2 * Real.pi⟩
        { ((aperiodic_filt.constructor (mbuff0 ℝ)).filtInit 4000 60).1 with
          m_in_F := 2 * 60 }).m_Km ≠ 0 := by
  have h33 : fx_to_int ((4000 : ℝ) / 60 / 2) = 33 := by
    unfold fx_to_int
    rw [if_pos (by norm_num), Int.floor_eq_iff]
    constructor <;> norm_num
  rw [aperiodic_filt.Km_real]
  simp only [aperiodic_filt.filtInit, h33]
  have hθ : 2 * Real.pi * ((33 : Int) : ℝ) * (2 * 60) * (1 / 4000) = 99 / 50 * Real.pi := by
    push_cast
    ring
  rw [hθ]
  have hpi := Real.pi_pos
  have hcos : Real.cos (99 / 50 * Real.pi) ≠ 1 := by
    intro h
    have h0 := (Real.cos_eq_one_iff_of_lt_of_lt (by linarith) (by linarith)).mp h
    linarith
  have hpos : 0 < (1 - Real.cos (99 / 50 * Real.pi)) * (1 - Real.cos (99 / 50 * Real.pi))
      + Real.sin (99 / 50 * Real.pi) * Real.sin (99 / 50 * Real.pi) := by
    have h1 : 1 - Real.cos (99 / 50 * Real.pi) ≠ 0 := sub_ne_zero.mpr (Ne.symm hcos)
    have h2 := mul_self_pos.mpr h1
    have h3 := mul_self_nonneg (Real.sin (99 / 50 * Real.pi))
    linarith
  have := Real.sqrt_pos.mpr hpos
  intro h
  linarith

/-- C11 (amended): for positive Fs and Fn such that Fs/Fn/2 is a whole number k, after
`filtInit(Fs, Fn)` and with the probe frequency `m_in_F` set to 2*Fn,
`FreqCharacteristics` yields `m_Km = 0`. -/
theorem C11_aperiodic_cancels_second_harmonic (a : aperiodic_filt ℝ) (Fs Fn : ℝ) (k : Nat)
    (hFs : 0 < Fs) (hFn : 0 < Fn) (hk : Fs / Fn / 2 = (k : ℝ)) :
    (aperiodic_filt.FreqCharacteristics
        ⟨Real.cos, Real.sin, Real.sqrt, fun y x => Complex.arg ⟨x, y⟩, 2 * Real.pi⟩
        { (a.filtInit Fs Fn).1 with m_in_F := 2 * Fn }).m_Km = 0 := by
  rw [aperiodic_filt.Km_real]
  simp only [aperiodic_filt.filtInit, hk, aperiodic_filt.fx_to_int_natCast]
  have hθ : 2 * Real.pi * (((k : Int)) : ℝ) * (2 * Fn) * (1 / Fs) = 2 * Real.pi := by
    have e : ((k : Int) : ℝ) = Fs / Fn / 2 := by
      rw [hk]
      norm_cast
    rw [e]
    field_simp
    ring
  rw [hθ]
  simp

/-- Witness of C11 (amended): Fs = 4000, Fn = 50, k = 40. -/
theorem C11_aperiodic_cancels_second_harmonic_witness :
    (aperiodic_filt.FreqCharacteristics
        ⟨Real.cos, Real.sin, Real.sqrt, fun y x => Complex.arg ⟨x, y⟩, 2 * Real.pi⟩
        { ((aperiodic_filt.constructor (mbuff0 ℝ)).filtInit 4000 50).1 with
          m_in_F := 2 * 50 }).m_Km = 0 :=
  C11_aperiodic_cancels_second_harmonic _ 4000 50 40 (by norm_num) (by norm_num)
    (by norm_num)

/-! ## Cascading is convolution -/

namespace FIR_filt

variable {R : Type} [CommRing R]

theorem convolve_row_apply (hi : R) (c : Nat → R) (Nc i : Nat) (g : Nat → R) (m : Nat) :
    convolve_row hi c Nc i g m =
      g m + ∑ j ∈ Finset.range Nc, if i + j = m then hi * c j else 0 := by
  unfold convolve_row
  induction Nc with
  | zero => simp
  | succ Nc ih =>
    rw [List.range_succ, List.foldl_append, Finset.sum_range_succ]
    simp only [List.foldl_cons, List.foldl_nil, Function.update_apply]
    by_cases h : m = i + Nc
    · subst h
      simp only [if_true]
      rw [ih]
      ring
    · have h' : ¬ (i + Nc = m) := fun e => h e.symm
      rw [if_neg h, if_neg h', ih]
      ring

/-- The row of index i adds to the tap m the one product h[i]*c[m-i] when m-i is an index
of c. -/
theorem convolve_row_single (hi : R) (c : Nat → R) (Nc i : Nat) (g : Nat → R) (m : Nat) :
    convolve_row hi c Nc i g m =
      g m + if i ≤ m ∧ m - i < Nc then hi * c (m - i) else 0 := by
  rw [convolve_row_apply]
  congr 1
  by_cases h : i ≤ m ∧ m - i < Nc
  · rw [if_pos h, Finset.sum_eq_single (m - i)]
    · rw [if_pos (by omega)]
    · intro j _ hj
      rw [if_neg (by omega)]
    · intro hn
      exact absurd (Finset.mem_range.mpr h.2) hn
  · rw [if_neg h]
    apply Finset.sum_eq_zero
    intro j hj
    have := Finset.mem_range.mp hj
    rw [if_neg (by omega)]

/-- Closed form of the accumulated convolution: g[m] is the sum over i of h[i]*c[m-i],
over the i for which m-i is an index of c. -/
theorem convolve_apply (h c : Nat → R) (L Nc m : Nat) :
    convolve h c L Nc m =
      ∑ i ∈ Finset.range L, if i ≤ m ∧ m - i < Nc then h i * c (m - i) else 0 := by
  unfold convolve
  induction L with
  | zero => simp
  | succ L ih =>
    rw [List.range_succ, List.foldl_append, Finset.sum_range_succ]
    simp only [List.foldl_cons, List.foldl_nil]
    rw [convolve_row_single, ih]

end FIR_filt

namespace FIR_filt

theorem getD_append_map_range {R : Type} [Zero R] (g : Nat → R) (n m : Nat) (hm : m < n) :
    (((List.range n).map g) ++ ((List.range n).map g)).getD m 0 = g m := by
  rw [List.getD_eq_getElem?_getD, List.getElem?_append_left (by simpa using hm)]
  simp [hm]

end FIR_filt

/-- C15: for current taps h[0..L-1] (order L-1) and external taps c[0..Nc-1], after
`Cascade(c, Nc)` the filter has L+Nc-1 taps and tap m is the sum over i of h[i]*c[m-i]
(over the i for which m-i is an index of c); for h = c = 0.2, 0.2, 0.2, 0.2, 0.2 the
taps are 0.04, 0.08, 0.12, 0.16, 0.20, 0.16, 0.12, 0.08, 0.04. -/
theorem C15_cascade_is_convolution {R : Type} [CommRing R] (f : FIR_filt R) (c : Nat → R)
    (L Nc : Nat) (hL : f.m_order + 1 = (L : Int)) (hLpos : 0 < L) (hNc : 0 < Nc) :
    (f.Cascade c Nc).1.m_order + 1 = ((L + Nc - 1 : Nat) : Int) ∧
    (∀ m, m < L + Nc - 1 →
      (f.Cascade c Nc).1.get_coeff m =
        ∑ i ∈ Finset.range L, if i ≤ m ∧ m - i < Nc then f.get_coeff i * c (m - i) else 0) ∧
    (List.range 9).map ((fir_box ℚ).Cascade (fir_box ℚ).get_coeff 5).1.get_coeff =
      [0.04, 0.08, 0.12, 0.16, 0.20, 0.16, 0.12, 0.08, 0.04] := by
  have hL' : (f.m_order + 1).toNat = L := by omega
  refine ⟨?_, ?_, ?_⟩
  · simp only [FIR_filt.Cascade]
    omega
  · intro m hm
    simp only [FIR_filt.Cascade, FIR_filt.get_coeff, hL']
    rw [FIR_filt.getD_append_map_range _ _ _ hm, FIR_filt.convolve_apply]
    rfl
  · have h5 : ((fir_box ℚ).m_order + 1).toNat = 5 := rfl
    have key : ∀ m, m < 5 + 5 - 1 →
        ((fir_box ℚ).Cascade (fir_box ℚ).get_coeff 5).1.get_coeff m =
          ∑ i ∈ Finset.range 5,
            if i ≤ m ∧ m - i < 5 then (fir_box ℚ).get_coeff i * (fir_box ℚ).get_coeff (m - i)
            else 0 := by
      intro m hm
      simp only [FIR_filt.Cascade, FIR_filt.get_coeff, h5]
      rw [FIR_filt.getD_append_map_range _ _ _ hm, FIR_filt.convolve_apply]
      rfl
    simp only [List.range_succ, List.range_zero, List.nil_append, List.cons_append,
      List.map_cons, List.map_nil]
    rw [key 0 (by norm_num), key 1 (by norm_num), key 2 (by norm_num), key 3 (by norm_num),
      key 4 (by norm_num), key 5 (by norm_num), key 6 (by norm_num), key 7 (by norm_num),
      key 8 (by norm_num)]
    simp only [Finset.sum_range_succ, Finset.sum_range_zero, FIR_filt.get_coeff, fir_box]
    norm_num

/-- Witness of C15: the box filter cascaded with its own five taps. -/
theorem C15_cascade_is_convolution_witness :
    ((fir_box ℚ).Cascade (fir_box ℚ).get_coeff 5).1.m_order + 1 = ((5 + 5 - 1 : Nat) : Int) :=
  (C15_cascade_is_convolution (fir_box ℚ) (fir_box ℚ).get_coeff 5 5 rfl (by decide)
    (by decide)).1

/-- C16: for every Fs, Fn, order and scale flag, `LP_Init` and `HP_Init` called with
F_stop >= Fs/2 return a non-zero status and leave the filter as it was, whatever the tap
computation of an accepted call is. -/
theorem C16_cutoff_out_of_range_rejected {R : Type} [LinearOrderedField R]
    (dLP dHP : FIR_filt R → R → R → R → Int → Bool → FIR_filt R) (f : FIR_filt R)
    (Fs Fn F_stop : R) (order : Int) (scale : Bool) (h : Fs / 2 ≤ F_stop) :
    (f.LP_Init dLP Fs Fn F_stop order scale).2 ≠ 0 ∧
    (f.LP_Init dLP Fs Fn F_stop order scale).1 = f ∧
    (f.HP_Init dHP Fs Fn F_stop order scale).2 ≠ 0 ∧
    (f.HP_Init dHP Fs Fn F_stop order scale).1 = f := by
  have hn : ¬ (0 < F_stop ∧ F_stop < Fs / 2 ∧ 0 < order) := fun hc => absurd hc.2.1 (not_lt.mpr h)
  unfold FIR_filt.LP_Init FIR_filt.HP_Init
  rw [if_neg hn, if_neg hn]
  exact ⟨one_ne_zero, rfl, one_ne_zero, rfl⟩

/-- Witness of C16: Fs = 4000 and F_stop = 2000 = Fs/2 on the box filter. -/
theorem C16_cutoff_out_of_range_rejected_witness :
    ((fir_box ℚ).LP_Init (fun g _ _ _ _ _ => g) 4000 50 2000 40 true).2 ≠ 0 :=
  (C16_cutoff_out_of_range_rejected (fun g _ _ _ _ _ => g) (fun g _ _ _ _ _ => g)
    (fir_box ℚ) 4000 50 2000 40 true (by norm_num)).1

/-! ## The special functions and the windows evaluated -/

/-- The factorial and the integer gamma function on small arguments. -/
theorem factorial_trace :
    __factorial__ 5 = 120 ∧ __factorial__ 0 = 1 ∧ __factorial__ (-3) = 1 ∧
    __gamma_integer__ (fun _ => 0) 5 = 24 ∧ __gamma_integer__ (fun _ => 0) 1 = 1 := by
  decide

/-! ## Window functions: the stores of a builder loop -/

namespace wind_fcn

variable {R : Type}

theorem load_store [Zero R] (w : wind_fcn R) (l : List R) (hb : w.m_buff = some l) (n k : Nat)
    (v : R) : (w.store n v).load k = if n = k ∧ n < l.length then v else w.load k := by
  simp only [store, load, hb, Option.map_some', mirror_ring_buff.getD_set]

theorem store_buff (w : wind_fcn R) (l : List R) (hb : w.m_buff = some l) (n : Nat) (v : R) :
    (w.store n v).m_buff = some (l.set n v) := by
  simp only [store, hb, Option.map_some']

@[simp] theorem store_order (w : wind_fcn R) (n : Nat) (v : R) :
    (w.store n v).m_order = w.m_order := rfl

/-- A loop `for (n = 0; n < K; n++) m_buff[n] = v(n);` over an allocated array of at least
K elements leaves v(n) at every n < K and nothing else changed. -/
theorem foldl_store [Zero R] (v : Nat → R) (w : wind_fcn R) (l : List R)
    (hb : w.m_buff = some l) (K : Nat) (hK : K ≤ l.length) :
    ∃ l', ((List.range K).foldl (fun acc n => acc.store n (v n)) w).m_buff = some l' ∧
      l'.length = l.length ∧
      ((List.range K).foldl (fun acc n => acc.store n (v n)) w).m_order = w.m_order ∧
      ∀ n, ((List.range K).foldl (fun acc n => acc.store n (v n)) w).load n =
        if n < K then v n else w.load n := by
  induction K with
  | zero => exact ⟨l, hb, rfl, rfl, fun n => by simp⟩
  | succ K ih =>
    obtain ⟨l', h1, h2, h3, h4⟩ := ih (by omega)
    rw [List.range_succ, List.foldl_append]
    simp only [List.foldl_cons, List.foldl_nil]
    refine ⟨l'.set K (v K), store_buff _ _ h1 _ _, by simp [h2], by simp [h3], ?_⟩
    intro n
    rw [load_store _ _ h1, h4 n]
    by_cases hn : K = n
    · subst hn
      simp [h2]
      omega
    · have : n < K + 1 ↔ n < K := by omega
      simp [hn, this]

theorem allocate_buff [Zero R] (w : wind_fcn R) :
    (w.allocate true).1.m_buff = some (List.replicate w.m_order.toNat 0) ∧
    (w.allocate true).1.m_order = w.m_order := by
  simp [allocate]

end wind_fcn

/-- C17: for every length N (N >= 2 among them), every beta and every n in 0..N-1, after `init(N)` and
`Kaiser(beta)` (the array reserved) the weight `buff[n]` equals
I0(beta*sqrt(1 - A^2)) / I0(beta) with A = (n - (N-1)/2) / ((N-1)/2), where I0(z) is the
library function `__modified_bessel_in__(z, 0)`. -/
theorem C17_kaiser_window {R : Type} [LinearOrderedField R] (m : cmath R) (undef : Nat → Nat)
    (w : wind_fcn R) (N n : Nat) (beta : R) (hn : n < N) :
    (((w.init (N : Int)).Kaiser m undef true beta).1.load n =
      __modified_bessel_in__ undef
          (beta * m.sqrt (1 - (((n : R) - ((N : R) - 1) / 2) / (((N : R) - 1) / 2)) ^ 2)) 0
        / __modified_bessel_in__ undef beta 0) ∧
    ((w.init (N : Int)).Kaiser m undef true beta).1.is_ready = true := by
  obtain ⟨hb, ho⟩ := wind_fcn.allocate_buff (w.init (N : Int))
  have hN' : (w.init (N : Int)).m_order = (N : Int) := rfl
  rw [hN'] at hb ho
  obtain ⟨l', -, -, -, h4⟩ := wind_fcn.foldl_store
    (fun k : Nat =>
      __modified_bessel_in__ undef
          (beta * m.sqrt (1 - (((k : R) - ((N : R) - 1) / 2) / (((N : R) - 1) / 2))
            * (((k : R) - ((N : R) - 1) / 2) / (((N : R) - 1) / 2)))) 0
        / __modified_bessel_in__ undef beta 0)
    ((w.init (N : Int)).allocate true).1 _ hb N (by simp)
  refine ⟨?_, rfl⟩
  have h := h4 n
  rw [if_pos hn] at h
  rw [pow_two]
  simp only [wind_fcn.Kaiser, ho, Int.toNat_ofNat, Int.cast_natCast]
  exact h

/-- Witness of C17: length 5, beta = 3, position 1, with the square root of the rationals
taken as the identity. -/
theorem C17_kaiser_window_witness :
    ((((wind_fcn.constructor 0 : wind_fcn ℚ).init ((5 : Nat) : Int)).Kaiser
        ⟨id, id, id, fun y _ => y, 0⟩ (fun _ => 0) true 3).1.is_ready = true) :=
  (C17_kaiser_window ⟨id, id, id, fun y _ => y, 0⟩ (fun _ => 0) (wind_fcn.constructor 0) 5 1 3
    (by decide)).2

/-! ## The Chebyshev polynomial -/

namespace wind_fcn

/-- The hyperbolic cosine of log(x + sqrt(x^2 - 1)) is x for x >= 1: the function
`acosh` of the math library inverts `cosh` there. -/
theorem cosh_acosh (x : ℝ) (hx : 1 ≤ x) :
    Real.cosh (Real.log (x + Real.sqrt (x ^ 2 - 1))) = x := by
  have hs : 0 ≤ x ^ 2 - 1 := by nlinarith
  have hsq : Real.sqrt (x ^ 2 - 1) ^ 2 = x ^ 2 - 1 := Real.sq_sqrt hs
  have hs0 : 0 ≤ Real.sqrt (x ^ 2 - 1) := Real.sqrt_nonneg _
  have hy : 0 < x + Real.sqrt (x ^ 2 - 1) := by linarith
  rw [Real.cosh_eq, Real.exp_neg, Real.exp_log hy]
  field_simp
  nlinarith

theorem acosh_nonneg (x : ℝ) (hx : 1 ≤ x) : 0 ≤ Real.log (x + Real.sqrt (x ^ 2 - 1)) := by
  apply Real.log_nonneg
  have := Real.sqrt_nonneg (x ^ 2 - 1)
  linarith

/-- The Chebyshev polynomial at a hyperbolic cosine: T_n(cosh t) = cosh(n t). -/
theorem T_real_cosh (n : ℤ) (t : ℝ) :
    (Polynomial.Chebyshev.T ℝ n).eval (Real.cosh t) = Real.cosh ((n : ℝ) * t) := by
  have h := Polynomial.Chebyshev.T_complex_cos ((t : ℂ) * Complex.I) n
  rw [Complex.cos_mul_I, ← mul_assoc, Complex.cos_mul_I] at h
  have h2 : (((Polynomial.Chebyshev.T ℝ n).eval (Real.cosh t) : ℝ) : ℂ) =
      ((Real.cosh ((n : ℝ) * t) : ℝ) : ℂ) := by
    rw [Polynomial.Chebyshev.complex_ofReal_eval_T]
    push_cast
    exact h
  exact_mod_cast h2

end wind_fcn

/-- C20: for every integer n >= 0 and every real x >= -1, `cheby_poly(n, x)` is the value
T_n(x) of the Chebyshev polynomial of the first kind; it is computed as cos(n*acos(x))
when |x| <= 1 and as cosh(n*acosh(x)) when x > 1. Here cos, acos, cosh are the real
functions and acosh(x) = log(x + sqrt(x^2 - 1)). -/
theorem C20_cheby_poly (n : Nat) (x : ℝ) (hx : -1 ≤ x) :
    wind_fcn.cheby_poly
        ⟨Real.cos, Real.arccos, Real.cosh, fun y => Real.log (y + Real.sqrt (y ^ 2 - 1)),
          fun a b => a ^ b, Real.pi⟩ (n : Int) x =
      (Polynomial.Chebyshev.T ℝ (n : Int)).eval x ∧
    (|x| ≤ 1 →
      wind_fcn.cheby_poly
          ⟨Real.cos, Real.arccos, Real.cosh, fun y => Real.log (y + Real.sqrt (y ^ 2 - 1)),
            fun a b => a ^ b, Real.pi⟩ (n : Int) x =
        Real.cos ((n : ℝ) * Real.arccos x)) ∧
    (1 < x →
      wind_fcn.cheby_poly
          ⟨Real.cos, Real.arccos, Real.cosh, fun y => Real.log (y + Real.sqrt (y ^ 2 - 1)),
            fun a b => a ^ b, Real.pi⟩ (n : Int) x =
        Real.cosh ((n : ℝ) * Real.log (x + Real.sqrt (x ^ 2 - 1)))) := by
  refine ⟨?_, ?_, ?_⟩
  · unfold wind_fcn.cheby_poly
    by_cases h : |x| ≤ 1
    · rw [if_pos h]
      have hx1 : x ≤ 1 := (abs_le.mp h).2
      have e := Polynomial.Chebyshev.T_real_cos (Real.arccos x) (n : Int)
      rw [Real.cos_arccos hx hx1] at e
      rw [e]
    · rw [if_neg h]
      have hx1 : 1 ≤ x := by
        by_contra hc
        exact h (abs_le.mpr ⟨hx, by linarith⟩)
      have e := wind_fcn.T_real_cosh (n : Int) (Real.log (x + Real.sqrt (x ^ 2 - 1)))
      rw [wind_fcn.cosh_acosh x hx1] at e
      rw [e]
  · intro h
    unfold wind_fcn.cheby_poly
    rw [if_pos h]
    push_cast
    rfl
  · intro h
    unfold wind_fcn.cheby_poly
    have : ¬ |x| ≤ 1 := by
      intro hc
      linarith [(abs_le.mp hc).2]
    rw [if_neg this]
    push_cast
    rfl

/-- Witness of C20: n = 3 at x = 2, where T_3(2) is the value of cosh(3*acosh(2)). -/
theorem C20_cheby_poly_witness :
    wind_fcn.cheby_poly
        ⟨Real.cos, Real.arccos, Real.cosh, fun y => Real.log (y + Real.sqrt (y ^ 2 - 1)),
          fun a b => a ^ b, Real.pi⟩ ((3 : Nat) : Int) 2 =
      (Polynomial.Chebyshev.T ℝ ((3 : Nat) : Int)).eval 2 :=
  (C20_cheby_poly 3 2 (by norm_num)).1

/-! ## The Chebyshev window: what the loops leave in the array -/

namespace wind_fcn

variable {R : Type} [LinearOrderedField R]

/-- A loop `for (nn = 0; nn < K; nn++) m_buff[nn] /= d;` over an allocated array of at
least K elements divides every element below K by d. -/
theorem foldl_div (d : R) (w : wind_fcn R) (l : List R) (hb : w.m_buff = some l) (K : Nat)
    (hK : K ≤ l.length) :
    ∃ l', ((List.range K).foldl (fun acc nn => acc.store nn (acc.load nn / d)) w).m_buff
        = some l' ∧ l'.length = l.length ∧
      ∀ n, ((List.range K).foldl (fun acc nn => acc.store nn (acc.load nn / d)) w).load n =
        if n < K then w.load n / d else w.load n := by
  induction K with
  | zero => exact ⟨l, hb, rfl, fun n => by simp⟩
  | succ K ih =>
    obtain ⟨l', h1, h2, h4⟩ := ih (by omega)
    rw [List.range_succ, List.foldl_append]
    simp only [List.foldl_cons, List.foldl_nil]
    refine ⟨l'.set K _, store_buff _ _ h1 _ _, by simp [h2], ?_⟩
    intro n
    rw [load_store _ _ h1, h4 n, h4 K]
    by_cases hn : K = n
    · subst hn
      have hlt : K < l'.length := by omega
      simp [hlt]
    · have : n < K + 1 ↔ n < K := by omega
      simp [hn, this]

/-- One pass of the outer loop of `Chebyshev` on an allocated array of N elements, at an
index nn < N: the value of the pass is stored at nn and at N-1-nn, and `max` follows. -/
theorem Chebyshev_body_spec (m : cmath_win R) (N : Nat) (atten : R) (w : wind_fcn R) (mx : R)
    (l : List R) (hb : w.m_buff = some l) (hl : l.length = N) (nn : Nat) (hnn : nn < N) :
    (Chebyshev_body m (N : Int) atten (w, mx) nn).1.m_buff =
        some ((l.set nn (Chebyshev_value m (N : Int) atten nn)).set (N - 1 - nn)
          (Chebyshev_value m (N : Int) atten nn)) ∧
    (Chebyshev_body m (N : Int) atten (w, mx) nn).1.m_order = w.m_order ∧
    (Chebyshev_body m (N : Int) atten (w, mx) nn).2 =
      if Chebyshev_value m (N : Int) atten nn > mx then Chebyshev_value m (N : Int) atten nn
      else mx := by
  have e : ((N : Int) - (nn : Int) - 1).toNat = N - 1 - nn := by omega
  have h1 := store_buff w l hb nn (Chebyshev_value m (N : Int) atten nn)
  have hload : (w.store nn (Chebyshev_value m (N : Int) atten nn)).load nn =
      Chebyshev_value m (N : Int) atten nn := by
    rw [load_store w l hb]
    simp [hl, hnn]
  have h2 := store_buff _ _ h1 (N - 1 - nn) (Chebyshev_value m (N : Int) atten nn)
  have hload2 : ((w.store nn (Chebyshev_value m (N : Int) atten nn)).store (N - 1 - nn)
      (Chebyshev_value m (N : Int) atten nn)).load nn = Chebyshev_value m (N : Int) atten nn := by
    rw [load_store _ _ h1, hload]
    simp
  refine ⟨?_, rfl, ?_⟩
  · simp only [Chebyshev_body, e, hload]
    exact h2
  · simp only [Chebyshev_body, e, hload, hload2]

end wind_fcn

namespace wind_fcn

variable {R : Type} [LinearOrderedField R]

/-- What k passes of the outer loop of `Chebyshev` leave: an array that reads the same
from both ends, in which every position touched so far holds the value of the pass that
wrote it, and a `max` that is 0 or the largest value seen. -/
theorem Chebyshev_passes (m : cmath_win R) (N : Nat) (atten : R) (w : wind_fcn R)
    (l0 : List R) (hb : w.m_buff = some l0) (hl : l0.length = N) (ho : w.m_order = (N : Int))
    (hsym : ∀ j, j < N → l0.getD j 0 = l0.getD (N - 1 - j) 0) (k : Nat) (hk : k ≤ N) :
    ∃ l, ((List.range k).foldl (Chebyshev_body m (N : Int) atten) (w, 0)).1.m_buff = some l ∧
      l.length = N ∧
      ((List.range k).foldl (Chebyshev_body m (N : Int) atten) (w, 0)).1.m_order = (N : Int) ∧
      (∀ j, j < N → l.getD j 0 = l.getD (N - 1 - j) 0) ∧
      (∀ j, j < N → (j < k ∨ N - 1 - j < k) →
        (j < k ∧ l.getD j 0 = Chebyshev_value m (N : Int) atten j) ∨
        (N - 1 - j < k ∧ l.getD j 0 = Chebyshev_value m (N : Int) atten (N - 1 - j))) ∧
      0 ≤ ((List.range k).foldl (Chebyshev_body m (N : Int) atten) (w, 0)).2 ∧
      (∀ nn, nn < k → Chebyshev_value m (N : Int) atten nn ≤
        ((List.range k).foldl (Chebyshev_body m (N : Int) atten) (w, 0)).2) ∧
      (((List.range k).foldl (Chebyshev_body m (N : Int) atten) (w, 0)).2 = 0 ∨
        ∃ nn, nn < k ∧ ((List.range k).foldl (Chebyshev_body m (N : Int) atten) (w, 0)).2 =
          Chebyshev_value m (N : Int) atten nn) := by
  induction k with
  | zero =>
    refine ⟨l0, hb, hl, ho, hsym, ?_, le_refl _, ?_, Or.inl rfl⟩
    · intro j _ h
      omega
    · intro nn h
      omega
  | succ k ih =>
    obtain ⟨l, h1, h2, h3, h4, h5, h6, h7, h8⟩ := ih (by omega)
    rw [List.range_succ, List.foldl_append]
    simp only [List.foldl_cons, List.foldl_nil]
    obtain ⟨b1, b2, b3⟩ := Chebyshev_body_spec m N atten
      ((List.range k).foldl (Chebyshev_body m (N : Int) atten) (w, 0)).1
      ((List.range k).foldl (Chebyshev_body m (N : Int) atten) (w, 0)).2 l h1 h2 k (by omega)
    have hget : ∀ j, ((l.set k (Chebyshev_value m (N : Int) atten k)).set (N - 1 - k)
        (Chebyshev_value m (N : Int) atten k)).getD j 0 =
          if j = k ∨ j = N - 1 - k then Chebyshev_value m (N : Int) atten k
          else l.getD j 0 := by
      intro j
      simp only [mirror_ring_buff.getD_set, List.length_set, h2]
      split_ifs <;> first | rfl | (exfalso; omega)
    refine ⟨_, b1, by simp [h2], b2.trans h3, ?_, ?_, ?_, ?_, ?_⟩
    · intro j hj
      rw [hget, hget]
      have := h4 j hj
      split_ifs <;> first | rfl | exact this | (exfalso; omega)
    · intro j hj hjk
      rw [hget]
      by_cases e1 : j = k
      · left
        rw [if_pos (Or.inl e1), e1]
        exact ⟨by omega, rfl⟩
      · by_cases e2 : j = N - 1 - k
        · right
          rw [if_pos (Or.inr e2)]
          have e3 : N - 1 - j = k := by omega
          rw [e3]
          exact ⟨by omega, rfl⟩
        · rw [if_neg (by tauto)]
          have hjk' : j < k ∨ N - 1 - j < k := by omega
          rcases h5 j hj hjk' with ⟨a, b⟩ | ⟨a, b⟩
          · exact Or.inl ⟨by omega, b⟩
          · exact Or.inr ⟨by omega, b⟩
    · rw [b3]
      split_ifs with hgt
      · exact le_of_lt (lt_of_le_of_lt h6 hgt)
      · exact h6
    · intro nn hnn
      rw [b3]
      by_cases e : nn = k
      · subst e
        split_ifs with hgt
        · exact le_refl _
        · exact not_lt.mp hgt
      · have := h7 nn (by omega)
        split_ifs with hgt
        · exact le_of_lt (lt_of_le_of_lt this hgt)
        · exact this
    · rw [b3]
      split_ifs with hgt
      · exact Or.inr ⟨k, by omega, rfl⟩
      · rcases h8 with h0 | ⟨nn, hnn, hv⟩
        · exact Or.inl h0
        · exact Or.inr ⟨nn, by omega, hv⟩

end wind_fcn

namespace wind_fcn

variable {R : Type} [LinearOrderedField R]

theorem tdiv_two_natCast (N : Nat) : Int.tdiv (N : Int) 2 = ((N / 2 : Nat) : Int) := by
  rw [Int.tdiv_eq_ediv (by omega) (by omega)]
  norm_cast

/-- The window after `init(N)` and `Chebyshev(atten)` with the array reserved, N >= 1:
there is a `max`, 0 or the largest value of the passes 0..N/2, such that every position
n < N holds the value of pass n or of pass N-1-n divided by `max`, and the array reads the
same from both ends. -/
theorem Chebyshev_spec (m : cmath_win R) (w : wind_fcn R) (N : Nat) (atten : R) (hN : 1 ≤ N) :
    ∃ mx : R, 0 ≤ mx ∧
      (∀ nn, nn ≤ N / 2 → Chebyshev_value m (N : Int) atten nn ≤ mx) ∧
      (mx = 0 ∨ ∃ nn, nn ≤ N / 2 ∧ mx = Chebyshev_value m (N : Int) atten nn) ∧
      ∀ j, j < N →
        ((w.init (N : Int)).Chebyshev m true atten).1.load j =
          ((w.init (N : Int)).Chebyshev m true atten).1.load (N - 1 - j) ∧
        ((j ≤ N / 2 ∧ ((w.init (N : Int)).Chebyshev m true atten).1.load j =
            Chebyshev_value m (N : Int) atten j / mx) ∨
          (N - 1 - j ≤ N / 2 ∧ ((w.init (N : Int)).Chebyshev m true atten).1.load j =
            Chebyshev_value m (N : Int) atten (N - 1 - j) / mx)) := by
  obtain ⟨hb, ho⟩ := allocate_buff (w.init (N : Int))
  have hN' : (w.init (N : Int)).m_order = (N : Int) := rfl
  rw [hN'] at hb ho
  simp only [Int.toNat_ofNat] at hb
  have hk : (Int.tdiv (N : Int) 2 + 1).toNat = N / 2 + 1 := by
    rw [tdiv_two_natCast]
    omega
  obtain ⟨l, h1, h2, h3, h4, h5, h6, h7, h8⟩ := Chebyshev_passes m N atten
    ((w.init (N : Int)).allocate true).1 _ hb (by simp) ho
    (fun j _ => by simp only [mirror_ring_buff.getD_replicate_zero]) (N / 2 + 1) (by omega)
  have hfill : Chebyshev_fill m ((w.init (N : Int)).allocate true).1 atten =
      (List.range (N / 2 + 1)).foldl (Chebyshev_body m (N : Int) atten)
        (((w.init (N : Int)).allocate true).1, 0) := by
    rw [Chebyshev_fill, ho, hk]
  obtain ⟨l', g1, g2, g3⟩ := foldl_div
    ((List.range (N / 2 + 1)).foldl (Chebyshev_body m (N : Int) atten)
        (((w.init (N : Int)).allocate true).1, 0)).2 _ l h1 N (by omega)
  have hload : ∀ j, j < N → ((w.init (N : Int)).Chebyshev m true atten).1.load j =
      l.getD j 0 / ((List.range (N / 2 + 1)).foldl (Chebyshev_body m (N : Int) atten)
        (((w.init (N : Int)).allocate true).1, 0)).2 := by
    intro j hj
    have e := g3 j
    rw [if_pos hj] at e
    simp only [Chebyshev, hfill, ho, Int.toNat_ofNat]
    simp only [load] at e ⊢
    rw [h1] at e
    exact e
  refine ⟨_, h6, fun nn hnn => h7 nn (by omega), ?_, ?_⟩
  · rcases h8 with h0 | ⟨nn, hnn, hv⟩
    · exact Or.inl h0
    · exact Or.inr ⟨nn, by omega, hv⟩
  · intro j hj
    rw [hload j hj, hload (N - 1 - j) (by omega), h4 j hj]
    refine ⟨rfl, ?_⟩
    have hj2 : j < N / 2 + 1 ∨ N - 1 - j < N / 2 + 1 := by omega
    rcases h5 j hj hj2 with ⟨a, b⟩ | ⟨a, b⟩
    · left
      rw [← h4 j hj, b]
      exact ⟨by omega, rfl⟩
    · right
      rw [← h4 j hj, b]
      exact ⟨by omega, rfl⟩

end wind_fcn

/-- C19: for every length N >= 2 and attenuation, after `init(N)` and `Chebyshev(atten)`
(the array reserved) `buff[n] = buff[N-1-n]` for all n in 0..N-1, and every position
0..N-1 has been assigned from the passes nn = 0..N/2, the only ones computed from the
formula: the position n holds the value `tg + 2*sum` of the pass n (then n <= N/2) or of
the pass N-1-n that mirrored it (then N-1-n <= N/2), divided by `max`. Here `mx` is what
the first loop leaves in `max`: it is at least 0 and at least every pass value, and it is
0 or one of the pass values. -/
theorem C19_chebyshev_symmetric {R : Type} [LinearOrderedField R] (m : cmath_win R)
    (w : wind_fcn R) (N : Nat) (atten : R) (hN : 2 ≤ N) :
    (∃ mx : R,
      0 ≤ mx ∧
      (∀ nn, nn ≤ N / 2 → wind_fcn.Chebyshev_value m (N : Int) atten nn ≤ mx) ∧
      (mx = 0 ∨ ∃ nn, nn ≤ N / 2 ∧ mx = wind_fcn.Chebyshev_value m (N : Int) atten nn) ∧
      ∀ n, n < N →
        ((w.init (N : Int)).Chebyshev m true atten).1.load n =
          ((w.init (N : Int)).Chebyshev m true atten).1.load (N - 1 - n) ∧
        ((n ≤ N / 2 ∧
            ((w.init (N : Int)).Chebyshev m true atten).1.load n =
              wind_fcn.Chebyshev_value m (N : Int) atten n / mx) ∨
          (N - 1 - n ≤ N / 2 ∧
            ((w.init (N : Int)).Chebyshev m true atten).1.load n =
              wind_fcn.Chebyshev_value m (N : Int) atten (N - 1 - n) / mx))) ∧
    ((w.init (N : Int)).Chebyshev m true atten).1.is_ready = true := by
  obtain ⟨mx, h0, h1, h2, h3⟩ := wind_fcn.Chebyshev_spec m w N atten (by omega)
  exact ⟨⟨mx, h0, h1, h2, h3⟩, rfl⟩

/-- Witness of C19: length 4 over the rationals, the math functions replaced by the
identity. -/
theorem C19_chebyshev_symmetric_witness :
    ∃ mx : ℚ,
      0 ≤ mx ∧
      (∀ nn, nn ≤ 4 / 2 →
        wind_fcn.Chebyshev_value ⟨id, id, id, id, fun a _ => a, 3⟩ ((4 : Nat) : Int) 60 nn
          ≤ mx) ∧
      (mx = 0 ∨ ∃ nn, nn ≤ 4 / 2 ∧
        mx = wind_fcn.Chebyshev_value ⟨id, id, id, id, fun a _ => a, 3⟩ ((4 : Nat) : Int) 60
          nn) ∧
      ∀ n, n < 4 →
        (((wind_fcn.constructor 0 : wind_fcn ℚ).init ((4 : Nat) : Int)).Chebyshev
            ⟨id, id, id, id, fun a _ => a, 3⟩ true 60).1.load n =
          (((wind_fcn.constructor 0 : wind_fcn ℚ).init ((4 : Nat) : Int)).Chebyshev
            ⟨id, id, id, id, fun a _ => a, 3⟩ true 60).1.load (4 - 1 - n) ∧
        ((n ≤ 4 / 2 ∧
            (((wind_fcn.constructor 0 : wind_fcn ℚ).init ((4 : Nat) : Int)).Chebyshev
              ⟨id, id, id, id, fun a _ => a, 3⟩ true 60).1.load n =
              wind_fcn.Chebyshev_value ⟨id, id, id, id, fun a _ => a, 3⟩ ((4 : Nat) : Int)
                60 n / mx) ∨
          (4 - 1 - n ≤ 4 / 2 ∧
            (((wind_fcn.constructor 0 : wind_fcn ℚ).init ((4 : Nat) : Int)).Chebyshev
              ⟨id, id, id, id, fun a _ => a, 3⟩ true 60).1.load n =
              wind_fcn.Chebyshev_value ⟨id, id, id, id, fun a _ => a, 3⟩ ((4 : Nat) : Int)
                60 (4 - 1 - n) / mx)) :=
  (C19_chebyshev_symmetric ⟨id, id, id, id, fun a _ => a, 3⟩ (wind_fcn.constructor 0) 4 60
    (by decide)).1

/-! ## Chebyshev polynomials with a scaled argument -/

namespace ChebCone

open Polynomial

theorem of_parity {e e2 : Nat} {p : ℝ[X]} (h : e % 2 = e2 % 2) (hp : ChebCone e p) :
    ChebCone e2 p := by
  induction hp with
  | zero => exact ChebCone.zero _
  | gen k c hc hk => exact ChebCone.gen _ k c hc (by omega)
  | add p q _ _ ihp ihq => exact ChebCone.add _ p q ihp ihq

theorem smul {e : Nat} {p : ℝ[X]} (c : ℝ) (hc : 0 ≤ c) (hp : ChebCone e p) :
    ChebCone e (C c * p) := by
  induction hp with
  | zero => simpa using ChebCone.zero e
  | gen k d hd hk =>
    rw [← mul_assoc, ← C_mul]
    exact ChebCone.gen e k (c * d) (mul_nonneg hc hd) hk
  | add p q _ _ ihp ihq =>
    rw [mul_add]
    exact ChebCone.add e _ _ ihp ihq

theorem sum {e : Nat} {ι : Type} (s : Finset ι) (f : ι → ℝ[X])
    (h : ∀ i ∈ s, ChebCone e (f i)) : ChebCone e (∑ i ∈ s, f i) := by
  classical
  induction s using Finset.induction_on with
  | empty => simpa using ChebCone.zero e
  | insert hi ih =>
    rw [Finset.sum_insert hi]
    exact ChebCone.add e _ _ (h _ (Finset.mem_insert_self _ _))
      (ih (fun i hi' => h i (Finset.mem_insert_of_mem hi')))

theorem T_mem (k : Nat) : ChebCone k (Chebyshev.T ℝ (k : ℤ)) := by
  have := ChebCone.gen k k 1 zero_le_one rfl
  rwa [C_1, one_mul] at this

/-- The product of two generators: T_a * T_b = (T_(a+b) + T_|a-b|) / 2. -/
theorem gen_mul_gen (a b : Nat) (c d : ℝ) (hc : 0 ≤ c) (hd : 0 ≤ d) :
    ChebCone (a + b) ((C c * Chebyshev.T ℝ (a : ℤ)) * (C d * Chebyshev.T ℝ (b : ℤ))) := by
  have h := Chebyshev.mul_T ℝ (a : ℤ) (b : ℤ)
  have e : (C c * Chebyshev.T ℝ (a : ℤ)) * (C d * Chebyshev.T ℝ (b : ℤ)) =
      C (c * d / 2) * Chebyshev.T ℝ ((a + b : Nat) : ℤ)
        + C (c * d / 2) * Chebyshev.T ℝ (((a : ℤ) - b).natAbs : ℤ) := by
    rw [Chebyshev.T_natAbs]
    have h2 : Chebyshev.T ℝ (a : ℤ) * Chebyshev.T ℝ (b : ℤ) =
        C (1 / 2 : ℝ) * (Chebyshev.T ℝ ((a : ℤ) + b) + Chebyshev.T ℝ ((a : ℤ) - b)) := by
      rw [← h, ← mul_assoc, ← mul_assoc]
      have : C (1 / 2 : ℝ) * 2 = 1 := by
        rw [show (2 : ℝ[X]) = C 2 from rfl, ← C_mul]
        norm_num
      rw [this, one_mul]
    have h3 : (C c * Chebyshev.T ℝ (a : ℤ)) * (C d * Chebyshev.T ℝ (b : ℤ)) =
        C (c * d) * (Chebyshev.T ℝ (a : ℤ) * Chebyshev.T ℝ (b : ℤ)) := by
      rw [C_mul]; ring
    rw [h3, h2, ← mul_assoc, ← C_mul, mul_add]
    push_cast
    have : c * d * (1 / 2) = c * d / 2 := by ring
    rw [this]
  rw [e]
  have hcd : 0 ≤ c * d / 2 := by positivity
  refine ChebCone.add _ _ _ (ChebCone.gen _ _ _ hcd rfl) (ChebCone.gen _ _ _ hcd ?_)
  omega

theorem mul {e1 e2 : Nat} {p q : ℝ[X]} (hp : ChebCone e1 p) (hq : ChebCone e2 q) :
    ChebCone (e1 + e2) (p * q) := by
  induction hp with
  | zero => simpa using ChebCone.zero _
  | gen k c hc hk =>
    induction hq with
    | zero => simpa using ChebCone.zero _
    | gen k2 d hd hk2 =>
      exact of_parity (by omega) (gen_mul_gen k k2 c d hc hd)
    | add p q _ _ ihp ihq =>
      rw [mul_add]
      exact ChebCone.add _ _ _ ihp ihq
  | add p1 p2 _ _ ihp ihq =>
    rw [add_mul]
    exact ChebCone.add _ _ _ ihp ihq

theorem X_pow (i : Nat) : ChebCone i (X ^ i : ℝ[X]) := by
  induction i with
  | zero =>
    have := T_mem 0
    simpa using this
  | succ i ih =>
    rw [pow_succ]
    have h1 := T_mem 1
    simp only [Nat.cast_one, Chebyshev.T_one] at h1
    exact mul ih h1


theorem U_add_two_eq (n : ℤ) :
    Chebyshev.U ℝ (n + 2) = Chebyshev.U ℝ n + 2 * Chebyshev.T ℝ (n + 2) := by
  have h1 := Chebyshev.T_eq_U_sub_X_mul_U ℝ (n + 2)
  have h2 := Chebyshev.U_add_two ℝ n
  have e : n + 2 - 1 = n + 1 := by ring
  rw [e] at h1
  linear_combination (-2 : ℝ[X]) * h1 - h2

theorem U_mem_aux (n : Nat) :
    ChebCone n (Chebyshev.U ℝ (n : ℤ)) ∧ ChebCone (n + 1) (Chebyshev.U ℝ ((n + 1 : Nat) : ℤ)) := by
  induction n with
  | zero =>
    constructor
    · have := T_mem 0
      simpa using this
    · have h := smul 2 (by norm_num) (T_mem 1)
      have e : (C (2 : ℝ) * Chebyshev.T ℝ ((1 : Nat) : ℤ)) = Chebyshev.U ℝ ((0 + 1 : Nat) : ℤ) := by
        simp only [Nat.cast_one, Chebyshev.T_one, zero_add, Chebyshev.U_one]
        rfl
      rwa [e] at h
  | succ n ih =>
    refine ⟨ih.2, ?_⟩
    have e : (((n + 1 + 1 : Nat)) : ℤ) = (n : ℤ) + 2 := by push_cast; ring
    rw [e, U_add_two_eq]
    refine ChebCone.add _ _ _ (of_parity (by omega) ih.1) ?_
    have h := smul 2 (by norm_num) (T_mem (n + 2))
    have e2 : ((n + 2 : Nat) : ℤ) = (n : ℤ) + 2 := by push_cast; ring
    rw [e2] at h
    exact h

theorem U_mem (n : Nat) : ChebCone n (Chebyshev.U ℝ (n : ℤ)) :=
  (U_mem_aux n).1

theorem derivative_mem {e : Nat} {p : ℝ[X]} (hp : ChebCone e p) :
    ChebCone (e + 1) (derivative p) := by
  induction hp with
  | zero => simpa using ChebCone.zero _
  | gen k c hc hk =>
    rw [derivative_C_mul, Chebyshev.T_derivative_eq_U]
    rcases k with _ | j
    · simpa using ChebCone.zero _
    · have e1 : ((j + 1 : Nat) : ℤ) - 1 = (j : ℤ) := by push_cast; ring
      rw [e1]
      have h := smul (c * ((j : ℝ) + 1)) (by positivity) (U_mem j)
      have e2 : C (c * ((j : ℝ) + 1)) * Chebyshev.U ℝ (j : ℤ) =
          C c * ((((j + 1 : Nat) : ℤ) : ℝ[X]) * Chebyshev.U ℝ (j : ℤ)) := by
        rw [C_mul, mul_assoc]
        congr 2
        simp
      rw [e2] at h
      exact of_parity (by omega) h
  | add p q _ _ ihp ihq =>
    rw [derivative_add]
    exact ChebCone.add _ _ _ ihp ihq

theorem iterate_derivative_mem {e : Nat} {p : ℝ[X]} (hp : ChebCone e p) (i : Nat) :
    ChebCone (e + i) (derivative^[i] p) := by
  induction i with
  | zero => simpa using hp
  | succ i ih =>
    rw [Function.iterate_succ_apply']
    exact of_parity (by omega) (derivative_mem ih)

theorem hasseDeriv_mem {e : Nat} {p : ℝ[X]} (hp : ChebCone e p) (i : Nat) :
    ChebCone (e + i) (hasseDeriv i p) := by
  have h := congrFun (factorial_smul_hasseDeriv (R := ℝ) i) p
  have e1 : hasseDeriv i p = C ((i.factorial : ℝ)⁻¹) * derivative^[i] p := by
    rw [← h]
    simp only [LinearMap.smul_apply, Pi.smul_apply]
    rw [nsmul_eq_mul, ← mul_assoc]
    have : C ((i.factorial : ℝ)⁻¹) * ((i.factorial : ℕ) : ℝ[X]) = 1 := by
      rw [← C_eq_natCast, ← C_mul, inv_mul_cancel₀ (by exact_mod_cast i.factorial_ne_zero), C_1]
    rw [this, one_mul]
  rw [e1]
  exact smul _ (by positivity) (iterate_derivative_mem hp i)

/-- For t >= 0 the polynomial y ↦ T_m((1+t)·y) is a nonnegative combination of the T_k
with k of the parity of m. -/
theorem T_scaled (m : Nat) (t : ℝ) (ht : 0 ≤ t) :
    ∃ Q : ℝ[X], ChebCone m Q ∧
      ∀ y : ℝ, Q.eval y = (Chebyshev.T ℝ (m : ℤ)).eval ((1 + t) * y) := by
  refine ⟨∑ i ∈ Finset.range ((Chebyshev.T ℝ (m : ℤ)).natDegree + 1),
    C (t ^ i) * (hasseDeriv i (Chebyshev.T ℝ (m : ℤ)) * X ^ i), ?_, ?_⟩
  · apply ChebCone.sum
    intro i _
    apply smul _ (by positivity)
    exact of_parity (by omega) (mul (hasseDeriv_mem (T_mem m) i) (X_pow i))
  · intro y
    have e : (1 + t) * y = t * y + y := by ring
    have rhs : (Chebyshev.T ℝ (m : ℤ)).eval (t * y + y) =
        ∑ i ∈ Finset.range ((Chebyshev.T ℝ (m : ℤ)).natDegree + 1),
          (taylor y (Chebyshev.T ℝ (m : ℤ))).coeff i * (t * y) ^ i := by
      rw [← taylor_eval, eval_eq_sum_range, natDegree_taylor]
    rw [e, rhs, eval_finset_sum]
    apply Finset.sum_congr rfl
    intro i _
    rw [taylor_coeff]
    simp only [eval_mul, eval_C, eval_pow, eval_X]
    ring

end ChebCone


/-! ## Cosine sums over the N-th roots of unity -/

namespace trig_sum

/-- The sum of the N-th roots of unity e^{2πi·u·x/N}, x = 0..N-1, is N or 0. -/
theorem exp_sum (N : Nat) (hN : 0 < N) (u : ℤ) :
    ∑ x ∈ Finset.range N, Complex.exp (2 * Real.pi * Complex.I * (u : ℂ) * (x : ℂ) / (N : ℂ)) =
      if (N : ℤ) ∣ u then (N : ℂ) else 0 := by
  have hN0 : (N : ℂ) ≠ 0 := by exact_mod_cast hN.ne'
  have hpow : ∀ x : Nat, Complex.exp (2 * Real.pi * Complex.I * (u : ℂ) * (x : ℂ) / (N : ℂ)) =
      Complex.exp (2 * Real.pi * Complex.I * (u : ℂ) / (N : ℂ)) ^ x := by
    intro x
    rw [← Complex.exp_nat_mul]
    congr 1
    ring
  simp only [hpow]
  by_cases hd : (N : ℤ) ∣ u
  · obtain ⟨c, rfl⟩ := hd
    have h1 : Complex.exp (2 * Real.pi * Complex.I * (((N : ℤ) * c : ℤ) : ℂ) / (N : ℂ)) = 1 := by
      rw [Complex.exp_eq_one_iff]
      refine ⟨c, ?_⟩
      push_cast
      field_simp
      ring
    rw [if_pos ⟨c, rfl⟩]
    simp only [h1, one_pow, Finset.sum_const, Finset.card_range, nsmul_eq_mul, mul_one]
  · rw [if_neg hd]
    have h1 : Complex.exp (2 * Real.pi * Complex.I * (u : ℂ) / (N : ℂ)) ≠ 1 := by
      intro h
      rw [Complex.exp_eq_one_iff] at h
      obtain ⟨n, hn⟩ := h
      apply hd
      refine ⟨n, ?_⟩
      have hpi : (2 * (Real.pi : ℂ) * Complex.I) ≠ 0 := by
        simp [Real.pi_ne_zero, Complex.I_ne_zero]
      have h2 : (u : ℂ) = (N : ℂ) * (n : ℂ) := by
        field_simp at hn
        have h3 : (2 * (Real.pi : ℂ) * Complex.I) * (u : ℂ) =
            (2 * (Real.pi : ℂ) * Complex.I) * ((N : ℂ) * (n : ℂ)) := by
          linear_combination hn
        exact mul_left_cancel₀ hpi h3
      exact_mod_cast h2
    rw [geom_sum_eq h1, ← Complex.exp_nat_mul]
    have h2 : Complex.exp ((N : ℂ) * (2 * Real.pi * Complex.I * (u : ℂ) / (N : ℂ))) = 1 := by
      rw [Complex.exp_eq_one_iff]
      refine ⟨u, ?_⟩
      field_simp
      ring
    rw [h2, sub_self, zero_div]

/-- The cosine sum over a full period is N or 0, hence nonnegative. -/
theorem cos_sum (N : Nat) (hN : 0 < N) (u : ℤ) :
    ∑ x ∈ Finset.range N, Real.cos (2 * Real.pi * (u : ℝ) * (x : ℝ) / (N : ℝ)) =
      if (N : ℤ) ∣ u then (N : ℝ) else 0 := by
  have h := congrArg Complex.re (exp_sum N hN u)
  rw [Complex.re_sum] at h
  have e : ∀ x : Nat, (Complex.exp (2 * Real.pi * Complex.I * (u : ℂ) * (x : ℂ) / (N : ℂ))).re =
      Real.cos (2 * Real.pi * (u : ℝ) * (x : ℝ) / (N : ℝ)) := by
    intro x
    have : 2 * (Real.pi : ℂ) * Complex.I * (u : ℂ) * (x : ℂ) / (N : ℂ) =
        ((2 * Real.pi * (u : ℝ) * (x : ℝ) / (N : ℝ) : ℝ) : ℂ) * Complex.I := by
      push_cast
      ring
    rw [this, Complex.exp_ofReal_mul_I_re]
  simp only [e] at h
  rw [h]
  split_ifs <;> simp

theorem sin_sum (N : Nat) (hN : 0 < N) (u : ℤ) :
    ∑ x ∈ Finset.range N, Real.sin (2 * Real.pi * (u : ℝ) * (x : ℝ) / (N : ℝ)) = 0 := by
  have h := congrArg Complex.im (exp_sum N hN u)
  rw [Complex.im_sum] at h
  have e : ∀ x : Nat, (Complex.exp (2 * Real.pi * Complex.I * (u : ℂ) * (x : ℂ) / (N : ℂ))).im =
      Real.sin (2 * Real.pi * (u : ℝ) * (x : ℝ) / (N : ℝ)) := by
    intro x
    have : 2 * (Real.pi : ℂ) * Complex.I * (u : ℂ) * (x : ℂ) / (N : ℂ) =
        ((2 * Real.pi * (u : ℝ) * (x : ℝ) / (N : ℝ) : ℝ) : ℂ) * Complex.I := by
      push_cast
      ring
    rw [this, Complex.exp_ofReal_mul_I_im]
  simp only [e] at h
  rw [h]
  split_ifs <;> simp

theorem cos_sum_nonneg (N : Nat) (hN : 0 < N) (u : ℤ) :
    0 ≤ ∑ x ∈ Finset.range N, Real.cos (2 * Real.pi * (u : ℝ) * (x : ℝ) / (N : ℝ)) := by
  rw [cos_sum N hN u]
  split_ifs
  · positivity
  · exact le_refl _


/-- The terms x and N-x of the cosine sum are equal. -/
theorem cos_reflect (N : Nat) (hN : 0 < N) (u : ℤ) (x : Nat) (hx : x ≤ N) :
    Real.cos (2 * Real.pi * (u : ℝ) * ((N - x : Nat) : ℝ) / (N : ℝ)) =
      Real.cos (2 * Real.pi * (u : ℝ) * (x : ℝ) / (N : ℝ)) := by
  have hN0 : (N : ℝ) ≠ 0 := by exact_mod_cast hN.ne'
  rw [Nat.cast_sub hx]
  have e : 2 * Real.pi * (u : ℝ) * ((N : ℝ) - (x : ℝ)) / (N : ℝ) =
      (u : ℝ) * (2 * Real.pi) - 2 * Real.pi * (u : ℝ) * (x : ℝ) / (N : ℝ) := by
    field_simp
    ring
  rw [e, Real.cos_int_mul_two_pi_sub]

/-- The cosine sum over a full period in terms of the sum over the first half period:
the terms x and N-x are equal, x = 0 contributes 1 and, for even N, x = N/2 contributes
cos(πu). -/
theorem cos_sum_half (N : Nat) (hN : 0 < N) (u : ℤ) :
    ∑ x ∈ Finset.range N, Real.cos (2 * Real.pi * (u : ℝ) * (x : ℝ) / (N : ℝ)) =
      1 + 2 * ∑ i ∈ Finset.range ((N - 1) / 2),
              Real.cos (2 * Real.pi * (u : ℝ) * ((i + 1 : Nat) : ℝ) / (N : ℝ))
        + if N % 2 = 0 then Real.cos (Real.pi * (u : ℝ)) else 0 := by
  obtain ⟨n, rfl⟩ : ∃ n, N = n + 1 := ⟨N - 1, by omega⟩
  rw [Finset.sum_range_succ']
  have h0 : Real.cos (2 * Real.pi * (u : ℝ) * ((0 : Nat) : ℝ) / ((n + 1 : Nat) : ℝ)) = 1 := by
    simp
  rw [h0]
  have hK : n + 1 - 1 = n := by omega
  rw [hK]
  rcases Nat.even_or_odd' n with ⟨K, rfl | rfl⟩
  · -- N = 2K+1 is odd
    have e1 : 2 * K / 2 = K := by omega
    have e2 : (2 * K + 1) % 2 ≠ 0 := by omega
    rw [e1, if_neg e2, show 2 * K = K + K by ring, Finset.sum_range_add]
    have e3 : ∑ i ∈ Finset.range K,
        Real.cos (2 * Real.pi * (u : ℝ) * ((K + i + 1 : Nat) : ℝ) / ((K + K + 1 : Nat) : ℝ)) =
        ∑ i ∈ Finset.range K,
          Real.cos (2 * Real.pi * (u : ℝ) * ((i + 1 : Nat) : ℝ) / ((K + K + 1 : Nat) : ℝ)) := by
      rw [← Finset.sum_range_reflect]
      apply Finset.sum_congr rfl
      intro i hi
      have hi' := Finset.mem_range.mp hi
      have e4 : K + (K - 1 - i) + 1 = (K + K + 1) - (i + 1) := by omega
      rw [e4, cos_reflect _ (by omega) u (i + 1) (by omega)]
    rw [e3]
    ring
  · -- N = 2K+2 is even
    have e1 : (2 * K + 1) / 2 = K := by omega
    have e2 : (2 * K + 1 + 1) % 2 = 0 := by omega
    rw [e1, if_pos e2, show 2 * K + 1 = K + (K + 1) by ring, Finset.sum_range_add,
      Finset.sum_range_succ']
    have e3 : ∑ i ∈ Finset.range K,
        Real.cos (2 * Real.pi * (u : ℝ) * ((K + (i + 1) + 1 : Nat) : ℝ)
          / ((K + (K + 1) + 1 : Nat) : ℝ)) =
        ∑ i ∈ Finset.range K,
          Real.cos (2 * Real.pi * (u : ℝ) * ((i + 1 : Nat) : ℝ) / ((K + (K + 1) + 1 : Nat) : ℝ)) := by
      rw [← Finset.sum_range_reflect]
      apply Finset.sum_congr rfl
      intro i hi
      have hi' := Finset.mem_range.mp hi
      have e4 : K + (K - 1 - i + 1) + 1 = (K + (K + 1) + 1) - (i + 1) := by omega
      rw [e4, cos_reflect _ (by omega) u (i + 1) (by omega)]
    rw [e3]
    have e5 : Real.cos (2 * Real.pi * (u : ℝ) * ((K + 0 + 1 : Nat) : ℝ)
        / ((K + (K + 1) + 1 : Nat) : ℝ)) = Real.cos (Real.pi * (u : ℝ)) := by
      congr 1
      push_cast
      field_simp
      ring
    rw [e5]
    ring

/-- For integers u and v that differ by an odd number, cos(πu) + cos(πv) = 0. -/
theorem cos_pi_odd_diff (u v j : ℤ) (h : u - v = 2 * j + 1) :
    Real.cos (Real.pi * (u : ℝ)) + Real.cos (Real.pi * (v : ℝ)) = 0 := by
  have e : Real.pi * (u : ℝ) = Real.pi * (v : ℝ) + Real.pi + (j : ℝ) * (2 * Real.pi) := by
    have : (u : ℝ) = (v : ℝ) + 2 * (j : ℝ) + 1 := by
      have h2 : u = v + 2 * j + 1 := by omega
      rw [h2]
      push_cast
      ring
    rw [this]
    ring
  rw [e, Real.cos_add_int_mul_two_pi, Real.cos_add_pi]
  ring


/-- The weight of the generator T_k in the value of pass nn: for k of the parity of N-1
it is half the sum of two full-period cosine sums, hence nonnegative. -/
theorem weight_nonneg (N : Nat) (hN : 0 < N) (k nn : Nat) (hk : k % 2 = (N - 1) % 2) :
    0 ≤ 1 + 2 * ∑ i ∈ Finset.range ((N - 1) / 2),
        Real.cos ((k : ℝ) * (Real.pi * ((i + 1 : Nat) : ℝ) / (N : ℝ))) *
          Real.cos ((2 * (nn : ℝ) - ((N : ℝ) - 1)) * Real.pi * ((i + 1 : Nat) : ℝ) / (N : ℝ)) := by
  obtain ⟨d, hd⟩ : ∃ d : ℤ, (k : ℤ) - ((N : ℤ) - 1) = 2 * d := ⟨((k : ℤ) - ((N : ℤ) - 1)) / 2, by omega⟩
  have hkR : (k : ℝ) = ((nn : ℤ) + d : ℤ) + ((k : ℤ) - nn - d : ℤ) := by
    push_cast
    ring
  have hqR : 2 * (nn : ℝ) - ((N : ℝ) - 1) = ((nn : ℤ) + d : ℤ) - ((k : ℤ) - nn - d : ℤ) := by
    have : ((k : ℤ) : ℝ) - (((N : ℤ) : ℝ) - 1) = 2 * (d : ℝ) := by exact_mod_cast hd
    push_cast at this ⊢
    linarith
  have hpt : ∀ i : Nat,
      Real.cos ((k : ℝ) * (Real.pi * ((i + 1 : Nat) : ℝ) / (N : ℝ))) *
          Real.cos ((2 * (nn : ℝ) - ((N : ℝ) - 1)) * Real.pi * ((i + 1 : Nat) : ℝ) / (N : ℝ)) =
        (Real.cos (2 * Real.pi * (((nn : ℤ) + d : ℤ) : ℝ) * ((i + 1 : Nat) : ℝ) / (N : ℝ))
          + Real.cos (2 * Real.pi * (((k : ℤ) - nn - d : ℤ) : ℝ) * ((i + 1 : Nat) : ℝ) / (N : ℝ)))
          / 2 := by
    intro i
    rw [hkR, hqR]
    have hA : ((((nn : ℤ) + d : ℤ) : ℝ) + (((k : ℤ) - nn - d : ℤ) : ℝ))
        * (Real.pi * ((i + 1 : Nat) : ℝ) / (N : ℝ)) =
        Real.pi * (((nn : ℤ) + d : ℤ) : ℝ) * ((i + 1 : Nat) : ℝ) / (N : ℝ)
          + Real.pi * (((k : ℤ) - nn - d : ℤ) : ℝ) * ((i + 1 : Nat) : ℝ) / (N : ℝ) := by ring
    have hB : ((((nn : ℤ) + d : ℤ) : ℝ) - (((k : ℤ) - nn - d : ℤ) : ℝ))
        * Real.pi * ((i + 1 : Nat) : ℝ) / (N : ℝ) =
        Real.pi * (((nn : ℤ) + d : ℤ) : ℝ) * ((i + 1 : Nat) : ℝ) / (N : ℝ)
          - Real.pi * (((k : ℤ) - nn - d : ℤ) : ℝ) * ((i + 1 : Nat) : ℝ) / (N : ℝ) := by ring
    have hU : 2 * Real.pi * (((nn : ℤ) + d : ℤ) : ℝ) * ((i + 1 : Nat) : ℝ) / (N : ℝ) =
        2 * (Real.pi * (((nn : ℤ) + d : ℤ) : ℝ) * ((i + 1 : Nat) : ℝ) / (N : ℝ)) := by ring
    have hV : 2 * Real.pi * (((k : ℤ) - nn - d : ℤ) : ℝ) * ((i + 1 : Nat) : ℝ) / (N : ℝ) =
        2 * (Real.pi * (((k : ℤ) - nn - d : ℤ) : ℝ) * ((i + 1 : Nat) : ℝ) / (N : ℝ)) := by ring
    rw [hA, hB, hU, hV, Real.cos_add, Real.cos_sub, Real.cos_two_mul, Real.cos_two_mul]
    have s1 := Real.sin_sq_add_cos_sq
      (Real.pi * (((nn : ℤ) + d : ℤ) : ℝ) * ((i + 1 : Nat) : ℝ) / (N : ℝ))
    have s2 := Real.sin_sq_add_cos_sq
      (Real.pi * (((k : ℤ) - nn - d : ℤ) : ℝ) * ((i + 1 : Nat) : ℝ) / (N : ℝ))
    nlinarith [s1, s2]
  simp only [hpt]
  have hu := cos_sum_half N hN ((nn : ℤ) + d)
  have hv := cos_sum_half N hN ((k : ℤ) - nn - d)
  have hun := cos_sum_nonneg N hN ((nn : ℤ) + d)
  have hvn := cos_sum_nonneg N hN ((k : ℤ) - nn - d)
  have hmid : (if N % 2 = 0 then Real.cos (Real.pi * (((nn : ℤ) + d : ℤ) : ℝ)) else 0)
      + (if N % 2 = 0 then Real.cos (Real.pi * (((k : ℤ) - nn - d : ℤ) : ℝ)) else 0) = 0 := by
    by_cases hev : N % 2 = 0
    · rw [if_pos hev, if_pos hev]
      exact cos_pi_odd_diff _ _ ((nn : ℤ) - (N : ℤ) / 2) (by omega)
    · rw [if_neg hev, if_neg hev, add_zero]
  rw [hu] at hun
  rw [hv] at hvn
  rw [← Finset.sum_div, Finset.sum_add_distrib]
  linarith

/-- Summed over all the positions nn = 0..N-1 the cosine factor of a pass vanishes for
every harmonic kk with 0 < kk < N. -/
theorem rotation_sum (N : Nat) (kk : Nat) (h0 : 0 < kk) (h1 : kk < N) :
    ∑ nn ∈ Finset.range N,
      Real.cos ((2 * (nn : ℝ) - ((N : ℝ) - 1)) * Real.pi * (kk : ℝ) / (N : ℝ)) = 0 := by
  have hN : 0 < N := by omega
  have hnd : ¬ ((N : ℤ) ∣ (kk : ℤ)) := by
    intro h
    have := Int.le_of_dvd (by omega) h
    omega
  have hc := cos_sum N hN (kk : ℤ)
  have hs := sin_sum N hN (kk : ℤ)
  rw [if_neg hnd] at hc
  have hpt : ∀ nn : Nat,
      Real.cos ((2 * (nn : ℝ) - ((N : ℝ) - 1)) * Real.pi * (kk : ℝ) / (N : ℝ)) =
        Real.cos (2 * Real.pi * ((kk : ℤ) : ℝ) * (nn : ℝ) / (N : ℝ))
            * Real.cos (((N : ℝ) - 1) * Real.pi * (kk : ℝ) / (N : ℝ))
          + Real.sin (2 * Real.pi * ((kk : ℤ) : ℝ) * (nn : ℝ) / (N : ℝ))
            * Real.sin (((N : ℝ) - 1) * Real.pi * (kk : ℝ) / (N : ℝ)) := by
    intro nn
    rw [← Real.cos_sub]
    congr 1
    push_cast
    ring
  simp only [hpt]
  rw [Finset.sum_add_distrib, ← Finset.sum_mul, ← Finset.sum_mul, hc, hs]
  ring

end trig_sum


/-! ## The Chebyshev window over the reals -/

namespace wind_fcn

/-- For N >= 1 the value of `M` is (N-1)/2: the integer quotient for odd N, half a unit
more for even N. -/
theorem Chebyshev_M_eq (N : Nat) (hN : 1 ≤ N) :
    (Chebyshev_M (N : Int) : ℝ) = ((N : ℝ) - 1) / 2 := by
  unfold Chebyshev_M
  rw [Int.tmod_eq_emod (by omega) (by omega), Int.tdiv_eq_ediv (by omega) (by omega)]
  rcases Nat.even_or_odd' N with ⟨K, rfl | rfl⟩
  · have e1 : ((2 * K : Nat) : Int) % 2 = 0 := by omega
    have e2 : (((2 * K : Nat) : Int) - 1) / 2 = (K : Int) - 1 := by omega
    rw [if_pos e1, e2]
    push_cast
    norm_num
    ring
  · have e1 : ¬ (((2 * K + 1 : Nat) : Int) % 2 = 0) := by omega
    have e2 : (((2 * K + 1 : Nat) : Int) - 1) / 2 = (K : Int) := by omega
    rw [if_neg e1, e2]
    push_cast
    ring

/-- The inner loop of `Chebyshev` entered at kk = j+1 with enough passes allowed: it adds
the terms kk = j+1..K, where K = (N-1)/2 is the last whole number not above M. -/
theorem Chebyshev_sum_eq (m : cmath_win ℝ) (N : Nat) (hN : 1 ≤ N) (x0 n : ℝ) (fuel j : Nat)
    (s : ℝ) (hfuel : (N - 1) / 2 - j ≤ fuel) :
    Chebyshev_sum m (N : Int) x0 (((N : ℝ) - 1) / 2) n fuel ((j : Int) + 1) s =
      s + ∑ i ∈ Finset.range ((N - 1) / 2 - j),
        cheby_poly m ((N : Int) - 1)
            (x0 * m.cos (m.pi * (((j + i + 1 : Nat) : Int) : ℝ) / ((N : Int) : ℝ)))
          * m.cos (2.0 * n * m.pi * (((j + i + 1 : Nat) : Int) : ℝ) / ((N : Int) : ℝ)) := by
  induction fuel generalizing j s with
  | zero =>
    have e : (N - 1) / 2 - j = 0 := by omega
    rw [e]
    simp [Chebyshev_sum]
  | succ fuel ih =>
    rw [Chebyshev_sum]
    by_cases hj : j + 1 ≤ (N - 1) / 2
    · have hc : (((j : Int) + 1 : Int) : ℝ) ≤ ((N : ℝ) - 1) / 2 := by
        have h2 : (2 * (j + 1) : Nat) ≤ N - 1 := by omega
        have h3 : ((2 * (j + 1) : Nat) : ℝ) ≤ ((N - 1 : Nat) : ℝ) := by exact_mod_cast h2
        rw [Nat.cast_sub hN] at h3
        push_cast at h3 ⊢
        linarith
      rw [if_pos hc]
      have e : ((j : Int) + 1 + 1) = (((j + 1 : Nat) : Int) + 1) := by push_cast; ring
      rw [e, ih (j + 1) _ (by omega)]
      have e2 : (N - 1) / 2 - j = ((N - 1) / 2 - (j + 1)) + 1 := by omega
      rw [e2, Finset.sum_range_succ']
      have e3 : ∀ i, j + 1 + i + 1 = j + (i + 1) + 1 := by intro i; ring
      simp only [e3]
      have e4 : (((j : Int) + 1 : Int) : ℝ) = (((j + 0 + 1 : Nat) : Int) : ℝ) := by push_cast; ring
      rw [e4]
      ring
    · have hc : ¬ ((((j : Int) + 1 : Int) : ℝ) ≤ ((N : ℝ) - 1) / 2) := by
        intro hle
        apply hj
        have h3 : (2 * ((j : ℝ) + 1)) ≤ (N : ℝ) - 1 := by
          push_cast at hle
          linarith
        have h4 : ((2 * (j + 1) : Nat) : ℝ) ≤ ((N - 1 : Nat) : ℝ) := by
          rw [Nat.cast_sub hN]
          push_cast
          linarith
        have h5 : 2 * (j + 1) ≤ N - 1 := by exact_mod_cast h4
        omega
      rw [if_neg hc]
      have e : (N - 1) / 2 - j = 0 := by omega
      rw [e]
      simp

end wind_fcn

namespace wind_fcn

/-- Over the reals `cheby_poly(n, x)` is T_n(x) for n >= 0 and x >= -1. -/
theorem cheby_poly_real (m : cmath_win ℝ) (hm : m.is_real) (n : Nat) (x : ℝ) (hx : -1 ≤ x) :
    cheby_poly m (n : Int) x = (Polynomial.Chebyshev.T ℝ (n : Int)).eval x := by
  obtain ⟨hcos, hacos, hcosh, hacosh, -, -⟩ := hm
  unfold cheby_poly
  rw [hcos, hacos, hcosh, hacosh]
  by_cases h : |x| ≤ 1
  · rw [if_pos h]
    have hx1 : x ≤ 1 := (abs_le.mp h).2
    have e := Polynomial.Chebyshev.T_real_cos (Real.arccos x) (n : Int)
    rw [Real.cos_arccos hx hx1] at e
    rw [e]
  · rw [if_neg h]
    have hx1 : 1 ≤ x := by
      by_contra hc
      exact h (abs_le.mpr ⟨hx, by linarith⟩)
    have e := T_real_cosh (n : Int) (Real.log (x + Real.sqrt (x ^ 2 - 1)))
    rw [cosh_acosh x hx1] at e
    rw [e]

/-- Over the reals and for atten > 0: `tg` exceeds 1, `x0` is at least 1, and
T_(N-1)(x0) = tg. -/
theorem Chebyshev_tg_x0 (m : cmath_win ℝ) (hm : m.is_real) (N : Nat) (hN : 2 ≤ N) (atten : ℝ)
    (ha : 0 < atten) :
    1 < Chebyshev_tg m atten ∧ 1 ≤ Chebyshev_x0 m (N : Int) atten ∧
    (Polynomial.Chebyshev.T ℝ ((N - 1 : Nat) : Int)).eval (Chebyshev_x0 m (N : Int) atten) =
      Chebyshev_tg m atten := by
  obtain ⟨hcos, hacos, hcosh, hacosh, hpow, hpi⟩ := hm
  have htg : 1 < Chebyshev_tg m atten := by
    unfold Chebyshev_tg
    rw [hpow]
    exact Real.one_lt_rpow (by norm_num) (by positivity)
  refine ⟨htg, ?_, ?_⟩
  · unfold Chebyshev_x0
    rw [hcosh]
    exact Real.one_le_cosh _
  · unfold Chebyshev_x0
    rw [hcosh, hacosh, T_real_cosh]
    have hN1 : ((N : Int) : ℝ) - 1 ≠ 0 := by
      have : (2 : ℝ) ≤ (N : ℝ) := by exact_mod_cast hN
      push_cast
      linarith
    have e : (((N - 1 : Nat) : Int) : ℝ) = ((N : Int) : ℝ) - 1 := by
      push_cast
      rw [Nat.cast_sub (by omega)]
      simp
    rw [e]
    have e2 : (((N : Int) : ℝ) - 1) * (1.0 / (((N : Int) : ℝ) - 1) *
        Real.log (Chebyshev_tg m atten + Real.sqrt (Chebyshev_tg m atten ^ 2 - 1))) =
        Real.log (Chebyshev_tg m atten + Real.sqrt (Chebyshev_tg m atten ^ 2 - 1)) := by
      have h10 : (1.0 : ℝ) = 1 := by norm_num
      rw [h10, one_div, ← mul_assoc, mul_inv_cancel₀ hN1, one_mul]
    rw [e2, cosh_acosh _ (le_of_lt htg)]

/-- The cosine of π·kk/N is nonnegative for the harmonics kk = 1..(N-1)/2. -/
theorem cos_harmonic_nonneg (N i : Nat) (hi : i < (N - 1) / 2) :
    0 ≤ Real.cos (Real.pi * (((0 + i + 1 : Nat) : Int) : ℝ) / ((N : Int) : ℝ)) := by
  have hN : (0 : ℝ) < (N : ℝ) := by
    have : 0 < N := by omega
    exact_mod_cast this
  apply Real.cos_nonneg_of_neg_pi_div_two_le_of_le
  · have : 0 ≤ Real.pi * (((0 + i + 1 : Nat) : Int) : ℝ) / ((N : Int) : ℝ) := by
      push_cast
      have := Real.pi_pos
      positivity
    have := Real.pi_pos
    linarith
  · push_cast
    rw [div_le_div_iff hN (by norm_num)]
    have h2 : (2 * (i + 1) : Nat) ≤ N := by omega
    have h3 : ((2 * (i + 1) : Nat) : ℝ) ≤ (N : ℝ) := by exact_mod_cast h2
    push_cast at h3
    have := Real.pi_pos
    nlinarith

end wind_fcn

namespace wind_fcn

/-- Over the reals, for N >= 2 and atten > 0, the values of the passes of `Chebyshev` are
those of one nonnegative Chebyshev combination Q, which satisfies Q(y) = T_(N-1)(x0·y):
value(nn) = Q(1) + 2·Σ Q(cos(π·kk/N))·cos((2nn-(N-1))·π·kk/N) over kk = 1..(N-1)/2, and
Q(1) = tg. -/
theorem Chebyshev_value_real (m : cmath_win ℝ) (hm : m.is_real) (N : Nat) (hN : 2 ≤ N)
    (atten : ℝ) (ha : 0 < atten) :
    ∃ Q : Polynomial ℝ, ChebCone (N - 1) Q ∧ Q.eval 1 = Chebyshev_tg m atten ∧
      ∀ nn : Nat, Chebyshev_value m (N : Int) atten nn =
        Q.eval 1 + 2 * ∑ i ∈ Finset.range ((N - 1) / 2),
          Q.eval (Real.cos (Real.pi * ((i + 1 : Nat) : ℝ) / (N : ℝ)))
            * Real.cos ((2 * (nn : ℝ) - ((N : ℝ) - 1)) * Real.pi * ((i + 1 : Nat) : ℝ)
                / (N : ℝ)) := by
  obtain ⟨htg, hx0, hT⟩ := Chebyshev_tg_x0 m hm N hN atten ha
  obtain ⟨Q, hQc, hQ⟩ := ChebCone.T_scaled (N - 1) (Chebyshev_x0 m (N : Int) atten - 1)
    (by linarith)
  have hQ' : ∀ y : ℝ, Q.eval y =
      (Polynomial.Chebyshev.T ℝ ((N - 1 : Nat) : Int)).eval (Chebyshev_x0 m (N : Int) atten * y) := by
    intro y
    rw [hQ y]
    congr 1
    ring
  have hQ1 : Q.eval 1 = Chebyshev_tg m atten := by
    rw [hQ' 1, mul_one, hT]
  refine ⟨Q, hQc, hQ1, ?_⟩
  intro nn
  have hcos := hm.1
  have hpi := hm.2.2.2.2.2
  unfold Chebyshev_value
  rw [hQ1, Chebyshev_M_eq N (by omega), Int.toNat_ofNat]
  have h1 : (1 : Int) = ((0 : Nat) : Int) + 1 := by simp
  rw [h1, Chebyshev_sum_eq m N (by omega) _ _ N 0 0 (by omega), zero_add, Nat.sub_zero]
  congr 2
  apply Finset.sum_congr rfl
  intro i hi
  have hi' := Finset.mem_range.mp hi
  have eN : ((N : Int) - 1) = ((N - 1 : Nat) : Int) := by omega
  have hc0 := cos_harmonic_nonneg N i hi'
  rw [eN, hcos, hpi, cheby_poly_real m hm (N - 1) _
    (by have := mul_nonneg (le_trans zero_le_one hx0) hc0; rw [hcos] at *; linarith), hQ']
  have e1 : ((((0 + i + 1 : Nat) : Int)) : ℝ) = ((i + 1 : Nat) : ℝ) := by push_cast; ring
  have e2 : (((N : Int)) : ℝ) = (N : ℝ) := by push_cast; rfl
  rw [e1, e2]
  congr 2
  norm_num
  ring

end wind_fcn

namespace wind_fcn

/-- The value of a pass is a nonnegative functional of the Chebyshev combination. -/
theorem cone_functional_nonneg (N : Nat) (hN : 0 < N) (nn : Nat) (Q : Polynomial ℝ)
    (hQ : ChebCone (N - 1) Q) :
    0 ≤ Q.eval 1 + 2 * ∑ i ∈ Finset.range ((N - 1) / 2),
          Q.eval (Real.cos (Real.pi * ((i + 1 : Nat) : ℝ) / (N : ℝ)))
            * Real.cos ((2 * (nn : ℝ) - ((N : ℝ) - 1)) * Real.pi * ((i + 1 : Nat) : ℝ)
                / (N : ℝ)) := by
  induction hQ with
  | zero => simp
  | gen k c hc hk =>
    have h1 : (Polynomial.Chebyshev.T ℝ (k : Int)).eval 1 = 1 := by
      have := Polynomial.Chebyshev.T_real_cos 0 (k : Int)
      simpa using this
    have hw := trig_sum.weight_nonneg N hN k nn hk
    have e : ∀ i : Nat,
        (Polynomial.C c * Polynomial.Chebyshev.T ℝ (k : Int)).eval
            (Real.cos (Real.pi * ((i + 1 : Nat) : ℝ) / (N : ℝ))) =
          c * Real.cos ((k : ℝ) * (Real.pi * ((i + 1 : Nat) : ℝ) / (N : ℝ))) := by
      intro i
      rw [Polynomial.eval_mul, Polynomial.eval_C, Polynomial.Chebyshev.T_real_cos]
      push_cast
      rfl
    simp only [e, Polynomial.eval_mul, Polynomial.eval_C, h1, mul_one]
    have e2 : c + 2 * ∑ i ∈ Finset.range ((N - 1) / 2),
        c * Real.cos ((k : ℝ) * (Real.pi * ((i + 1 : Nat) : ℝ) / (N : ℝ)))
          * Real.cos ((2 * (nn : ℝ) - ((N : ℝ) - 1)) * Real.pi * ((i + 1 : Nat) : ℝ) / (N : ℝ)) =
        c * (1 + 2 * ∑ i ∈ Finset.range ((N - 1) / 2),
          Real.cos ((k : ℝ) * (Real.pi * ((i + 1 : Nat) : ℝ) / (N : ℝ)))
            * Real.cos ((2 * (nn : ℝ) - ((N : ℝ) - 1)) * Real.pi * ((i + 1 : Nat) : ℝ)
                / (N : ℝ))) := by
      rw [mul_add, mul_one, Finset.mul_sum, Finset.mul_sum, Finset.mul_sum]
      congr 1
      apply Finset.sum_congr rfl
      intro i _
      ring
    rw [e2]
    exact mul_nonneg hc hw
  | add p q _ _ ihp ihq =>
    simp only [Polynomial.eval_add, add_mul, Finset.sum_add_distrib]
    linarith

/-- The values of the positions nn and N-1-nn coincide: the cosine is even. -/
theorem ideal_symmetric (N : Nat) (tg : ℝ) (c : Nat → ℝ) (nn : Nat) (hnn : nn < N) :
    tg + 2 * ∑ i ∈ Finset.range ((N - 1) / 2),
        c i * Real.cos ((2 * ((N - 1 - nn : Nat) : ℝ) - ((N : ℝ) - 1)) * Real.pi
          * ((i + 1 : Nat) : ℝ) / (N : ℝ)) =
      tg + 2 * ∑ i ∈ Finset.range ((N - 1) / 2),
        c i * Real.cos ((2 * (nn : ℝ) - ((N : ℝ) - 1)) * Real.pi
          * ((i + 1 : Nat) : ℝ) / (N : ℝ)) := by
  congr 2
  apply Finset.sum_congr rfl
  intro i _
  congr 1
  rw [← Real.cos_neg]
  congr 1
  rw [Nat.cast_sub (by omega), Nat.cast_sub (by omega)]
  push_cast
  ring

/-- Summed over the positions nn = 0..N-1 the values give N·tg. -/
theorem ideal_sum (N : Nat) (tg : ℝ) (c : Nat → ℝ) :
    ∑ nn ∈ Finset.range N,
      (tg + 2 * ∑ i ∈ Finset.range ((N - 1) / 2),
        c i * Real.cos ((2 * (nn : ℝ) - ((N : ℝ) - 1)) * Real.pi
          * ((i + 1 : Nat) : ℝ) / (N : ℝ))) = (N : ℝ) * tg := by
  rw [Finset.sum_add_distrib, ← Finset.mul_sum, Finset.sum_comm]
  have e : ∀ i ∈ Finset.range ((N - 1) / 2),
      ∑ nn ∈ Finset.range N, c i * Real.cos ((2 * (nn : ℝ) - ((N : ℝ) - 1)) * Real.pi
          * ((i + 1 : Nat) : ℝ) / (N : ℝ)) = 0 := by
    intro i hi
    have hi' := Finset.mem_range.mp hi
    rw [← Finset.mul_sum, trig_sum.rotation_sum N (i + 1) (by omega) (by omega), mul_zero]
  rw [Finset.sum_eq_zero e]
  simp

end wind_fcn

namespace wind_fcn

/-- Over the reals, for N >= 2 and atten > 0: the values of all passes are nonnegative,
the positions nn and N-1-nn have the same value, and one of the passes 0..N/2 has a
positive value. -/
theorem Chebyshev_value_facts (m : cmath_win ℝ) (hm : m.is_real) (N : Nat) (hN : 2 ≤ N)
    (atten : ℝ) (ha : 0 < atten) :
    (∀ nn, 0 ≤ Chebyshev_value m (N : Int) atten nn) ∧
    (∀ nn, nn < N →
      Chebyshev_value m (N : Int) atten (N - 1 - nn) = Chebyshev_value m (N : Int) atten nn) ∧
    ∃ nn, nn ≤ N / 2 ∧ 0 < Chebyshev_value m (N : Int) atten nn := by
  obtain ⟨Q, hQc, hQ1, hV⟩ := Chebyshev_value_real m hm N hN atten ha
  obtain ⟨htg, -, -⟩ := Chebyshev_tg_x0 m hm N hN atten ha
  have hnn : ∀ nn, 0 ≤ Chebyshev_value m (N : Int) atten nn := by
    intro nn
    rw [hV nn]
    exact cone_functional_nonneg N (by omega) nn Q hQc
  have hsym : ∀ nn, nn < N →
      Chebyshev_value m (N : Int) atten (N - 1 - nn) = Chebyshev_value m (N : Int) atten nn := by
    intro nn h
    rw [hV nn, hV (N - 1 - nn)]
    exact ideal_symmetric N (Q.eval 1)
      (fun i => Q.eval (Real.cos (Real.pi * ((i + 1 : Nat) : ℝ) / (N : ℝ)))) nn h
  refine ⟨hnn, hsym, ?_⟩
  have hsum : ∑ nn ∈ Finset.range N, Chebyshev_value m (N : Int) atten nn =
      (N : ℝ) * Chebyshev_tg m atten := by
    simp only [hV]
    rw [ideal_sum N (Q.eval 1)
      (fun i => Q.eval (Real.cos (Real.pi * ((i + 1 : Nat) : ℝ) / (N : ℝ)))), hQ1]
  have hpos : 0 < ∑ nn ∈ Finset.range N, Chebyshev_value m (N : Int) atten nn := by
    rw [hsum]
    have : (0 : ℝ) < (N : ℝ) := by
      have : 0 < N := by omega
      exact_mod_cast this
    have := mul_pos this (lt_trans zero_lt_one htg)
    exact this
  obtain ⟨n0, hn0, hv0⟩ : ∃ n0 ∈ Finset.range N, 0 < Chebyshev_value m (N : Int) atten n0 := by
    by_contra hc
    push_neg at hc
    have := Finset.sum_nonpos hc
    linarith
  have hn0' := Finset.mem_range.mp hn0
  by_cases h : n0 ≤ N / 2
  · exact ⟨n0, h, hv0⟩
  · refine ⟨N - 1 - n0, by omega, ?_⟩
    rw [hsym n0 hn0']
    exact hv0

end wind_fcn

/-- C18: for every length N >= 2 and every sidelobe attenuation atten > 0, after `init(N)`
and `Chebyshev(atten)` (the array reserved) the largest absolute value among
`buff[0..N-1]` is 1: no element exceeds 1 in absolute value and one element equals 1.
Here cos, acos, cosh and the power are the real functions,
acosh(y) = log(y + sqrt(y^2 - 1)) and `PI0` is π. -/
theorem C18_chebyshev_normalised (w : wind_fcn ℝ) (N : Nat) (atten : ℝ) (hN : 2 ≤ N)
    (ha : 0 < atten) :
    (∀ n, n < N →
      |((w.init (N : Int)).Chebyshev
          ⟨Real.cos, Real.arccos, Real.cosh, fun y => Real.log (y + Real.sqrt (y ^ 2 - 1)),
            fun a b => a ^ b, Real.pi⟩ true atten).1.load n| ≤ 1) ∧
    (∃ n, n < N ∧
      ((w.init (N : Int)).Chebyshev
          ⟨Real.cos, Real.arccos, Real.cosh, fun y => Real.log (y + Real.sqrt (y ^ 2 - 1)),
            fun a b => a ^ b, Real.pi⟩ true atten).1.load n = 1) := by
  have hm : cmath_win.is_real
      ⟨Real.cos, Real.arccos, Real.cosh, fun y => Real.log (y + Real.sqrt (y ^ 2 - 1)),
        fun a b => a ^ b, Real.pi⟩ := ⟨rfl, rfl, rfl, fun _ => rfl, fun _ _ => rfl, rfl⟩
  obtain ⟨hnn, hsym, n0, hn0, hv0⟩ := wind_fcn.Chebyshev_value_facts _ hm N hN atten ha
  obtain ⟨mx, hmx0, hmx, hatt, hload⟩ := wind_fcn.Chebyshev_spec
    ⟨Real.cos, Real.arccos, Real.cosh, fun y => Real.log (y + Real.sqrt (y ^ 2 - 1)),
      fun a b => a ^ b, Real.pi⟩ w N atten (by omega)
  have hpos : 0 < mx := lt_of_lt_of_le hv0 (hmx n0 hn0)
  have hval : ∀ j, j < N →
      ((w.init (N : Int)).Chebyshev
          ⟨Real.cos, Real.arccos, Real.cosh, fun y => Real.log (y + Real.sqrt (y ^ 2 - 1)),
            fun a b => a ^ b, Real.pi⟩ true atten).1.load j =
        wind_fcn.Chebyshev_value
          ⟨Real.cos, Real.arccos, Real.cosh, fun y => Real.log (y + Real.sqrt (y ^ 2 - 1)),
            fun a b => a ^ b, Real.pi⟩ (N : Int) atten j / mx ∧
      wind_fcn.Chebyshev_value
          ⟨Real.cos, Real.arccos, Real.cosh, fun y => Real.log (y + Real.sqrt (y ^ 2 - 1)),
            fun a b => a ^ b, Real.pi⟩ (N : Int) atten j ≤ mx := by
    intro j hj
    rcases (hload j hj).2 with ⟨a, b⟩ | ⟨a, b⟩
    · exact ⟨b, hmx j a⟩
    · rw [hsym j hj] at b
      exact ⟨b, by rw [← hsym j hj]; exact hmx _ a⟩
  constructor
  · intro n hn
    obtain ⟨e, hle⟩ := hval n hn
    rw [e, abs_of_nonneg (div_nonneg (hnn n) hmx0)]
    exact (div_le_one hpos).mpr hle
  · rcases hatt with h0 | ⟨n1, hn1, hv1⟩
    · exact absurd h0 (ne_of_gt hpos)
    · refine ⟨n1, by omega, ?_⟩
      rw [(hval n1 (by omega)).1, ← hv1]
      exact div_self (ne_of_gt hpos)

/-- Witness of C18: length 5 and 60 dB of attenuation. -/
theorem C18_chebyshev_normalised_witness :
    ∃ n, n < 5 ∧
      (((wind_fcn.constructor 0 : wind_fcn ℝ).init ((5 : Nat) : Int)).Chebyshev
          ⟨Real.cos, Real.arccos, Real.cosh, fun y => Real.log (y + Real.sqrt (y ^ 2 - 1)),
            fun a b => a ^ b, Real.pi⟩ true 60).1.load n = 1 :=
  (C18_chebyshev_normalised (wind_fcn.constructor 0) 5 60 (by decide) (by norm_num)).2
/-! ## The factorial, the integer gamma function and the modified Bessel series -/

/-- The bits dropped leave at least the leading one: 2^e <= v for v > 0. -/
theorem fxx64_drop_le (fuel : Nat) : ∀ v, 0 < v → 2 ^ fxx64_drop fuel v ≤ v := by
  induction fuel with
  | zero =>
    intro v hv
    simpa [fxx64_drop] using hv
  | succ fuel ih =>
    intro v hv
    rw [fxx64_drop]
    split
    · simpa using hv
    · rename_i h
      have h2 : 0 < v / 2 := by
        have : (2 : Nat) ^ 64 ≤ v := not_lt.mp h
        have : 2 ≤ v := le_trans (by norm_num) this
        exact Nat.div_pos this (by norm_num)
      have := ih (v / 2) h2
      rw [pow_succ]
      have h3 := Nat.div_mul_le_self v 2
      omega

/-- Rounding to the `long double` format keeps a positive number positive. -/
theorem fxx64_round_pos (v : Nat) (hv : 0 < v) : 0 < fxx64_round v := by
  unfold fxx64_round
  have h := fxx64_drop_le v v hv
  have hq : 0 < v / 2 ^ fxx64_drop v v := Nat.div_pos h (by positivity)
  simp only []
  apply Nat.mul_pos _ (by positivity)
  split
  · omega
  · exact hq

/-- The value of `__factorial__` is positive for every argument. -/
theorem factorial_pos (n : Int) : 0 < __factorial__ n := by
  unfold __factorial__
  generalize n.toNat = k
  induction k with
  | zero => decide
  | succ k ih =>
    rw [List.range'_1_concat, List.foldl_append]
    simp only [List.foldl_cons, List.foldl_nil]
    exact fxx64_round_pos _ (Nat.mul_pos ih (by omega))

/-- Up to 25 no product of the loop of `__factorial__` is rounded: the value is k!. -/
theorem factorial_small (k : Nat) (hk : k ≤ 25) :
    __factorial__ (k : Int) = Nat.factorial k := by
  interval_cases k <;> decide

/-- The integer gamma function on the arguments 1..21, where (n-1)! fits 64 bits. -/
theorem gamma_integer_small (undef : Nat → Nat) (n : Nat) (h1 : 1 ≤ n) (h21 : n ≤ 21) :
    __gamma_integer__ undef n = Nat.factorial (n - 1) := by
  have h64 : Nat.factorial 20 < 2 ^ 64 := by decide
  have e1 : (n + 2 ^ 64 - 1) % 2 ^ 64 = n - 1 := by omega
  have e2 : uix64_to_ix64 (n - 1) = ((n - 1 : Nat) : Int) := by
    unfold uix64_to_ix64
    rw [if_pos (by omega)]
  have e3 : __factorial__ ((n - 1 : Nat) : Int) = Nat.factorial (n - 1) :=
    factorial_small (n - 1) (by omega)
  have e4 : Nat.factorial (n - 1) < 2 ^ 64 :=
    lt_of_le_of_lt (Nat.factorial_le (show n - 1 ≤ 20 by omega)) h64
  unfold __gamma_integer__ fxx64_to_uix64
  rw [e1, e2, e3, if_pos e4]

set_option maxRecDepth 100000 in
/-- C23 (as stated, refuted): at n = 26 `__factorial__` returns
403291461126605635592388608, which is not 26! = 403291461126605635584000000: the product
25! * 26 needs 66 bits of significand and the `long double` that accumulates it has 64. -/
theorem C23_counterexample :
    __factorial__ 26 = 403291461126605635592388608 ∧
    Nat.factorial 26 = 403291461126605635584000000 ∧
    __factorial__ 26 ≠ Nat.factorial 26 := by
  decide

/-- C23 (amended): for every integer n with 0 <= n <= 25 `__factorial__(n)` is n!, the
product 1*2*...*n of the loop (1 for n = 0), and for every n < 0 it is 1. -/
theorem C23_factorial (n : Int) :
    (0 ≤ n → n ≤ 25 → __factorial__ n = Nat.factorial n.toNat) ∧
    (n < 0 → __factorial__ n = 1) := by
  constructor
  · intro h0 h25
    obtain ⟨k, rfl⟩ := Int.eq_ofNat_of_zero_le h0
    rw [Int.toNat_ofNat]
    exact factorial_small k (by omega)
  · intro h
    unfold __factorial__
    rw [Int.toNat_of_nonpos (le_of_lt h)]
    rfl

/-- Witness of C23 (amended): 25! at the upper end, and the factorial of -4 is 1. -/
theorem C23_factorial_witness :
    __factorial__ 25 = Nat.factorial (25 : Int).toNat ∧ __factorial__ (-4) = 1 :=
  ⟨(C23_factorial 25).1 (by decide) (by decide), (C23_factorial (-4)).2 (by decide)⟩

/-- C24 (as stated, refuted): at n = 22 no result of `__gamma_integer__` is 21!, whatever
the out-of-range conversion gives, for 21! does not fit 64 bits. -/
theorem C24_counterexample :
    ¬ ∃ undef : Nat → Nat, __gamma_integer__ undef 22 = Nat.factorial 21 := by
  rintro ⟨undef, h⟩
  have hlt : __gamma_integer__ undef 22 < 2 ^ 64 := by
    unfold __gamma_integer__ fxx64_to_uix64
    split
    · assumption
    · exact Nat.mod_lt _ (by decide)
  have hbig : 2 ^ 64 < Nat.factorial 21 := by decide
  omega

/-- C24 (amended): for every n with 1 <= n <= 21, `__gamma_integer__(n)` returns (n-1)!,
which fits the unsigned 64-bit result. -/
theorem C24_gamma_integer (undef : Nat → Nat) (n : Nat) (h1 : 1 ≤ n) (h21 : n ≤ 21) :
    __gamma_integer__ undef n = Nat.factorial (n - 1) ∧ Nat.factorial (n - 1) < 2 ^ 64 :=
  ⟨gamma_integer_small undef n h1 h21,
    lt_of_le_of_lt (Nat.factorial_le (show n - 1 ≤ 20 by omega)) (by decide)⟩

/-- Witness of C24: the gamma function at 21 is 20!. -/
theorem C24_gamma_integer_witness :
    __gamma_integer__ (fun _ => 0) 21 = Nat.factorial (21 - 1) ∧
      Nat.factorial (21 - 1) < 2 ^ 64 :=
  C24_gamma_integer (fun _ => 0) 21 (by decide) (by decide)

/-- The loop of `__modified_bessel_in__` entered at the index `n` with `fuel` passes left,
for an order `p >= 0` with n + fuel + p <= 21: the test on `gamma2` never stops it and it
adds the terms n .. n+fuel-1 of the series. -/
theorem modified_bessel_loop_sum {R : Type} [LinearOrderedField R] (undef : Nat → Nat)
    (x : R) (p : Nat) (fuel : Nat) :
    ∀ (n : Nat) (sum gamma2 : R), n + fuel + p ≤ 21 →
      gamma2 ≤ ((Nat.factorial 20 : Nat) : R) →
      modified_bessel_loop undef x (p : Int) fuel n sum gamma2 =
        sum + ∑ j ∈ Finset.range fuel,
          (x / 2) ^ (2 * (n + j) + p)
            / (((Nat.factorial (n + j) : Nat) : R) * ((Nat.factorial (n + j + p) : Nat) : R)) := by
  induction fuel with
  | zero =>
    intro n sum gamma2 _ _
    simp [modified_bessel_loop]
  | succ fuel ih =>
    intro n sum gamma2 hn hg
    have h20 : ((Nat.factorial 20 : Nat) : R) = 2432902008176640000 := by
      have : Nat.factorial 20 = 2432902008176640000 := by decide
      rw [this]
      norm_num
    have hstop : ¬ (gamma2 / 1.7976931348623158e+308 > 0.9) := by
      rw [h20] at hg
      rw [gt_iff_lt, not_lt, div_le_iff₀ (by norm_num)]
      refine le_trans hg ?_
      norm_num
    have eidx : (((n : Int) + (p : Int) + 1) % 2 ^ 64).toNat = n + p + 1 := by
      have : ((n : Int) + (p : Int) + 1) % 2 ^ 64 = ((n + p + 1 : Nat) : Int) := by
        push_cast
        omega
      rw [this, Int.toNat_ofNat]
    have eg1 : __gamma_integer__ undef (n + 1) = Nat.factorial n :=
      gamma_integer_small undef (n + 1) (by omega) (by omega)
    have eg2 : __gamma_integer__ undef (n + p + 1) = Nat.factorial (n + p) :=
      gamma_integer_small undef (n + p + 1) (by omega) (by omega)
    have epow : (x / 2) ^ (2 * (n : Int) + (p : Int)) = (x / 2) ^ (2 * n + p) := by
      rw [← zpow_natCast]
      push_cast
      rfl
    rw [modified_bessel_loop, if_neg hstop, eidx, eg1, eg2, epow,
      ih (n + 1) _ _ (by omega) (Nat.cast_le.mpr (Nat.factorial_le (show n + p ≤ 20 by omega))),
      Finset.sum_range_succ', add_assoc]
    have e1 : ∀ j, n + 1 + j = n + (j + 1) := fun j => by omega
    simp only [e1, add_zero, div_div]
    rw [add_comm (Finset.sum _ _)]

/-- C22: for every x and every order n with 0 <= n <= 5, `__modified_bessel_in__(x, n)` is
the partial sum over k = 0..15 of (x/2)^(2k+n) / (k! * (k+n)!): with these orders
Gamma(k+n+1) stays far below 90% of the largest double and the test that would stop the
summation early never fires. -/
theorem C22_modified_bessel_series {R : Type} [LinearOrderedField R] (undef : Nat → Nat)
    (x : R) (order : Int) (h0 : 0 ≤ order) (h5 : order ≤ 5) :
    __modified_bessel_in__ undef x order =
      ∑ k ∈ Finset.range 16,
        (x / 2) ^ (2 * k + order.toNat)
          / (((Nat.factorial k : Nat) : R) * ((Nat.factorial (k + order.toNat) : Nat) : R)) := by
  obtain ⟨p, rfl⟩ := Int.eq_ofNat_of_zero_le h0
  have hp : p ≤ 5 := by omega
  unfold __modified_bessel_in__
  rw [modified_bessel_loop_sum undef x p 16 0 0 0 (by omega) (by positivity), zero_add]
  simp

/-- Witness of C22: the order 1 at x = 2 over the rationals. -/
theorem C22_modified_bessel_series_witness :
    __modified_bessel_in__ (fun _ => 0) (2 : ℚ) 1 =
      ∑ k ∈ Finset.range 16,
        ((2 : ℚ) / 2) ^ (2 * k + (1 : Int).toNat)
          / (((Nat.factorial k : Nat) : ℚ) * ((Nat.factorial (k + (1 : Int).toNat) : Nat) : ℚ)) :=
  C22_modified_bessel_series (fun _ => 0) 2 1 (by decide) (by decide)

/-! ## The Gaussian window -/

namespace wind_fcn

/-- After `init(N)` and `Gaussian(alpha)` with the array reserved, every position k < N
holds the value stored by the pass k. -/
theorem Gaussian_load {R : Type} [LinearOrderedField R] (exp : R → R) (w : wind_fcn R)
    (N : Nat) (alpha : R) (k : Nat) (hk : k < N) :
    ((w.init (N : Int)).Gaussian exp true alpha).1.load k =
      exp (-(Gaussian_n (N : Int) k : R) * (Gaussian_n (N : Int) k : R) / 2
        / (((N : R) - 1) / 2 / alpha) / (((N : R) - 1) / 2 / alpha)) := by
  obtain ⟨hb, ho⟩ := allocate_buff (w.init (N : Int))
  have hN' : (w.init (N : Int)).m_order = (N : Int) := rfl
  rw [hN'] at hb ho
  obtain ⟨l', -, -, -, h4⟩ := foldl_store
    (fun k : Nat =>
      exp (-(Gaussian_n (N : Int) k : R) * (Gaussian_n (N : Int) k : R) / 2
        / (((N : R) - 1) / 2 / alpha) / (((N : R) - 1) / 2 / alpha)))
    ((w.init (N : Int)).allocate true).1 _ hb N (by simp)
  have h := h4 k
  rw [if_pos hk] at h
  simp only [Gaussian, ho, Int.toNat_ofNat, Int.cast_natCast]
  exact h

/-- The index of the pass k for a length N, with the halves told apart by k < N/2. -/
theorem Gaussian_n_natCast (N k : Nat) :
    Gaussian_n (N : Int) k =
      if k < N / 2 then (k : Int) - ((N / 2 : Nat) : Int)
      else (k : Int) - ((N / 2 : Nat) : Int) + 1 := by
  unfold Gaussian_n
  rw [tdiv_two_natCast]
  by_cases h : k < N / 2
  · rw [if_pos h, if_neg (by omega)]
  · rw [if_neg h, if_pos (by omega)]

/-- Over the reals, for N >= 2, the stored value is
exp(-n^2 / (2*sigma^2)) with sigma = (N-1)/(2*alpha). -/
theorem Gaussian_load_real (w : wind_fcn ℝ) (N : Nat) (alpha : ℝ) (hN : 2 ≤ N)
    (k : Nat) (hk : k < N) :
    ((w.init (N : Int)).Gaussian Real.exp true alpha).1.load k =
      Real.exp (-((Gaussian_n (N : Int) k : ℝ)) ^ 2
        / (2 * (((N : ℝ) - 1) / (2 * alpha)) ^ 2)) := by
  rw [Gaussian_load Real.exp w N alpha k hk]
  have h1 : (0 : ℝ) < (N : ℝ) - 1 := by
    have : (2 : ℝ) ≤ (N : ℝ) := by exact_mod_cast hN
    linarith
  congr 1
  field_simp
  ring

end wind_fcn

/-- C21 (as stated, refuted): with the odd length 3 and alpha = 1 the passes use the
indices n = -1, 1, 2, so `buff[0] = exp(-1/2)` and `buff[2] = exp(-2)` differ. -/
theorem C21_counterexample :
    (((wind_fcn.constructor 0 : wind_fcn ℝ).init ((3 : Nat) : Int)).Gaussian
        Real.exp true 1).1.load 0 ≠
      (((wind_fcn.constructor 0 : wind_fcn ℝ).init ((3 : Nat) : Int)).Gaussian
        Real.exp true 1).1.load (3 - 1 - 0) := by
  rw [wind_fcn.Gaussian_load_real _ 3 1 (by decide) 0 (by decide),
    wind_fcn.Gaussian_load_real _ 3 1 (by decide) (3 - 1 - 0) (by decide)]
  have e0 : wind_fcn.Gaussian_n ((3 : Nat) : Int) 0 = -1 := by decide
  have e2 : wind_fcn.Gaussian_n ((3 : Nat) : Int) (3 - 1 - 0) = 2 := by decide
  rw [e0, e2]
  intro h
  have := Real.exp_injective h
  norm_num at this

/-- C21 (amended): for every length N >= 2 and every alpha > 0, after `init(N)` and
`Gaussian(alpha)` (the array reserved) every weight is
`buff[k] = exp(-n^2 / (2*sigma^2))` with sigma = (N-1)/(2*alpha), where n = k - N/2 for
k < N/2 and n = k - N/2 + 1 otherwise (N/2 the integer quotient); no weight exceeds the
one at the centre k = N/2; and for even N the weights are symmetric about the centre,
`buff[k] = buff[N-1-k]` for every k in 0..N-1. -/
theorem C21_gaussian_window (w : wind_fcn ℝ) (N : Nat) (alpha : ℝ) (hN : 2 ≤ N)
    (ha : 0 < alpha) :
    (∀ k, k < N →
      ((w.init (N : Int)).Gaussian Real.exp true alpha).1.load k =
        Real.exp (-(((if k < N / 2 then (k : Int) - ((N / 2 : Nat) : Int)
            else (k : Int) - ((N / 2 : Nat) : Int) + 1 : Int) : ℝ)) ^ 2
          / (2 * (((N : ℝ) - 1) / (2 * alpha)) ^ 2))) ∧
    (∀ k, k < N →
      ((w.init (N : Int)).Gaussian Real.exp true alpha).1.load k ≤
        ((w.init (N : Int)).Gaussian Real.exp true alpha).1.load (N / 2)) ∧
    (N % 2 = 0 → ∀ k, k < N →
      ((w.init (N : Int)).Gaussian Real.exp true alpha).1.load k =
        ((w.init (N : Int)).Gaussian Real.exp true alpha).1.load (N - 1 - k)) := by
  have hs : (0 : ℝ) < 2 * (((N : ℝ) - 1) / (2 * alpha)) ^ 2 := by
    have : (2 : ℝ) ≤ (N : ℝ) := by exact_mod_cast hN
    have h1 : (0 : ℝ) < ((N : ℝ) - 1) / (2 * alpha) := by
      apply div_pos <;> linarith
    positivity
  refine ⟨?_, ?_, ?_⟩
  · intro k hk
    rw [wind_fcn.Gaussian_load_real w N alpha hN k hk, wind_fcn.Gaussian_n_natCast]
  · intro k hk
    rw [wind_fcn.Gaussian_load_real w N alpha hN k hk,
      wind_fcn.Gaussian_load_real w N alpha hN (N / 2) (by omega),
      wind_fcn.Gaussian_n_natCast, wind_fcn.Gaussian_n_natCast, if_neg (lt_irrefl _)]
    apply Real.exp_le_exp.mpr
    apply div_le_div_of_nonneg_right _ (le_of_lt hs)
    rw [neg_le_neg_iff]
    have hone : (1 : ℝ) ≤ (((if k < N / 2 then (k : Int) - ((N / 2 : Nat) : Int)
        else (k : Int) - ((N / 2 : Nat) : Int) + 1 : Int) : ℝ)) ^ 2 := by
      have hz : (1 : Int) ≤ (if k < N / 2 then (k : Int) - ((N / 2 : Nat) : Int)
          else (k : Int) - ((N / 2 : Nat) : Int) + 1) ^ 2 := by
        split
        · have : (k : Int) - ((N / 2 : Nat) : Int) ≤ -1 := by omega
          nlinarith
        · have : 1 ≤ (k : Int) - ((N / 2 : Nat) : Int) + 1 := by omega
          nlinarith
      exact_mod_cast hz
    simpa using hone
  · intro he k hk
    rw [wind_fcn.Gaussian_load_real w N alpha hN k hk,
      wind_fcn.Gaussian_load_real w N alpha hN (N - 1 - k) (by omega),
      wind_fcn.Gaussian_n_natCast, wind_fcn.Gaussian_n_natCast]
    have hz : (if N - 1 - k < N / 2 then ((N - 1 - k : Nat) : Int) - ((N / 2 : Nat) : Int)
          else ((N - 1 - k : Nat) : Int) - ((N / 2 : Nat) : Int) + 1) =
        -(if k < N / 2 then (k : Int) - ((N / 2 : Nat) : Int)
          else (k : Int) - ((N / 2 : Nat) : Int) + 1) := by
      by_cases h : k < N / 2
      · rw [if_pos h, if_neg (by omega)]
        omega
      · rw [if_neg h, if_pos (by omega)]
        omega
    rw [hz]
    push_cast
    rw [neg_sq]

/-- Witness of C21: length 4 and alpha = 2.5. -/
theorem C21_gaussian_window_witness :
    (((wind_fcn.constructor 0 : wind_fcn ℝ).init ((4 : Nat) : Int)).Gaussian
        Real.exp true 2.5).1.load 0 =
      (((wind_fcn.constructor 0 : wind_fcn ℝ).init ((4 : Nat) : Int)).Gaussian
        Real.exp true 2.5).1.load (4 - 1 - 0) :=
  (C21_gaussian_window (wind_fcn.constructor 0) 4 2.5 (by decide) (by norm_num)).2.2
    (by decide) 0 (by decide)

/-! ## The efficient path: closed form for any window length -/

namespace FIR_filt

/-- The difference `m_dx` of call number `K` of `filt_eff` on a stream, for a window of
`m_ElemNum = D + 1` samples in a buffer that holds at least as many: the new sample minus
the one `D` places back. -/
theorem filt_eff_stream_dx_any (f : FIR_filt ℝ) (x : Nat → ℝ) (D : Nat)
    (hE : f.m_ElemNum = (D : Int) + 1) (hC : D + 1 ≤ f.m_BUFF_WIND_SX.m_buff_size)
    (hw : f.m_BUFF_WIND_SX.wf) (hz : f.m_BUFF_WIND_SX.zero_filled) (K : Nat) :
    (f.filt_eff_stream x (K + 1)).m_dx = x K - delayed x (K + 1) D := by
  obtain ⟨-, -, h3, -, h5⟩ := filt_eff_stream_frame f x K
  rw [filt_eff_stream, (filt_eff_spec _ _).2.1, h3, h5, hE]
  have h := at_push_stream_zero f.m_BUFF_WIND_SX x hw hz (K + 1) D (by omega)
  simp only [mirror_ring_buff.push_stream] at h
  rw [h]
  rfl

/-- The window sum over the last D samples obeys the recurrence of an accumulator whose
pole W satisfies W^D = 1, for every D >= 0. -/
theorem window_sum_step_any (x : Nat → ℝ) (K D : Nat) (Wn W : ℂ) (hW : W ^ D = 1) :
    ∑ m ∈ Finset.range D, ((delayed x (K + 1) m : ℝ) : ℂ) * Wn * W ^ m =
      (((x K - delayed x (K + 1) D : ℝ)) : ℂ) * Wn
        + (∑ m ∈ Finset.range D, ((delayed x K m : ℝ) : ℂ) * Wn * W ^ m) * W := by
  cases D with
  | zero => simp [delayed_zero]
  | succ n => exact window_sum_step x K n Wn W hW

/-- Closed form of an accumulator whose pole satisfies W_den^D = 1, D = m_ElemNum - 1:
the sum over the last D samples of x[K-1-m]·W_num·W_den^m. -/
theorem accum_filt_eff_stream_any (f : FIR_filt ℝ) (x : Nat → ℝ) (D : Nat)
    (hE : f.m_ElemNum = (D : Int) + 1) (hC : D + 1 ≤ f.m_BUFF_WIND_SX.m_buff_size)
    (hw : f.m_BUFF_WIND_SX.wf) (hz : f.m_BUFF_WIND_SX.zero_filled) (k : Nat)
    (hk : k < f.m_Ncplx_coeff.toNat) (hy : f.accum k = 0)
    (hden : (f.m_Wden k).toComplex ^ D = 1) (K : Nat) :
    (f.filt_eff_stream x K).accum k =
      ∑ m ∈ Finset.range D,
        ((delayed x K m : ℝ) : ℂ) * (f.m_Wnum k).toComplex * (f.m_Wden k).toComplex ^ m := by
  induction K with
  | zero => simp [filt_eff_stream, hy, delayed]
  | succ K ih =>
    obtain ⟨h1, h2, -, h4, -⟩ := filt_eff_stream_frame f x K
    have hdx := filt_eff_stream_dx_any f x D hE hC hw hz K
    rw [filt_eff_stream] at hdx
    rw [filt_eff_stream, accum_filt_eff _ _ k (by rw [h4]; exact hk), hdx, h1, h2, ih,
      window_sum_step_any x K D _ _ hden]

/-- The output of call number `K` of `filt_eff`: the convolution of the last D samples
with the impulse response carried by the poles. -/
theorem filt_eff_stream_out_any (f : FIR_filt ℝ) (x : Nat → ℝ) (D : Nat)
    (hE : f.m_ElemNum = (D : Int) + 1) (hC : D + 1 ≤ f.m_BUFF_WIND_SX.m_buff_size)
    (hw : f.m_BUFF_WIND_SX.wf) (hz : f.m_BUFF_WIND_SX.zero_filled)
    (hy : ∀ k, k < f.m_Ncplx_coeff.toNat → f.accum k = 0)
    (hden : ∀ k, k < f.m_Ncplx_coeff.toNat → (f.m_Wden k).toComplex ^ D = 1)
    (K : Nat) :
    (f.filt_eff_stream x (K + 1)).m_out =
      ∑ m ∈ Finset.range D, delayed x (K + 1) m * f.pole_response m := by
  obtain ⟨-, -, -, h4, -⟩ := filt_eff_stream_frame f x K
  have ho := filt_eff_out (f.filt_eff_stream x K) (x K)
  rw [h4] at ho
  have e : ∀ k ∈ Finset.range f.m_Ncplx_coeff.toNat,
      (((f.filt_eff_stream x K).filt_eff (x K)).accum k).re =
        ∑ m ∈ Finset.range D,
          delayed x (K + 1) m * ((f.m_Wnum k).toComplex * (f.m_Wden k).toComplex ^ m).re := by
    intro k hk
    have hk' : k < f.m_Ncplx_coeff.toNat := Finset.mem_range.mp hk
    have h := accum_filt_eff_stream_any f x D hE hC hw hz k hk' (hy k hk') (hden k hk') (K + 1)
    rw [filt_eff_stream] at h
    rw [h, Complex.re_sum]
    apply Finset.sum_congr rfl
    intro m _
    rw [mul_assoc, Complex.re_ofReal_mul]
  rw [filt_eff_stream, ho, Finset.sum_congr rfl e, Finset.sum_comm]
  apply Finset.sum_congr rfl
  intro m _
  rw [pole_response, Finset.mul_sum]

end FIR_filt

/-- C26: over the reals, let the sample buffer be well formed (the mirror invariant),
zero-filled and hold at least `m_ElemNum = D + 1` samples, the accumulators be zero and
every pole k below `m_Ncplx_coeff` satisfy W_den[k]^D = 1. Then for every stream
x_0, x_1, ... the call number t of `filt_eff` leaves
`m_out` = sum over m = 0..min(t, D-1) of h[m]*x_{t-m}, where
h[m] = Re(sum over k of W_num[k]*W_den[k]^m): an FIR filter with the D taps h[0..D-1]. -/
theorem C26_filt_eff_closed_form (f : FIR_filt ℝ) (D : Nat) (x : Nat → ℝ) (t : Nat)
    (hE : f.m_ElemNum = (D : Int) + 1) (hC : D + 1 ≤ f.m_BUFF_WIND_SX.m_buff_size)
    (hw : f.m_BUFF_WIND_SX.wf) (hz : f.m_BUFF_WIND_SX.zero_filled)
    (hy : ∀ k, k < f.m_Ncplx_coeff.toNat → f.m_y_re k = 0 ∧ f.m_y_im k = 0)
    (hden : ∀ k, k < f.m_Ncplx_coeff.toNat → (f.m_Wden k).toComplex ^ D = 1) :
    (f.filt_eff_stream x (t + 1)).m_out =
      ∑ m ∈ Finset.range (min (t + 1) D),
        (∑ k ∈ Finset.range f.m_Ncplx_coeff.toNat,
          (f.m_Wnum k).toComplex * (f.m_Wden k).toComplex ^ m).re * x (t - m) := by
  have hy' : ∀ k, k < f.m_Ncplx_coeff.toNat → f.accum k = 0 := by
    intro k hk
    obtain ⟨h1, h2⟩ := hy k hk
    apply Complex.ext
    · simpa [FIR_filt.accum] using h1
    · simpa [FIR_filt.accum] using h2
  rw [FIR_filt.filt_eff_stream_out_any f x D hE hC hw hz hy' hden t]
  have hsub : Finset.range (min (t + 1) D) ⊆ Finset.range D := by
    intro m hm
    rw [Finset.mem_range] at hm ⊢
    exact lt_of_lt_of_le hm (min_le_right _ _)
  rw [← Finset.sum_subset hsub]
  · apply Finset.sum_congr rfl
    intro m hm
    have hm' : m < t + 1 := lt_of_lt_of_le (Finset.mem_range.mp hm) (min_le_left _ _)
    rw [FIR_filt.pole_response, Complex.re_sum, delayed, if_pos hm', mul_comm]
    rfl
  · intro m hm hnm
    have h1 : m < D := Finset.mem_range.mp hm
    have h2 : ¬ m < t + 1 := by
      intro h
      exact hnm (Finset.mem_range.mpr (lt_min h h1))
    rw [delayed, if_neg h2, zero_mul]

/-- Witness of C26: the order-2 filter with one pole W_num = 1, W_den = -1 and a window
of 3 samples (D = 2), the stream 1, 3, 5, 7, ..., call number 4. -/
theorem C26_filt_eff_closed_form_witness :
    ((fir_alt ℝ).filt_eff_stream (fun n => 2 * (n : ℝ) + 1) (4 + 1)).m_out =
      ∑ m ∈ Finset.range (min (4 + 1) 2),
        (∑ k ∈ Finset.range (fir_alt ℝ).m_Ncplx_coeff.toNat,
          ((fir_alt ℝ).m_Wnum k).toComplex * ((fir_alt ℝ).m_Wden k).toComplex ^ m).re
          * (fun n : Nat => 2 * (n : ℝ) + 1) (4 - m) :=
  C26_filt_eff_closed_form (fir_alt ℝ) 2 (fun n => 2 * (n : ℝ) + 1) 4 rfl (by decide)
    (mirror_ring_buff.wf_allocate _) (mirror_ring_buff.zero_filled_allocate _)
    (fun _ _ => ⟨rfl, rfl⟩)
    (fun k _ => by
      apply Complex.ext <;> simp [FIR_filt.vector.toComplex, fir_alt, pow_two])

/-! ## The arithmetic-geometric-mean loops -/

theorem arr_read_eq {R : Type} [Zero R] (l : List R) (i : Nat) (h : i < l.length) :
    arr_read l i = some (l.getD i 0) := by
  unfold arr_read
  rw [List.getD_eq_getElem?_getD, List.getElem?_eq_getElem h]
  rfl

theorem arr_write_eq {R : Type} (l : List R) (i : Nat) (v : R) (h : i < l.length) :
    arr_write l i v = some (l.set i v) := by
  unfold arr_write
  rw [if_pos h]

theorem agm_array_length (R : Type) [Zero R] : (agm_array R).length = 31 := by
  simp [agm_array, __ITERATIONS_NUMBER__]

/-- What the loop of `__ellip_k__` leaves, entered with arrays of 31 elements at an index
n <= 30: it ends at an index n' <= 30 without leaving the arrays, the elements up to the
entry index are unchanged, every pass j in between found the test false and wrote the
means, and the exit below 30 is by the test. -/
theorem ellip_k_loop_spec {R : Type} [LinearOrderedField R] (m : cmath_ellip R)
    (s : agm_vars R) (ha : s.a.length = 31) (hg : s.g.length = 31) (hn : s.n ≤ 30) :
    ∃ s', ellip_k_loop m s = some s' ∧ s'.a.length = 31 ∧ s'.g.length = 31 ∧
      s.n ≤ s'.n ∧ s'.n ≤ 30 ∧
      s'.two_n = s.two_n * 2 ^ (s'.n - s.n) ∧
      (∀ j, j ≤ s.n → s'.a.getD j 0 = s.a.getD j 0 ∧ s'.g.getD j 0 = s.g.getD j 0) ∧
      (∀ j, s.n ≤ j → j < s'.n →
        ¬ |s'.a.getD j 0 - s'.g.getD j 0| < s'.a.getD j 0 * __EPSILON_xx64__ ∧
        s'.a.getD (j + 1) 0 = 0.5 * (s'.a.getD j 0 + s'.g.getD j 0) ∧
        s'.g.getD (j + 1) 0 = m.sqrt (s'.a.getD j 0 * s'.g.getD j 0)) ∧
      (s'.n < 30 →
        |s'.a.getD s'.n 0 - s'.g.getD s'.n 0| < s'.a.getD s'.n 0 * __EPSILON_xx64__) := by
  have hit : __ITERATIONS_NUMBER__ = 30 := rfl
  obtain ⟨d, hd⟩ : ∃ d, d = 30 - s.n := ⟨_, rfl⟩
  induction d generalizing s with
  | zero =>
    refine ⟨s, ?_, ha, hg, le_refl _, hn, by simp, fun j _ => ⟨rfl, rfl⟩, ?_, ?_⟩
    · rw [ellip_k_loop, hit, if_neg (by omega)]
    · intro j h1 h2
      omega
    · intro h
      omega
  | succ d ih =>
    have hlt : s.n < 30 := by omega
    rw [ellip_k_loop, hit, if_pos hlt, arr_read_eq s.a s.n (by omega),
      arr_read_eq s.g s.n (by omega)]
    simp only []
    by_cases hstop : |s.a.getD s.n 0 - s.g.getD s.n 0| < s.a.getD s.n 0 * __EPSILON_xx64__
    · rw [if_pos hstop]
      refine ⟨s, rfl, ha, hg, le_refl _, hn, by simp, fun j _ => ⟨rfl, rfl⟩, ?_, fun _ => hstop⟩
      intro j h1 h2
      omega
    · rw [if_neg hstop, arr_write_eq s.a (s.n + 1) _ (by omega),
        arr_write_eq s.g (s.n + 1) _ (by omega)]
      simp only []
      obtain ⟨s', h0, h1, h2, h3, h4, h5, h6, h7, h8⟩ :=
        ih { s with
              two_n := s.two_n + s.two_n
              a := s.a.set (s.n + 1) (0.5 * (s.a.getD s.n 0 + s.g.getD s.n 0))
              g := s.g.set (s.n + 1) (m.sqrt (s.a.getD s.n 0 * s.g.getD s.n 0))
              n := s.n + 1 }
          (by simp [ha]) (by simp [hg]) (by simp; omega) (by simp; omega)
      simp only at h3 h5 h6 h7
      have hpre : ∀ j, j ≤ s.n →
          s'.a.getD j 0 = s.a.getD j 0 ∧ s'.g.getD j 0 = s.g.getD j 0 := by
        intro j hj
        obtain ⟨e1, e2⟩ := h6 j (by omega)
        rw [e1, e2, mirror_ring_buff.getD_set, mirror_ring_buff.getD_set,
          if_neg (by omega), if_neg (by omega)]
        exact ⟨rfl, rfl⟩
      have hnext : s'.a.getD (s.n + 1) 0 = 0.5 * (s.a.getD s.n 0 + s.g.getD s.n 0) ∧
          s'.g.getD (s.n + 1) 0 = m.sqrt (s.a.getD s.n 0 * s.g.getD s.n 0) := by
        obtain ⟨e1, e2⟩ := h6 (s.n + 1) (le_refl _)
        rw [e1, e2, mirror_ring_buff.getD_set, mirror_ring_buff.getD_set,
          if_pos ⟨rfl, by omega⟩, if_pos ⟨rfl, by omega⟩]
        exact ⟨rfl, rfl⟩
      refine ⟨s', h0, h1, h2, by omega, h4, ?_, hpre, ?_, h8⟩
      · rw [h5]
        have e : s'.n - s.n = (s'.n - (s.n + 1)) + 1 := by omega
        rw [e, pow_succ]
        ring
      · intro j hj1 hj2
        by_cases hj : j = s.n
        · subst hj
          obtain ⟨e1, e2⟩ := hpre s.n (le_refl _)
          rw [e1, e2]
          exact ⟨hstop, hnext.1, hnext.2⟩
        · exact h7 j (by omega) hj2

/-- What the loop of `__ellip_e__` leaves, entered with arrays of 31 elements at an index
n <= 30: as for `__ellip_k__`, and every pass j wrote `c[j+1]` and added its term to
`sum`. -/
theorem ellip_e_loop_spec {R : Type} [LinearOrderedField R] (m : cmath_ellip R)
    (s : agm_vars R) (ha : s.a.length = 31) (hg : s.g.length = 31) (hc : s.c.length = 31)
    (hn : s.n ≤ 30) :
    ∃ s', ellip_e_loop m s = some s' ∧ s'.a.length = 31 ∧ s'.g.length = 31 ∧
      s'.c.length = 31 ∧ s.n ≤ s'.n ∧ s'.n ≤ 30 ∧
      s'.two_n = s.two_n * 2 ^ (s'.n - s.n) ∧
      (∀ j, j ≤ s.n → s'.a.getD j 0 = s.a.getD j 0 ∧ s'.g.getD j 0 = s.g.getD j 0 ∧
        s'.c.getD j 0 = s.c.getD j 0) ∧
      (∀ j, s.n ≤ j → j < s'.n →
        ¬ |s'.a.getD j 0 - s'.g.getD j 0| < s'.a.getD j 0 * __EPSILON_xx64__ ∧
        s'.a.getD (j + 1) 0 = 0.5 * (s'.a.getD j 0 + s'.g.getD j 0) ∧
        s'.g.getD (j + 1) 0 = m.sqrt (s'.a.getD j 0 * s'.g.getD j 0) ∧
        s'.c.getD (j + 1) 0 = 0.5 * (s'.a.getD j 0 - s'.g.getD j 0)) ∧
      (s'.n < 30 →
        |s'.a.getD s'.n 0 - s'.g.getD s'.n 0| < s'.a.getD s'.n 0 * __EPSILON_xx64__) ∧
      s'.sum = s.sum + ∑ j ∈ Finset.Ico s.n s'.n,
        0.5 * s'.c.getD (j + 1) 0 * s'.c.getD (j + 1) 0 * (s.two_n * 2 ^ (j + 1 - s.n)) := by
  have hit : __ITERATIONS_NUMBER__ = 30 := rfl
  obtain ⟨d, hd⟩ : ∃ d, d = 30 - s.n := ⟨_, rfl⟩
  induction d generalizing s with
  | zero =>
    refine ⟨s, ?_, ha, hg, hc, le_refl _, hn, by simp, fun j _ => ⟨rfl, rfl, rfl⟩, ?_, ?_,
      by simp⟩
    · rw [ellip_e_loop, hit, if_neg (by omega)]
    · intro j h1 h2
      omega
    · intro h
      omega
  | succ d ih =>
    have hlt : s.n < 30 := by omega
    rw [ellip_e_loop, hit, if_pos hlt, arr_read_eq s.a s.n (by omega),
      arr_read_eq s.g s.n (by omega)]
    simp only []
    by_cases hstop : |s.a.getD s.n 0 - s.g.getD s.n 0| < s.a.getD s.n 0 * __EPSILON_xx64__
    · rw [if_pos hstop]
      refine ⟨s, rfl, ha, hg, hc, le_refl _, hn, by simp, fun j _ => ⟨rfl, rfl, rfl⟩, ?_,
        fun _ => hstop, by simp⟩
      intro j h1 h2
      omega
    · rw [if_neg hstop, arr_write_eq s.a (s.n + 1) _ (by omega),
        arr_write_eq s.g (s.n + 1) _ (by omega), arr_write_eq s.c (s.n + 1) _ (by omega)]
      simp only []
      rw [arr_read_eq _ (s.n + 1) (by simp [hc]; omega)]
      simp only []
      have hc1 : (s.c.set (s.n + 1) (0.5 * (s.a.getD s.n 0 - s.g.getD s.n 0))).getD (s.n + 1) 0
          = 0.5 * (s.a.getD s.n 0 - s.g.getD s.n 0) := by
        rw [mirror_ring_buff.getD_set, if_pos ⟨rfl, by omega⟩]
      rw [hc1]
      obtain ⟨s', h0, h1, h2, h2c, h3, h4, h5, h6, h7, h8, h9⟩ :=
        ih { s with
              two_n := s.two_n + s.two_n
              a := s.a.set (s.n + 1) (0.5 * (s.a.getD s.n 0 + s.g.getD s.n 0))
              g := s.g.set (s.n + 1) (m.sqrt (s.a.getD s.n 0 * s.g.getD s.n 0))
              c := s.c.set (s.n + 1) (0.5 * (s.a.getD s.n 0 - s.g.getD s.n 0))
              sum := 0.5 * (0.5 * (s.a.getD s.n 0 - s.g.getD s.n 0))
                * (0.5 * (s.a.getD s.n 0 - s.g.getD s.n 0)) * (s.two_n + s.two_n) + s.sum
              n := s.n + 1 }
          (by simp [ha]) (by simp [hg]) (by simp [hc]) (by simp; omega) (by simp; omega)
      simp only at h3 h5 h6 h7 h9
      have hpre : ∀ j, j ≤ s.n →
          s'.a.getD j 0 = s.a.getD j 0 ∧ s'.g.getD j 0 = s.g.getD j 0 ∧
          s'.c.getD j 0 = s.c.getD j 0 := by
        intro j hj
        obtain ⟨e1, e2, e3⟩ := h6 j (by omega)
        rw [e1, e2, e3, mirror_ring_buff.getD_set, mirror_ring_buff.getD_set,
          mirror_ring_buff.getD_set, if_neg (by omega), if_neg (by omega), if_neg (by omega)]
        exact ⟨rfl, rfl, rfl⟩
      have hnext : s'.a.getD (s.n + 1) 0 = 0.5 * (s.a.getD s.n 0 + s.g.getD s.n 0) ∧
          s'.g.getD (s.n + 1) 0 = m.sqrt (s.a.getD s.n 0 * s.g.getD s.n 0) ∧
          s'.c.getD (s.n + 1) 0 = 0.5 * (s.a.getD s.n 0 - s.g.getD s.n 0) := by
        obtain ⟨e1, e2, e3⟩ := h6 (s.n + 1) (le_refl _)
        rw [e1, e2, e3, mirror_ring_buff.getD_set, mirror_ring_buff.getD_set,
          mirror_ring_buff.getD_set, if_pos ⟨rfl, by omega⟩, if_pos ⟨rfl, by omega⟩,
          if_pos ⟨rfl, by omega⟩]
        exact ⟨rfl, rfl, rfl⟩
      refine ⟨s', h0, h1, h2, h2c, by omega, h4, ?_, hpre, ?_, h8, ?_⟩
      · rw [h5]
        have e : s'.n - s.n = (s'.n - (s.n + 1)) + 1 := by omega
        rw [e, pow_succ]
        ring
      · intro j hj1 hj2
        by_cases hj : j = s.n
        · subst hj
          obtain ⟨e1, e2, -⟩ := hpre s.n (le_refl _)
          rw [e1, e2]
          exact ⟨hstop, hnext.1, hnext.2.1, hnext.2.2⟩
        · exact h7 j (by omega) hj2
      · rw [h9, Finset.sum_eq_sum_Ico_succ_bot (show s.n < s'.n by omega), hnext.2.2]
        have e : ∀ j ∈ Finset.Ico (s.n + 1) s'.n,
            0.5 * s'.c.getD (j + 1) 0 * s'.c.getD (j + 1) 0
                * ((s.two_n + s.two_n) * 2 ^ (j + 1 - (s.n + 1))) =
              0.5 * s'.c.getD (j + 1) 0 * s'.c.getD (j + 1) 0
                * (s.two_n * 2 ^ (j + 1 - s.n)) := by
          intro j hj
          have hj' := (Finset.mem_Ico.mp hj).1
          have e2 : j + 1 - s.n = (j + 1 - (s.n + 1)) + 1 := by omega
          rw [e2, pow_succ]
          ring
        rw [Finset.sum_congr rfl e]
        have e3 : s.n + 1 - s.n = 1 := by omega
        rw [e3]
        ring

/-- What the forward loop of `__am__` leaves, entered with arrays of 31 elements at an
index n <= 30: as for `__ellip_k__`, and every pass j wrote `c[j+1]`. -/
theorem am_loop_spec {R : Type} [LinearOrderedField R] (m : cmath_ellip R)
    (s : agm_vars R) (ha : s.a.length = 31) (hg : s.g.length = 31) (hc : s.c.length = 31)
    (hn : s.n ≤ 30) :
    ∃ s', am_loop m s = some s' ∧ s'.a.length = 31 ∧ s'.g.length = 31 ∧
      s'.c.length = 31 ∧ s.n ≤ s'.n ∧ s'.n ≤ 30 ∧
      s'.two_n = s.two_n * 2 ^ (s'.n - s.n) ∧
      (∀ j, j ≤ s.n → s'.a.getD j 0 = s.a.getD j 0 ∧ s'.g.getD j 0 = s.g.getD j 0 ∧
        s'.c.getD j 0 = s.c.getD j 0) ∧
      (∀ j, s.n ≤ j → j < s'.n →
        ¬ |s'.a.getD j 0 - s'.g.getD j 0| < s'.a.getD j 0 * __EPSILON_xx64__ ∧
        s'.a.getD (j + 1) 0 = 0.5 * (s'.a.getD j 0 + s'.g.getD j 0) ∧
        s'.g.getD (j + 1) 0 = m.sqrt (s'.a.getD j 0 * s'.g.getD j 0) ∧
        s'.c.getD (j + 1) 0 = 0.5 * (s'.a.getD j 0 - s'.g.getD j 0)) ∧
      (s'.n < 30 →
        |s'.a.getD s'.n 0 - s'.g.getD s'.n 0| < s'.a.getD s'.n 0 * __EPSILON_xx64__) := by
  have hit : __ITERATIONS_NUMBER__ = 30 := rfl
  obtain ⟨d, hd⟩ : ∃ d, d = 30 - s.n := ⟨_, rfl⟩
  induction d generalizing s with
  | zero =>
    refine ⟨s, ?_, ha, hg, hc, le_refl _, hn, by simp, fun j _ => ⟨rfl, rfl, rfl⟩, ?_, ?_⟩
    · rw [am_loop, hit, if_neg (by omega)]
    · intro j h1 h2
      omega
    · intro h
      omega
  | succ d ih =>
    have hlt : s.n < 30 := by omega
    rw [am_loop, hit, if_pos hlt, arr_read_eq s.a s.n (by omega),
      arr_read_eq s.g s.n (by omega)]
    simp only []
    by_cases hstop : |s.a.getD s.n 0 - s.g.getD s.n 0| < s.a.getD s.n 0 * __EPSILON_xx64__
    · rw [if_pos hstop]
      refine ⟨s, rfl, ha, hg, hc, le_refl _, hn, by simp, fun j _ => ⟨rfl, rfl, rfl⟩, ?_,
        fun _ => hstop⟩
      intro j h1 h2
      omega
    · rw [if_neg hstop, arr_write_eq s.a (s.n + 1) _ (by omega),
        arr_write_eq s.g (s.n + 1) _ (by omega), arr_write_eq s.c (s.n + 1) _ (by omega)]
      simp only []
      obtain ⟨s', h0, h1, h2, h2c, h3, h4, h5, h6, h7, h8⟩ :=
        ih { s with
              two_n := s.two_n + s.two_n
              a := s.a.set (s.n + 1) (0.5 * (s.a.getD s.n 0 + s.g.getD s.n 0))
              g := s.g.set (s.n + 1) (m.sqrt (s.a.getD s.n 0 * s.g.getD s.n 0))
              c := s.c.set (s.n + 1) (0.5 * (s.a.getD s.n 0 - s.g.getD s.n 0))
              n := s.n + 1 }
          (by simp [ha]) (by simp [hg]) (by simp [hc]) (by simp; omega) (by simp; omega)
      simp only at h3 h5 h6 h7
      have hpre : ∀ j, j ≤ s.n →
          s'.a.getD j 0 = s.a.getD j 0 ∧ s'.g.getD j 0 = s.g.getD j 0 ∧
          s'.c.getD j 0 = s.c.getD j 0 := by
        intro j hj
        obtain ⟨e1, e2, e3⟩ := h6 j (by omega)
        rw [e1, e2, e3, mirror_ring_buff.getD_set, mirror_ring_buff.getD_set,
          mirror_ring_buff.getD_set, if_neg (by omega), if_neg (by omega), if_neg (by omega)]
        exact ⟨rfl, rfl, rfl⟩
      have hnext : s'.a.getD (s.n + 1) 0 = 0.5 * (s.a.getD s.n 0 + s.g.getD s.n 0) ∧
          s'.g.getD (s.n + 1) 0 = m.sqrt (s.a.getD s.n 0 * s.g.getD s.n 0) ∧
          s'.c.getD (s.n + 1) 0 = 0.5 * (s.a.getD s.n 0 - s.g.getD s.n 0) := by
        obtain ⟨e1, e2, e3⟩ := h6 (s.n + 1) (le_refl _)
        rw [e1, e2, e3, mirror_ring_buff.getD_set, mirror_ring_buff.getD_set,
          mirror_ring_buff.getD_set, if_pos ⟨rfl, by omega⟩, if_pos ⟨rfl, by omega⟩,
          if_pos ⟨rfl, by omega⟩]
        exact ⟨rfl, rfl, rfl⟩
      refine ⟨s', h0, h1, h2, h2c, by omega, h4, ?_, hpre, ?_, h8⟩
      · rw [h5]
        have e : s'.n - s.n = (s'.n - (s.n + 1)) + 1 := by omega
        rw [e, pow_succ]
        ring
      · intro j hj1 hj2
        by_cases hj : j = s.n
        · subst hj
          obtain ⟨e1, e2, -⟩ := hpre s.n (le_refl _)
          rw [e1, e2]
          exact ⟨hstop, hnext.1, hnext.2.1, hnext.2.2⟩
        · exact h7 j (by omega) hj2

theorem agm_array_getD_set_zero {R : Type} [Zero R] (v : R) :
    ((agm_array R).set 0 v).getD 0 0 = v := by
  rw [mirror_ring_buff.getD_set, if_pos ⟨rfl, by rw [agm_array_length]; decide⟩]

/-- The function `__ellip_k__` up to the exit of its loop: it ends at an index n <= 30
with `two_n = 2^n`, from `a[0] = 1`, `g[0] = sqrt(1 - k^2)` every pass j < n found the
test false and wrote the means, and the exit below 30 is by the test. -/
theorem ellip_k_agm_spec {R : Type} [LinearOrderedField R] (m : cmath_ellip R) (k : R) :
    ∃ s, ellip_k_agm m k = some s ∧ s.a.length = 31 ∧ s.g.length = 31 ∧ s.n ≤ 30 ∧
      s.two_n = 2 ^ s.n ∧ s.a.getD 0 0 = 1 ∧
      s.g.getD 0 0 = m.sqrt (1 - ellip_modulus k * ellip_modulus k) ∧
      (∀ j, j < s.n →
        ¬ |s.a.getD j 0 - s.g.getD j 0| < s.a.getD j 0 * __EPSILON_xx64__ ∧
        s.a.getD (j + 1) 0 = 0.5 * (s.a.getD j 0 + s.g.getD j 0) ∧
        s.g.getD (j + 1) 0 = m.sqrt (s.a.getD j 0 * s.g.getD j 0)) ∧
      (s.n < 30 →
        |s.a.getD s.n 0 - s.g.getD s.n 0| < s.a.getD s.n 0 * __EPSILON_xx64__) := by
  have hl := agm_array_length R
  unfold ellip_k_agm
  rw [arr_write_eq _ 0 _ (by omega), arr_write_eq _ 0 _ (by omega)]
  simp only []
  obtain ⟨s, h0, h1, h2, -, h4, h5, h6, h7, h8⟩ :=
    ellip_k_loop_spec m
      ⟨(agm_array R).set 0 1,
        (agm_array R).set 0 (m.sqrt (1 - ellip_modulus k * ellip_modulus k)), [], 1, 0, 0⟩
      (by simp [hl]) (by simp [hl]) (Nat.zero_le _)
  simp only at h5 h6 h7
  obtain ⟨e1, e2⟩ := h6 0 (le_refl _)
  rw [agm_array_getD_set_zero] at e1 e2
  exact ⟨s, h0, h1, h2, h4, by rw [h5]; simp, e1, e2, fun j hj => h7 j (Nat.zero_le _) hj, h8⟩

/-- The function `__ellip_e__` up to the exit of its loop, as `ellip_k_agm_spec`, with
`c[0] = k`, `c[j+1]` written by every pass and the terms added to `sum`. -/
theorem ellip_e_agm_spec {R : Type} [LinearOrderedField R] (m : cmath_ellip R) (k : R) :
    ∃ s, ellip_e_agm m k = some s ∧ s.a.length = 31 ∧ s.g.length = 31 ∧ s.c.length = 31 ∧
      s.n ≤ 30 ∧ s.two_n = 2 ^ s.n ∧ s.a.getD 0 0 = 1 ∧
      s.g.getD 0 0 = m.sqrt (1 - ellip_modulus k * ellip_modulus k) ∧
      s.c.getD 0 0 = ellip_modulus k ∧
      (∀ j, j < s.n →
        ¬ |s.a.getD j 0 - s.g.getD j 0| < s.a.getD j 0 * __EPSILON_xx64__ ∧
        s.a.getD (j + 1) 0 = 0.5 * (s.a.getD j 0 + s.g.getD j 0) ∧
        s.g.getD (j + 1) 0 = m.sqrt (s.a.getD j 0 * s.g.getD j 0) ∧
        s.c.getD (j + 1) 0 = 0.5 * (s.a.getD j 0 - s.g.getD j 0)) ∧
      (s.n < 30 →
        |s.a.getD s.n 0 - s.g.getD s.n 0| < s.a.getD s.n 0 * __EPSILON_xx64__) ∧
      s.sum = ∑ j ∈ Finset.range s.n,
        0.5 * s.c.getD (j + 1) 0 * s.c.getD (j + 1) 0 * 2 ^ (j + 1) := by
  have hl := agm_array_length R
  unfold ellip_e_agm
  rw [arr_write_eq _ 0 _ (by omega), arr_write_eq _ 0 _ (by omega),
    arr_write_eq _ 0 _ (by omega)]
  simp only []
  obtain ⟨s, h0, h1, h2, h2c, -, h4, h5, h6, h7, h8, h9⟩ :=
    ellip_e_loop_spec m
      ⟨(agm_array R).set 0 1,
        (agm_array R).set 0 (m.sqrt (1 - ellip_modulus k * ellip_modulus k)),
        (agm_array R).set 0 (ellip_modulus k), 1, 0, 0⟩
      (by simp [hl]) (by simp [hl]) (by simp [hl]) (Nat.zero_le _)
  simp only at h5 h6 h7 h9
  obtain ⟨e1, e2, e3⟩ := h6 0 (le_refl _)
  rw [agm_array_getD_set_zero] at e1 e2 e3
  refine ⟨s, h0, h1, h2, h2c, h4, by rw [h5]; simp, e1, e2, e3,
    fun j hj => h7 j (Nat.zero_le _) hj, h8, ?_⟩
  rw [h9, zero_add, Nat.Ico_zero_eq_range]
  simp

/-- The function `__am__` up to the exit of its forward loop, as `ellip_k_agm_spec`, with
`c[0] = k` and `c[j+1]` written by every pass. -/
theorem am_agm_spec {R : Type} [LinearOrderedField R] (m : cmath_ellip R) (k : R) :
    ∃ s, am_agm m k = some s ∧ s.a.length = 31 ∧ s.g.length = 31 ∧ s.c.length = 31 ∧
      s.n ≤ 30 ∧ s.two_n = 2 ^ s.n ∧ s.a.getD 0 0 = 1 ∧
      s.g.getD 0 0 = m.sqrt (1 - k * k) ∧ s.c.getD 0 0 = k ∧
      (∀ j, j < s.n →
        ¬ |s.a.getD j 0 - s.g.getD j 0| < s.a.getD j 0 * __EPSILON_xx64__ ∧
        s.a.getD (j + 1) 0 = 0.5 * (s.a.getD j 0 + s.g.getD j 0) ∧
        s.g.getD (j + 1) 0 = m.sqrt (s.a.getD j 0 * s.g.getD j 0) ∧
        s.c.getD (j + 1) 0 = 0.5 * (s.a.getD j 0 - s.g.getD j 0)) ∧
      (s.n < 30 →
        |s.a.getD s.n 0 - s.g.getD s.n 0| < s.a.getD s.n 0 * __EPSILON_xx64__) := by
  have hl := agm_array_length R
  unfold am_agm
  rw [arr_write_eq _ 0 _ (by omega), arr_write_eq _ 0 _ (by omega),
    arr_write_eq _ 0 _ (by omega)]
  simp only []
  obtain ⟨s, h0, h1, h2, h2c, -, h4, h5, h6, h7, h8⟩ :=
    am_loop_spec m
      ⟨(agm_array R).set 0 1, (agm_array R).set 0 (m.sqrt (1 - k * k)),
        (agm_array R).set 0 k, 1, 0, 0⟩
      (by simp [hl]) (by simp [hl]) (by simp [hl]) (Nat.zero_le _)
  simp only at h5 h6 h7
  obtain ⟨e1, e2, e3⟩ := h6 0 (le_refl _)
  rw [agm_array_getD_set_zero] at e1 e2 e3
  exact ⟨s, h0, h1, h2, h2c, h4, by rw [h5]; simp, e1, e2, e3,
    fun j hj => h7 j (Nat.zero_le _) hj, h8⟩

/-- The backward loop of `__am__` entered at an index n <= 30 reads inside the arrays and
returns a value. -/
theorem am_back_some {R : Type} [LinearOrderedField R] (m : cmath_ellip R) (s : agm_vars R)
    (ha : s.a.length = 31) (hc : s.c.length = 31) (n : Nat) (hn : n ≤ 30) (phi : R) :
    ∃ v, am_back m s n phi = some v := by
  induction n generalizing phi with
  | zero => exact ⟨phi, rfl⟩
  | succ n ih =>
    rw [am_back, arr_read_eq s.c (n + 1) (by omega), arr_read_eq s.a (n + 1) (by omega)]
    exact ih (by omega) _

/-- The values of `__ellip_k__`, `__ellip_e__` and `__am__` in terms of the state at the
exit of the loop. -/
theorem ellip_k_value {R : Type} [LinearOrderedField R] (m : cmath_ellip R) (k : R)
    (s : agm_vars R) (h : ellip_k_agm m k = some s) (ha : s.a.length = 31) (hn : s.n ≤ 30) :
    __ellip_k__ m k = some (m.pi / 2 / s.a.getD s.n 0) := by
  unfold __ellip_k__
  rw [h]
  simp only []
  rw [arr_read_eq s.a s.n (by omega)]
  rfl

theorem ellip_e_value {R : Type} [LinearOrderedField R] (m : cmath_ellip R) (k : R)
    (s : agm_vars R) (h : ellip_e_agm m k = some s) (ha : s.a.length = 31)
    (hc : s.c.length = 31) (hn : s.n ≤ 30) :
    __ellip_e__ m k =
      some (m.pi / 2 * (1 - (s.sum + 0.5 * s.c.getD 0 0 * s.c.getD 0 0)) / s.a.getD s.n 0) := by
  unfold __ellip_e__
  rw [h]
  simp only []
  rw [arr_read_eq s.a s.n (by omega), arr_read_eq s.c 0 (by omega)]

/-- C25: for every modulus k (and every u), the arithmetic-geometric-mean loops of
`__ellip_k__`, `__ellip_e__` and `__am__` end at an index n <= 30, so after at most 30
passes; the test |a[j] - g[j]| < a[j]*epsilon was false at every j < n and is true at n
when n < 30, so the loop stops at the first index that passes the test; and the functions
return a value, which the model does only when every index used to read or write the
31-element arrays a, g and c, the index n after the loop among them, is inside 0..30. -/
theorem C25_agm_bounded {R : Type} [LinearOrderedField R] (m : cmath_ellip R) (u k : R) :
    (∃ s v, ellip_k_agm m k = some s ∧ __ellip_k__ m k = some v ∧ s.n ≤ 30 ∧
      (∀ j, j < s.n → ¬ |s.a.getD j 0 - s.g.getD j 0| < s.a.getD j 0 * __EPSILON_xx64__) ∧
      (s.n < 30 →
        |s.a.getD s.n 0 - s.g.getD s.n 0| < s.a.getD s.n 0 * __EPSILON_xx64__)) ∧
    (∃ s v, ellip_e_agm m k = some s ∧ __ellip_e__ m k = some v ∧ s.n ≤ 30 ∧
      (∀ j, j < s.n → ¬ |s.a.getD j 0 - s.g.getD j 0| < s.a.getD j 0 * __EPSILON_xx64__) ∧
      (s.n < 30 →
        |s.a.getD s.n 0 - s.g.getD s.n 0| < s.a.getD s.n 0 * __EPSILON_xx64__)) ∧
    (∃ s v, am_agm m (ellip_modulus k) = some s ∧ __am__ m u k = some v ∧ s.n ≤ 30 ∧
      (∀ j, j < s.n → ¬ |s.a.getD j 0 - s.g.getD j 0| < s.a.getD j 0 * __EPSILON_xx64__) ∧
      (s.n < 30 →
        |s.a.getD s.n 0 - s.g.getD s.n 0| < s.a.getD s.n 0 * __EPSILON_xx64__)) := by
  refine ⟨?_, ?_, ?_⟩
  · obtain ⟨s, h0, h1, -, h3, -, -, -, h7, h8⟩ := ellip_k_agm_spec m k
    exact ⟨s, _, h0, ellip_k_value m k s h0 h1 h3, h3, fun j hj => (h7 j hj).1, h8⟩
  · obtain ⟨s, h0, h1, -, h2c, h3, -, -, -, -, h7, h8, -⟩ := ellip_e_agm_spec m k
    exact ⟨s, _, h0, ellip_e_value m k s h0 h1 h2c h3, h3, fun j hj => (h7 j hj).1, h8⟩
  · obtain ⟨s, h0, h1, -, h2c, h3, -, -, -, -, h7, h8⟩ := am_agm_spec m (ellip_modulus k)
    have hv : ∃ v, __am__ m u k = some v := by
      unfold __am__
      split
      · exact ⟨_, rfl⟩
      · split
        · exact ⟨_, rfl⟩
        · rw [h0]
          simp only []
          rw [arr_read_eq s.a s.n (by omega)]
          exact am_back_some m s h1 h2c s.n h3 _
    obtain ⟨v, hv⟩ := hv
    exact ⟨s, v, h0, hv, h3, fun j hj => (h7 j hj).1, h8⟩

/-- The guards of the array accesses do refuse: the index 31 is outside an array of
`__ITERATIONS_NUMBER__ + 1` elements. -/
theorem agm_array_refuses :
    arr_read (agm_array ℚ) 31 = none ∧ arr_write (agm_array ℚ) 31 1 = none ∧
    arr_read (agm_array ℚ) 30 = some 0 := by
  decide

/-! ## The arithmetic-geometric mean over the reals -/

/-- The clamped modulus lies in [0, 1]. -/
theorem ellip_modulus_range (k : ℝ) : 0 ≤ ellip_modulus k ∧ ellip_modulus k ≤ 1 := by
  unfold ellip_modulus
  have h0 := abs_nonneg k
  rw [if_neg (by linarith)]
  split
  · exact ⟨zero_le_one, le_refl _⟩
  · exact ⟨h0, by linarith⟩

/-- At the end of the range, |k| >= 1, the clamped modulus is 1. -/
theorem ellip_modulus_end (k : ℝ) (hk : 1 ≤ |k|) : ellip_modulus k = 1 := by
  unfold ellip_modulus
  rw [if_neg (by linarith)]
  split
  · rfl
  · linarith

/-- Bounds of the two means: from a[0] = 1 and g[0] in [0, 1], as long as the passes
write the arithmetic and the geometric mean, 0 <= g[j] <= a[j] <= 1 and
a[j] >= 1/2^j. -/
theorem agm_seq_bounds (a g : Nat → ℝ) (n : Nat) (ha0 : a 0 = 1) (hg0 : 0 ≤ g 0)
    (hg1 : g 0 ≤ 1)
    (hstep : ∀ j, j < n →
      a (j + 1) = 0.5 * (a j + g j) ∧ g (j + 1) = Real.sqrt (a j * g j)) :
    ∀ j, j ≤ n → 0 ≤ g j ∧ g j ≤ a j ∧ a j ≤ 1 ∧ 1 / 2 ^ j ≤ a j := by
  intro j
  induction j with
  | zero =>
    intro _
    rw [ha0]
    exact ⟨hg0, hg1, le_refl _, by norm_num⟩
  | succ j ih =>
    intro hj
    obtain ⟨h1, h2, h3, h4⟩ := ih (by omega)
    obtain ⟨ea, eg⟩ := hstep j (by omega)
    have ha : 0 ≤ a j := le_trans h1 h2
    rw [ea, eg]
    refine ⟨Real.sqrt_nonneg _, ?_, ?_, ?_⟩
    · rw [Real.sqrt_le_left (by linarith)]
      nlinarith [sq_nonneg (a j - g j)]
    · linarith
    · have e : (1 : ℝ) / 2 ^ (j + 1) = 0.5 * (1 / 2 ^ j) := by
        rw [pow_succ]
        field_simp
        ring
      rw [e]
      linarith

/-- At the end of the range: from a[0] = 1 and g[0] = 0 the passes leave a[j] = 1/2^j
and g[j] = 0. -/
theorem agm_seq_end (a g : Nat → ℝ) (n : Nat) (ha0 : a 0 = 1) (hg0 : g 0 = 0)
    (hstep : ∀ j, j < n →
      a (j + 1) = 0.5 * (a j + g j) ∧ g (j + 1) = Real.sqrt (a j * g j)) :
    ∀ j, j ≤ n → a j = 1 / 2 ^ j ∧ g j = 0 := by
  intro j
  induction j with
  | zero =>
    intro _
    rw [ha0, hg0]
    exact ⟨by norm_num, rfl⟩
  | succ j ih =>
    intro hj
    obtain ⟨h1, h2⟩ := ih (by omega)
    obtain ⟨ea, eg⟩ := hstep j (by omega)
    rw [ea, eg, h1, h2]
    refine ⟨?_, by simp⟩
    rw [pow_succ]
    field_simp
    ring

/-- The test of the loop is false at a[j] = 1/2^j, g[j] = 0. -/
theorem agm_test_end (j : Nat) :
    ¬ |(1 : ℝ) / 2 ^ j - 0| < 1 / 2 ^ j * __EPSILON_xx64__ := by
  have hp : (0 : ℝ) < 1 / 2 ^ j := by positivity
  rw [sub_zero, abs_of_pos hp, not_lt]
  have he : (__EPSILON_xx64__ : ℝ) ≤ 1 := by
    unfold __EPSILON_xx64__
    norm_num
  calc 1 / 2 ^ j * __EPSILON_xx64__ ≤ 1 / 2 ^ j * 1 :=
        mul_le_mul_of_nonneg_left he (le_of_lt hp)
    _ = 1 / 2 ^ j := mul_one _

/-- The run of `__ellip_k__` over the reals: the bounds of the two means at every index
reached and the value returned. -/
theorem ellip_k_real (m : cmath_ellip ℝ) (hs : m.sqrt = Real.sqrt) (k : ℝ) :
    ∃ s, ellip_k_agm m k = some s ∧ s.n ≤ 30 ∧
      (∀ j, j ≤ s.n → 0 ≤ s.g.getD j 0 ∧ s.g.getD j 0 ≤ s.a.getD j 0 ∧
        s.a.getD j 0 ≤ 1 ∧ 1 / 2 ^ j ≤ s.a.getD j 0) ∧
      __ellip_k__ m k = some (m.pi / 2 / s.a.getD s.n 0) ∧
      (ellip_modulus k = 0 → s.n = 0 ∧ s.a.getD s.n 0 = 1) := by
  obtain ⟨s, h0, h1, -, h3, -, h5, h6, h7, -⟩ := ellip_k_agm_spec m k
  obtain ⟨hk0, hk1⟩ := ellip_modulus_range k
  rw [hs] at h6
  have hg0 : 0 ≤ s.g.getD 0 0 := by
    rw [h6]
    exact Real.sqrt_nonneg _
  have hg1 : s.g.getD 0 0 ≤ 1 := by
    rw [h6, Real.sqrt_le_left zero_le_one]
    nlinarith
  refine ⟨s, h0, h3,
    agm_seq_bounds (fun j => s.a.getD j 0) (fun j => s.g.getD j 0) s.n h5 hg0 hg1
      (fun j hj => by
        have := (h7 j hj).2
        rw [hs] at this
        exact this),
    ellip_k_value m k s h0 h1 h3, ?_⟩
  intro hz
  have hn0 : s.n = 0 := by
    by_contra hne
    have hns := (h7 0 (by omega)).1
    apply hns
    rw [h5, h6, hz]
    simp only [mul_zero, sub_zero, Real.sqrt_one, sub_self, abs_zero, one_mul,
      __EPSILON_xx64__]
    norm_num
  rw [hn0]
  exact ⟨rfl, h5⟩

/-- C30: over the reals, for every modulus k and every index j up to the one the loop of
`__ellip_k__` ends at, 0 <= g[j] <= a[j] <= 1 and a[j] >= 2^-j > 0; the final division
is by a positive number and the value returned is at least π/2, and it is π/2 at k = 0.
Here sqrt is the real square root and `PI_2` is π/2. -/
theorem C30_ellip_k_invariant (k : ℝ) :
    (∃ s v, ellip_k_agm
          ⟨Real.sqrt, Real.sin, Real.arcsin, Real.arctan, Real.exp, Real.pi⟩ k = some s ∧
      __ellip_k__ ⟨Real.sqrt, Real.sin, Real.arcsin, Real.arctan, Real.exp, Real.pi⟩ k
        = some v ∧
      (∀ j, j ≤ s.n → 0 ≤ s.g.getD j 0 ∧ s.g.getD j 0 ≤ s.a.getD j 0 ∧
        s.a.getD j 0 ≤ 1 ∧ 1 / 2 ^ j ≤ s.a.getD j 0 ∧ 0 < s.a.getD j 0) ∧
      v = Real.pi / 2 / s.a.getD s.n 0 ∧ Real.pi / 2 ≤ v) ∧
    __ellip_k__ ⟨Real.sqrt, Real.sin, Real.arcsin, Real.arctan, Real.exp, Real.pi⟩ 0
      = some (Real.pi / 2) := by
  constructor
  · obtain ⟨s, h0, -, h2, h3, -⟩ := ellip_k_real
      ⟨Real.sqrt, Real.sin, Real.arcsin, Real.arctan, Real.exp, Real.pi⟩ rfl k
    have hpos : ∀ j, j ≤ s.n → 0 < s.a.getD j 0 := by
      intro j hj
      have h := (h2 j hj).2.2.2
      have hp : (0 : ℝ) < 1 / 2 ^ j := by positivity
      linarith
    refine ⟨s, _, h0, h3, fun j hj => ?_, rfl, ?_⟩
    · obtain ⟨a1, a2, a3, a4⟩ := h2 j hj
      exact ⟨a1, a2, a3, a4, hpos j hj⟩
    · have hp := hpos s.n (le_refl _)
      have h1 := (h2 s.n (le_refl _)).2.2.1
      have hpi : 0 ≤ Real.pi / 2 := by positivity
      exact (le_div_iff₀ hp).mpr (by nlinarith)
  · obtain ⟨s, -, -, -, h3, h4⟩ := ellip_k_real
      ⟨Real.sqrt, Real.sin, Real.arcsin, Real.arctan, Real.exp, Real.pi⟩ rfl 0
    have hz : ellip_modulus (0 : ℝ) = 0 := by norm_num [ellip_modulus]
    rw [h3, (h4 hz).2, div_one]

/-- The run of `__ellip_k__` at the end of the range, |k| >= 1, over the reals: the test
is never true, the loop ends at n = 30 with a[j] = 1/2^j and g[j] = 0. -/
theorem ellip_k_end (m : cmath_ellip ℝ) (hs : m.sqrt = Real.sqrt) (k : ℝ) (hk : 1 ≤ |k|) :
    ∃ s, ellip_k_agm m k = some s ∧ s.n = 30 ∧ s.two_n = 2 ^ 30 ∧
      (∀ j, j ≤ 30 → s.a.getD j 0 = 1 / 2 ^ j ∧ s.g.getD j 0 = 0) ∧
      __ellip_k__ m k = some (m.pi / 2 * 2 ^ 30) := by
  obtain ⟨s, h0, h1, -, h3, h4, h5, h6, h7, h8⟩ := ellip_k_agm_spec m k
  rw [hs, ellip_modulus_end k hk] at h6
  have hg0 : s.g.getD 0 0 = 0 := by
    rw [h6]
    simp
  have hseq : ∀ j, j ≤ s.n → s.a.getD j 0 = 1 / 2 ^ j ∧ s.g.getD j 0 = 0 :=
    agm_seq_end (fun j => s.a.getD j 0) (fun j => s.g.getD j 0) s.n h5 hg0
      (fun j hj => by
        have := (h7 j hj).2
        rw [hs] at this
        exact this)
  have hn : s.n = 30 := by
    by_contra hne
    have hst := h8 (by omega)
    obtain ⟨e1, e2⟩ := hseq s.n (le_refl _)
    rw [e1, e2] at hst
    exact agm_test_end s.n hst
  rw [hn] at hseq h4
  refine ⟨s, h0, hn, h4, hseq, ?_⟩
  rw [ellip_k_value m k s h0 h1 h3, hn, (hseq 30 (le_refl _)).1]
  congr 1
  field_simp

/-- C29: over the reals, for every k with |k| >= 1, `g[0] = 0`, the loop of `__ellip_k__`
runs all its 30 passes, ending at n = 30 with a[j] = 2^-j and g[j] = 0 at every index,
and the value returned is (π/2)*2^30. Here sqrt is the real square root and `PI_2` is
π/2. -/
theorem C29_ellip_k_end_of_range (k : ℝ) (hk : 1 ≤ |k|) :
    ∃ s, ellip_k_agm
          ⟨Real.sqrt, Real.sin, Real.arcsin, Real.arctan, Real.exp, Real.pi⟩ k = some s ∧
      s.n = 30 ∧
      (∀ j, j ≤ 30 → s.a.getD j 0 = 1 / 2 ^ j ∧ s.g.getD j 0 = 0) ∧
      __ellip_k__ ⟨Real.sqrt, Real.sin, Real.arcsin, Real.arctan, Real.exp, Real.pi⟩ k
        = some (Real.pi / 2 * 2 ^ 30) := by
  obtain ⟨s, h0, h1, -, h3, h4⟩ := ellip_k_end
    ⟨Real.sqrt, Real.sin, Real.arcsin, Real.arctan, Real.exp, Real.pi⟩ rfl k hk
  exact ⟨s, h0, h1, h3, h4⟩

/-- Witness of C29: the modulus -3, clamped to 1. -/
theorem C29_ellip_k_end_of_range_witness :
    ∃ s, ellip_k_agm
          ⟨Real.sqrt, Real.sin, Real.arcsin, Real.arctan, Real.exp, Real.pi⟩ (-3) = some s ∧
      s.n = 30 ∧
      (∀ j, j ≤ 30 → s.a.getD j 0 = 1 / 2 ^ j ∧ s.g.getD j 0 = 0) ∧
      __ellip_k__ ⟨Real.sqrt, Real.sin, Real.arcsin, Real.arctan, Real.exp, Real.pi⟩ (-3)
        = some (Real.pi / 2 * 2 ^ 30) :=
  C29_ellip_k_end_of_range (-3) (by norm_num [abs_of_neg])

/-- The terms that the passes of `__ellip_e__` add to `sum` at the end of the range. -/
theorem ellip_e_sum_end (n : Nat) :
    ∑ j ∈ Finset.range n, (0.5 : ℝ) * (0.5 * (1 / 2 ^ j - 0)) * (0.5 * (1 / 2 ^ j - 0))
        * 2 ^ (j + 1) = 1 / 2 - 1 / 2 ^ (n + 1) := by
  induction n with
  | zero => norm_num
  | succ n ih =>
    rw [Finset.sum_range_succ, ih]
    have h2 : (2 : ℝ) ^ n ≠ 0 := by positivity
    rw [pow_succ, pow_succ, pow_succ]
    field_simp
    ring

/-- The run of `__ellip_e__` at the end of the range, |k| >= 1, over the reals: the loop
ends at n = 30 with a[30] = 1/2^30 and sum = 1/2 - 1/2^31, and the value returned is a
quarter of `pi`. -/
theorem ellip_e_end (m : cmath_ellip ℝ) (hs : m.sqrt = Real.sqrt) (k : ℝ) (hk : 1 ≤ |k|) :
    __ellip_e__ m k = some (m.pi / 4) := by
  obtain ⟨s, h0, h1, -, h2c, h3, -, h5, h6, h6c, h7, h8, h9⟩ := ellip_e_agm_spec m k
  rw [hs, ellip_modulus_end k hk] at h6
  rw [ellip_modulus_end k hk] at h6c
  have hg0 : s.g.getD 0 0 = 0 := by
    rw [h6]
    simp
  have hseq : ∀ j, j ≤ s.n → s.a.getD j 0 = 1 / 2 ^ j ∧ s.g.getD j 0 = 0 :=
    agm_seq_end (fun j => s.a.getD j 0) (fun j => s.g.getD j 0) s.n h5 hg0
      (fun j hj => by
        obtain ⟨-, e1, e2, -⟩ := h7 j hj
        rw [hs] at e2
        exact ⟨e1, e2⟩)
  have hn : s.n = 30 := by
    by_contra hne
    have hst := h8 (by omega)
    obtain ⟨e1, e2⟩ := hseq s.n (le_refl _)
    rw [e1, e2] at hst
    exact agm_test_end s.n hst
  have hsum : s.sum = 1 / 2 - 1 / 2 ^ (30 + 1) := by
    rw [h9, ← ellip_e_sum_end 30, hn]
    apply Finset.sum_congr rfl
    intro j hj
    have hj' : j < s.n := by
      rw [hn]
      exact Finset.mem_range.mp hj
    obtain ⟨-, -, -, e3⟩ := h7 j hj'
    obtain ⟨e1, e2⟩ := hseq j (by omega)
    rw [e3, e1, e2]
  rw [ellip_e_value m k s h0 h1 h2c h3, hsum, h6c, hn, (hseq 30 (by omega)).1]
  congr 1
  norm_num
  ring

/-- C28 (the code at the failing input): over the reals `__ellip_e__(1)` is π/4, not the
value 1 of the complete elliptic integral of the second kind at the modulus 1. At k = 1
the loop never meets its test; its 30 passes leave a[30] = 2^-30 and
sum = 1/2 - 2^-31, and PI_2*(1 - (sum + 0.5))/a[30] is π/4. -/
theorem C28_ellip_e_at_one :
    __ellip_e__ ⟨Real.sqrt, Real.sin, Real.arcsin, Real.arctan, Real.exp, Real.pi⟩ 1
      = some (Real.pi / 4) ∧ Real.pi / 4 ≠ 1 := by
  refine ⟨ellip_e_end _ rfl 1 (by norm_num), ?_⟩
  have := Real.pi_lt_four
  intro h
  linarith

/-- The backward loop of `__am__` from phi = 0 leaves 0, when sin(0) = 0 and asin(0) = 0. -/
theorem am_back_zero {R : Type} [LinearOrderedField R] (m : cmath_ellip R)
    (hsin : m.sin 0 = 0) (hasin : m.asin 0 = 0) (s : agm_vars R)
    (ha : s.a.length = 31) (hc : s.c.length = 31) (n : Nat) (hn : n ≤ 30) :
    am_back m s n 0 = some 0 := by
  induction n with
  | zero => rfl
  | succ n ih =>
    rw [am_back, arr_read_eq s.c (n + 1) (by omega), arr_read_eq s.a (n + 1) (by omega)]
    simp only []
    rw [hsin, mul_zero, zero_div, hasin, add_zero, mul_zero]
    exact ih (by omega)

/-- Below the end of the range `__am__(0, k)` is 0: for a clamped modulus other than 1,
with sin(0) = 0 and asin(0) = 0. -/
theorem am_zero_inside {R : Type} [LinearOrderedField R] (m : cmath_ellip R)
    (hsin : m.sin 0 = 0) (hasin : m.asin 0 = 0) (k : R) (hk : ellip_modulus k ≠ 1) :
    __am__ m 0 k = some 0 ∧ __sn__ m 0 k = some 0 := by
  have h : __am__ m 0 k = some 0 := by
    unfold __am__
    split
    · rfl
    · obtain ⟨s, h0, h1, -, h2c, h3, -⟩ := am_agm_spec m (ellip_modulus k)
      rw [h0]
      simp only []
      rw [arr_read_eq s.a s.n (by omega)]
      simp only []
      rw [mul_zero]
      exact am_back_zero m hsin hasin s h1 h2c s.n h3
  refine ⟨h, ?_⟩
  unfold __sn__
  rw [h, Option.map_some', hsin]

/-- C27 (the code at the failing input): over the reals `__am__(0, 1)` is
2*atan(exp(0)) - 2π = -3π/2, not 0, and `__sn__(0, 1)` is sin(-3π/2) = 1, not 0: the
special case k == 1 subtracts `PI2` (2π). -/
theorem C27_am_at_origin_modulus_one :
    __am__ ⟨Real.sqrt, Real.sin, Real.arcsin, Real.arctan, Real.exp, Real.pi⟩ 0 1
      = some (-(3 * Real.pi / 2)) ∧
    __sn__ ⟨Real.sqrt, Real.sin, Real.arcsin, Real.arctan, Real.exp, Real.pi⟩ 0 1
      = some 1 ∧
    -(3 * Real.pi / 2) ≠ 0 := by
  have hm : ellip_modulus (1 : ℝ) = 1 := ellip_modulus_end 1 (by norm_num)
  have h : __am__ ⟨Real.sqrt, Real.sin, Real.arcsin, Real.arctan, Real.exp, Real.pi⟩ 0 1
      = some (-(3 * Real.pi / 2)) := by
    unfold __am__
    rw [hm, if_neg one_ne_zero, if_pos rfl]
    simp only [Real.exp_zero, Real.arctan_one]
    congr 1
    ring
  refine ⟨h, ?_, ?_⟩
  · unfold __sn__
    rw [h, Option.map_some']
    congr 1
    show Real.sin (-(3 * Real.pi / 2)) = 1
    have e : -(3 * Real.pi / 2) = Real.pi / 2 - 2 * Real.pi := by ring
    rw [e, Real.sin_sub_two_pi, Real.sin_pi_div_two]
  · have := Real.pi_pos
    intro h0
    linarith

/-! ## The aperiodic filter: the fundamental and the gain bound -/

namespace aperiodic_filt

/-- The magnitude computed by `FreqCharacteristics` is the absolute value of the sine of
half the angle. -/
theorem Km_abs_sin (a : aperiodic_filt ℝ) :
    (a.FreqCharacteristics
        ⟨Real.cos, Real.sin, Real.sqrt, fun y x => Complex.arg ⟨x, y⟩, 2 * Real.pi⟩).m_Km =
      |Real.sin (Real.pi * (a.m_order : ℝ) * a.m_in_F * a.m_Ts)| := by
  rw [Km_real]
  have hθ : 2 * Real.pi * (a.m_order : ℝ) * a.m_in_F * a.m_Ts =
      2 * (Real.pi * (a.m_order : ℝ) * a.m_in_F * a.m_Ts) := by ring
  rw [hθ]
  generalize Real.pi * (a.m_order : ℝ) * a.m_in_F * a.m_Ts = x
  have e : (1 - Real.cos (2 * x)) * (1 - Real.cos (2 * x))
      + Real.sin (2 * x) * Real.sin (2 * x) = (2 * Real.sin x) ^ 2 := by
    have h1 := Real.cos_sq_add_sin_sq (2 * x)
    have h2 := Real.cos_sq_add_sin_sq x
    have h3 := Real.cos_two_mul x
    nlinarith
  rw [e, Real.sqrt_sq_eq_abs, abs_mul]
  norm_num
  ring

end aperiodic_filt

/-- C33: for every state (every `m_order`, `m_in_F` and `m_Ts`), after
`FreqCharacteristics` `m_Km = |sin(π * m_order * m_in_F * m_Ts)|`, and so
0 <= m_Km <= 1. Here cos, sin and sqrt are the real functions and the source's literal
stands for 2π. -/
theorem C33_aperiodic_never_amplifies (a : aperiodic_filt ℝ) :
    (a.FreqCharacteristics
        ⟨Real.cos, Real.sin, Real.sqrt, fun y x => Complex.arg ⟨x, y⟩, 2 * Real.pi⟩).m_Km =
      |Real.sin (Real.pi * (a.m_order : ℝ) * a.m_in_F * a.m_Ts)| ∧
    0 ≤ (a.FreqCharacteristics
        ⟨Real.cos, Real.sin, Real.sqrt, fun y x => Complex.arg ⟨x, y⟩, 2 * Real.pi⟩).m_Km ∧
    (a.FreqCharacteristics
        ⟨Real.cos, Real.sin, Real.sqrt, fun y x => Complex.arg ⟨x, y⟩, 2 * Real.pi⟩).m_Km ≤ 1 := by
  rw [aperiodic_filt.Km_abs_sin]
  exact ⟨rfl, abs_nonneg _, Real.abs_sin_le_one _⟩

/-- C32: for every positive Fs and Fn such that Fs/(2*Fn) is a whole number k, after
`filtInit(Fs, Fn)`, which leaves `m_in_F = Fn`, `FreqCharacteristics` yields
`m_Km = 1` and `m_pH = 0`: the angle is -π, the real part 2 and the imaginary part 0.
Here cos, sin and sqrt are the real functions, atan2(y, x) is the argument of x + jy, and
the source's literal stands for 2π. -/
theorem C32_aperiodic_passes_fundamental (a : aperiodic_filt ℝ) (Fs Fn : ℝ) (k : Nat)
    (hFs : 0 < Fs) (hFn : 0 < Fn) (hk : Fs / (2 * Fn) = (k : ℝ)) :
    (a.filtInit Fs Fn).1.m_in_F = Fn ∧
    (aperiodic_filt.FreqCharacteristics
        ⟨Real.cos, Real.sin, Real.sqrt, fun y x => Complex.arg ⟨x, y⟩, 2 * Real.pi⟩
        (a.filtInit Fs Fn).1).m_Km = 1 ∧
    (aperiodic_filt.FreqCharacteristics
        ⟨Real.cos, Real.sin, Real.sqrt, fun y x => Complex.arg ⟨x, y⟩, 2 * Real.pi⟩
        (a.filtInit Fs Fn).1).m_pH = 0 := by
  have hk' : Fs / Fn / 2 = (k : ℝ) := by
    rw [← hk, div_div, mul_comm Fn 2]
  have hθ : -(2 * Real.pi) * (((k : Int)) : ℝ) * Fn * (1 / Fs) = -Real.pi := by
    have e : ((k : Int) : ℝ) = Fs / (2 * Fn) := by
      rw [hk]
      norm_cast
    rw [e]
    field_simp
    ring
  refine ⟨rfl, ?_, ?_⟩
  · simp only [aperiodic_filt.FreqCharacteristics, aperiodic_filt.filtInit, hk',
      aperiodic_filt.fx_to_int_natCast, hθ, Real.cos_neg, Real.sin_neg, Real.cos_pi,
      Real.sin_pi]
    have e : ((1 : ℝ) - -1) * (1 - -1) + (0 - -0) * (0 - -0) = 2 ^ 2 := by norm_num
    rw [e, Real.sqrt_sq (by norm_num)]
    norm_num
  · simp only [aperiodic_filt.FreqCharacteristics, aperiodic_filt.filtInit, hk',
      aperiodic_filt.fx_to_int_natCast, hθ, Real.cos_neg, Real.sin_neg, Real.cos_pi,
      Real.sin_pi]
    have e : (⟨(1 : ℝ) - -1, 0 - -0⟩ : ℂ) = ((2 : ℝ) : ℂ) := by
      apply Complex.ext <;> norm_num
    rw [e, Complex.arg_ofReal_of_nonneg (by norm_num)]

/-- Witness of C32: Fs = 4000, Fn = 50, k = 40. -/
theorem C32_aperiodic_passes_fundamental_witness :
    (aperiodic_filt.FreqCharacteristics
        ⟨Real.cos, Real.sin, Real.sqrt, fun y x => Complex.arg ⟨x, y⟩, 2 * Real.pi⟩
        ((aperiodic_filt.constructor (mbuff0 ℝ)).filtInit 4000 50).1).m_Km = 1 :=
  (C32_aperiodic_passes_fundamental _ 4000 50 40 (by norm_num) (by norm_num)
    (by norm_num)).2.1

/-! ## The reported filter order -/

/-- C37 (the code at the failing input): for the order-2 filter with the taps 1, 2, 1,
whose stored `m_order` is 2, `get_flt_order()` returns 3: the function returns
`m_order + 1`, the tap count, for every state. -/
theorem C37_get_flt_order_is_tap_count :
    (fir121 ℤ).m_order = 2 ∧ (fir121 ℤ).get_flt_order = 3 ∧
    ∀ f : FIR_filt ℤ, f.get_flt_order = f.m_order + 1 :=
  ⟨rfl, rfl, fun _ => rfl⟩

/-! ## The Bessel series -/

theorem factorial_cast_ne_zero {R : Type} [LinearOrderedField R] (n : Int) :
    ((__factorial__ n : Nat) : R) ≠ 0 :=
  Nat.cast_ne_zero.mpr (Nat.pos_iff_ne_zero.mp (factorial_pos n))

/-- The loop of `__bessel_i1__` never meets its test and adds the terms n .. n+fuel-1,
each with the power (x/2)^(2n) over the two values of `__factorial__`. -/
theorem bessel_i1_loop_sum {R : Type} [LinearOrderedField R] (x : R) (fuel : Nat) :
    ∀ (n : Nat) (sum : R),
      bessel_i1_loop x fuel n sum =
        sum + ∑ j ∈ Finset.range fuel,
          (-1) ^ (n + j) * (x / 2) ^ (2 * (n + j))
            / (((__factorial__ ((n + j : Nat) : Int) : Nat) : R)
              * ((__factorial__ ((n + j + 1 : Nat) : Int) : Nat) : R)) := by
  induction fuel with
  | zero =>
    intro n sum
    simp [bessel_i1_loop]
  | succ fuel ih =>
    intro n sum
    have e1 : (n : Int) + 1 = ((n + 1 : Nat) : Int) := by push_cast; rfl
    have h1 : ((__factorial__ (n : Int) : Nat) : R) ≠ 0 := factorial_cast_ne_zero _
    have h2 : ((__factorial__ ((n + 1 : Nat) : Int) : Nat) : R) ≠ 0 := factorial_cast_ne_zero _
    rw [bessel_i1_loop, e1, if_neg (by tauto), ih (n + 1), Finset.sum_range_succ', add_assoc]
    have e2 : ∀ j, n + 1 + j = n + (j + 1) := fun j => by omega
    simp only [e2, add_zero, div_div]
    rw [add_comm (Finset.sum _ _)]

/-- The loop of `__bessel_in__` for an order p >= 0 never meets its test and adds the
terms n .. n+fuel-1, each with the power (x/2)^(2n+p) over the two values of
`__factorial__`. -/
theorem bessel_in_loop_sum {R : Type} [LinearOrderedField R] (x : R) (p : Nat) (fuel : Nat) :
    ∀ (n : Nat) (sum : R),
      bessel_in_loop x (p : Int) fuel n sum =
        sum + ∑ j ∈ Finset.range fuel,
          (-1) ^ (n + j) * (x / 2) ^ (2 * (n + j) + p)
            / (((__factorial__ ((n + j : Nat) : Int) : Nat) : R)
              * ((__factorial__ ((n + j + p : Nat) : Int) : Nat) : R)) := by
  induction fuel with
  | zero =>
    intro n sum
    simp [bessel_in_loop]
  | succ fuel ih =>
    intro n sum
    have e1 : (n : Int) + (p : Int) = ((n + p : Nat) : Int) := by push_cast; rfl
    have h1 : ((__factorial__ (n : Int) : Nat) : R) ≠ 0 := factorial_cast_ne_zero _
    have h2 : ((__factorial__ ((n + p : Nat) : Int) : Nat) : R) ≠ 0 := factorial_cast_ne_zero _
    have epow : (x / 2) ^ (2 * (n : Int) + (p : Int)) = (x / 2) ^ (2 * n + p) := by
      rw [← zpow_natCast]
      push_cast
      rfl
    rw [bessel_in_loop, epow, e1, if_neg (by tauto), ih (n + 1), Finset.sum_range_succ',
      add_assoc]
    have e2 : ∀ j, n + 1 + j = n + (j + 1) := fun j => by omega
    simp only [e2, add_zero, div_div]
    rw [add_comm (Finset.sum _ _)]

/-- The value of `__bessel_i1__`: the 30-term sum with the powers (x/2)^(2n). -/
theorem bessel_i1_eq {R : Type} [LinearOrderedField R] (x : R) :
    __bessel_i1__ x =
      ∑ n ∈ Finset.range 30,
        (-1) ^ n * (x / 2) ^ (2 * n)
          / (((__factorial__ ((n : Nat) : Int) : Nat) : R)
            * ((__factorial__ ((n + 1 : Nat) : Int) : Nat) : R)) := by
  unfold __bessel_i1__
  rw [bessel_i1_loop_sum x __ITERATIONS_NUMBER__ 0 0, zero_add]
  simp only [zero_add, __ITERATIONS_NUMBER__]

/-- The value of `__bessel_in__` at the order 1: the 30-term sum with the powers
(x/2)^(2n+1). -/
theorem bessel_in_one_eq {R : Type} [LinearOrderedField R] (x : R) :
    __bessel_in__ x 1 =
      ∑ n ∈ Finset.range 30,
        (-1) ^ n * (x / 2) ^ (2 * n + 1)
          / (((__factorial__ ((n : Nat) : Int) : Nat) : R)
            * ((__factorial__ ((n + 1 : Nat) : Int) : Nat) : R)) := by
  unfold __bessel_in__
  have h := bessel_in_loop_sum x 1 __ITERATIONS_NUMBER__ 0 0
  simp only [Nat.cast_one] at h
  rw [h, zero_add]
  simp only [zero_add, __ITERATIONS_NUMBER__]

/-- The two functions differ by the factor x/2. -/
theorem bessel_in_one_eq_mul {R : Type} [LinearOrderedField R] (x : R) :
    __bessel_in__ x 1 = x / 2 * __bessel_i1__ x := by
  rw [bessel_in_one_eq, bessel_i1_eq, Finset.mul_sum]
  apply Finset.sum_congr rfl
  intro n _
  rw [pow_succ]
  ring

/-- C31 (the code at the failing input): at x = 0 `__bessel_i1__` returns 1 and
`__bessel_in__(0, 1)` returns 0. The loop of `__bessel_i1__` raises x/2 to the power 2n
where the first-order series, and `__bessel_in__` at the order 1, have 2n+1, so for every
x it returns the sum of (-1)^n (x/2)^(2n) over the two factorials and the two functions
differ by the factor x/2. -/
theorem C31_bessel_i1_at_zero :
    __bessel_i1__ (0 : ℝ) = 1 ∧ __bessel_in__ (0 : ℝ) 1 = 0 ∧
    __bessel_i1__ (0 : ℝ) ≠ __bessel_in__ (0 : ℝ) 1 := by
  have f0 : __factorial__ ((0 : Nat) : Int) = 1 := by decide
  have f1 : __factorial__ ((0 + 1 : Nat) : Int) = 1 := by decide
  have h1 : __bessel_i1__ (0 : ℝ) = 1 := by
    rw [bessel_i1_eq, Finset.sum_eq_single 0]
    · rw [f0, f1]
      norm_num
    · intro n _ hn
      have : (0 : ℝ) / 2 = 0 := by norm_num
      rw [this, zero_pow (by omega)]
      simp
    · intro h
      exact absurd (Finset.mem_range.mpr (by norm_num)) h
  have h2 : __bessel_in__ (0 : ℝ) 1 = 0 := by
    rw [bessel_in_one_eq_mul]
    norm_num
  refine ⟨h1, h2, ?_⟩
  rw [h1, h2]
  exact one_ne_zero

/-! ## Readiness of a window object -/

namespace wind_fcn

variable {R : Type}

/-- A loop keeps what each of its passes keeps. -/
theorem foldl_keeps {α β : Type} (P : α → Prop) (f : α → β → α)
    (hf : ∀ a b, P a → P (f a b)) (l : List β) (a : α) (ha : P a) : P (l.foldl f a) := by
  induction l generalizing a with
  | nil => exact ha
  | cons b l ih => exact ih (f a b) (hf a b ha)

theorem store_isSome (w : wind_fcn R) (n : Nat) (v : R) :
    (w.store n v).m_buff.isSome = w.m_buff.isSome := by
  unfold store
  cases w.m_buff <;> rfl

/-- A loop of stores leaves an allocated array allocated. -/
theorem foldl_store_isSome {β : Type} (idx : β → Nat) (v : wind_fcn R → β → R)
    (l : List β) (w : wind_fcn R) (h : w.m_buff.isSome = true) :
    (l.foldl (fun acc b => acc.store (idx b) (v acc b)) w).m_buff.isSome = true :=
  foldl_keeps (fun w => w.m_buff.isSome = true) _
    (fun a b ha => by
      beta_reduce at ha ⊢
      rw [store_isSome]
      exact ha) l w h

theorem allocate_isSome [Zero R] (w : wind_fcn R) :
    (w.allocate true).1.m_buff.isSome = true := by
  simp [allocate]

/-- Every window builder sets `m_wind_ready`, and leaves the array allocated when its
allocation succeeded. -/
theorem build_spec [LinearOrderedField R] [FloorRing R] (L : wind_libs R) (w : wind_fcn R)
    (reserved : Bool) (b : wind_builder R) :
    (w.build L reserved b).1.m_wind_ready = true ∧
    (reserved = true → (w.build L reserved b).1.m_buff.isSome = true) := by
  have hs := fun (l : List Nat) (v : wind_fcn R → Nat → R) =>
    foldl_store_isSome (fun n : Nat => n) v l (w.allocate true).1 (allocate_isSome w)
  cases b with
  | Bartlett => exact ⟨rfl, fun h => by subst h; exact hs _ _⟩
  | BartlettHanning => exact ⟨rfl, fun h => by subst h; exact hs _ _⟩
  | Blackman => exact ⟨rfl, fun h => by subst h; exact hs _ _⟩
  | BlackmanHarris => exact ⟨rfl, fun h => by subst h; exact hs _ _⟩
  | Bohman => exact ⟨rfl, fun h => by subst h; exact hs _ _⟩
  | Chebyshev atten =>
    refine ⟨rfl, fun h => ?_⟩
    subst h
    have h1 : (Chebyshev_fill L.win (w.allocate true).1 atten).1.m_buff.isSome = true := by
      unfold Chebyshev_fill
      apply foldl_keeps (fun s : wind_fcn R × R => s.1.m_buff.isSome = true)
      · intro a n ha
        beta_reduce at ha ⊢
        simp only [Chebyshev_body, store_isSome]
        exact ha
      · exact allocate_isSome w
    exact foldl_store_isSome (fun n : Nat => n) _ _ _ h1
  | FlatTop => exact ⟨rfl, fun h => by subst h; exact hs _ _⟩
  | Gaussian alpha => exact ⟨rfl, fun h => by subst h; exact hs _ _⟩
  | Hamming => exact ⟨rfl, fun h => by subst h; exact hs _ _⟩
  | Hann => exact ⟨rfl, fun h => by subst h; exact hs _ _⟩
  | Kaiser betta => exact ⟨rfl, fun h => by subst h; exact hs _ _⟩
  | Nutall => exact ⟨rfl, fun h => by subst h; exact hs _ _⟩
  | Parzen =>
    refine ⟨rfl, fun h => ?_⟩
    subst h
    apply foldl_keeps (fun w : wind_fcn R => w.m_buff.isSome = true)
    · intro a k ha
      beta_reduce at ha ⊢
      unfold Parzen_body
      simp only []
      split
      · rw [store_isSome]; exact ha
      · split
        · rw [store_isSome]; exact ha
        · exact ha
    · exact allocate_isSome w
  | Rectangular => exact ⟨rfl, fun h => by subst h; exact hs _ _⟩
  | Triangular =>
    refine ⟨rfl, fun h => ?_⟩
    subst h
    show (if _ then _ else _ : wind_fcn R).m_buff.isSome = true
    split
    · exact hs _ _
    · exact hs _ _
  | Tukey R0 => exact ⟨rfl, fun h => by subst h; exact hs _ _⟩

/-- The operations `init` and `deallocate` leave `m_wind_ready` as it was. -/
theorem run_ready [LinearOrderedField R] [FloorRing R] (L : wind_libs R) (w : wind_fcn R)
    (op : wind_op R) :
    (w.run L op).m_wind_ready =
      match op with
      | wind_op.build _ _ => true
      | _ => w.m_wind_ready := by
  cases op with
  | init order => rfl
  | deallocate => rfl
  | build b reserved => exact (build_spec L w reserved b).1

end wind_fcn

/-- C36 (as stated, refuted): after `init(3)`, `Rectangular()` with the array reserved and
`deallocate()`, `is_ready()` returns true and `m_buff` is the null pointer. -/
theorem C36_counterexample :
    ((wind_fcn.constructor 0 : wind_fcn ℚ).run_all wind_libs_rat
        [wind_op.init 3, wind_op.build wind_builder.Rectangular true,
          wind_op.deallocate]).is_ready = true ∧
    ((wind_fcn.constructor 0 : wind_fcn ℚ).run_all wind_libs_rat
        [wind_op.init 3, wind_op.build wind_builder.Rectangular true,
          wind_op.deallocate]).m_buff = none :=
  ⟨rfl, rfl⟩

/-- C36 (amended): for every sequence of operations on a constructed window object
(`init`, any window builder, `deallocate`): `is_ready()` is false right after construction
and stays false while no window builder has run; and right after any window builder whose
allocation succeeded `is_ready()` returns true and `m_buff` is not the null pointer. -/
theorem C36_readiness {R : Type} [LinearOrderedField R] [FloorRing R] (L : wind_libs R)
    (order0 : Int) (ops : List (wind_op R)) :
    (wind_fcn.constructor order0 : wind_fcn R).is_ready = false ∧
    ((∀ op, op ∈ ops → ∀ b r, op ≠ wind_op.build b r) →
      ((wind_fcn.constructor order0 : wind_fcn R).run_all L ops).is_ready = false) ∧
    (∀ b : wind_builder R,
      ((wind_fcn.constructor order0 : wind_fcn R).run_all L
          (ops ++ [wind_op.build b true])).is_ready = true ∧
      ((wind_fcn.constructor order0 : wind_fcn R).run_all L
          (ops ++ [wind_op.build b true])).m_buff ≠ none) := by
  refine ⟨rfl, ?_, ?_⟩
  · intro h
    have key : ∀ (l : List (wind_op R)) (w : wind_fcn R),
        (∀ op, op ∈ l → ∀ b r, op ≠ wind_op.build b r) →
        (w.run_all L l).m_wind_ready = w.m_wind_ready := by
      intro l
      induction l with
      | nil => intro w _; rfl
      | cons op l ih =>
        intro w hl
        have h1 : (w.run L op).m_wind_ready = w.m_wind_ready := by
          rw [wind_fcn.run_ready]
          cases op with
          | init order => rfl
          | deallocate => rfl
          | build b r => exact absurd rfl (hl _ (List.mem_cons_self _ _) b r)
        have h2 := ih (w.run L op) (fun op' hop => hl op' (List.mem_cons_of_mem _ hop))
        unfold wind_fcn.run_all at h2 ⊢
        rw [List.foldl_cons, h2, h1]
    exact key ops _ h
  · intro b
    unfold wind_fcn.run_all
    rw [List.foldl_append]
    simp only [List.foldl_cons, List.foldl_nil, wind_fcn.run]
    obtain ⟨h1, h2⟩ := wind_fcn.build_spec L (List.foldl (wind_fcn.run L)
      (wind_fcn.constructor order0) ops) true b
    refine ⟨h1, ?_⟩
    intro hn
    have := h2 rfl
    rw [hn] at this
    exact Bool.false_ne_true this

/-- Witness of C36 (amended): `init(3)` then `deallocate()`, no window builder. -/
theorem C36_readiness_witness :
    ((wind_fcn.constructor 0 : wind_fcn ℚ).run_all wind_libs_rat
        [wind_op.init 3, wind_op.deallocate]).is_ready = false :=
  (C36_readiness wind_libs_rat 0 [wind_op.init 3, wind_op.deallocate]).2.1
    (fun op hop b r => by
      simp only [List.mem_cons, List.mem_singleton, List.not_mem_nil, or_false] at hop
      rcases hop with rfl | rfl <;> exact fun h => nomatch h)

/-! ## The cosine-sum windows -/

namespace wind_fcn

/-- After `init(N)` and a builder that stores v(n) at every n < N into the reserved array,
the position n < N holds v(n). -/
theorem fill_load {R : Type} [LinearOrderedField R] (v : Nat → R) (w : wind_fcn R) (N : Nat)
    (n : Nat) (hn : n < N) :
    ((List.range N).foldl (fun acc k => acc.store k (v k))
        ((w.init (N : Int)).allocate true).1).load n = v n := by
  obtain ⟨hb, -⟩ := allocate_buff (w.init (N : Int))
  have hN' : (w.init (N : Int)).m_order = (N : Int) := rfl
  rw [hN'] at hb
  obtain ⟨l', -, -, -, h4⟩ := foldl_store v ((w.init (N : Int)).allocate true).1 _ hb N
    (by simp)
  rw [h4 n, if_pos hn]

theorem allocate_init_order {R : Type} [Zero R] (w : wind_fcn R) (N : Nat) :
    ((w.init (N : Int)).allocate true).1.m_order = (N : Int) :=
  (allocate_buff (w.init (N : Int))).2

theorem Hamming_load {R : Type} [LinearOrderedField R] (m : cmath_win R) (w : wind_fcn R)
    (N n : Nat) (hn : n < N) :
    ((w.init (N : Int)).Hamming m true).1.load n =
      0.54 - 0.46 * m.cos (2 * m.pi * (n : R) / ((N : R) - 1)) := by
  have h := fill_load
    (fun k : Nat => 0.54 - 0.46 * m.cos (2 * m.pi * (k : R) / ((((N : Int) - 1 : Int)) : R)))
    w N n hn
  simp only [Int.cast_sub, Int.cast_natCast, Int.cast_one] at h
  simp only [Hamming, allocate_init_order, Int.toNat_ofNat, Int.cast_sub, Int.cast_natCast,
    Int.cast_one]
  exact h

theorem Hann_load {R : Type} [LinearOrderedField R] (m : cmath_win R) (w : wind_fcn R)
    (N n : Nat) (hn : n < N) :
    ((w.init (N : Int)).Hann m true).1.load n =
      0.5 - 0.5 * m.cos (2 * m.pi * (n : R) / ((N : R) - 1)) := by
  have h := fill_load
    (fun k : Nat => 0.5 - 0.5 * m.cos (2 * m.pi * (k : R) / ((((N : Int) - 1 : Int)) : R)))
    w N n hn
  simp only [Int.cast_sub, Int.cast_natCast, Int.cast_one] at h
  simp only [Hann, allocate_init_order, Int.toNat_ofNat, Int.cast_sub, Int.cast_natCast,
    Int.cast_one]
  exact h

theorem Blackman_load {R : Type} [LinearOrderedField R] (m : cmath_win R) (w : wind_fcn R)
    (N n : Nat) (hn : n < N) :
    ((w.init (N : Int)).Blackman m true).1.load n =
      0.42 - 0.50 * m.cos (2 * m.pi * (n : R) / ((N : R) - 1))
        + 0.08 * m.cos (4 * m.pi * (n : R) / ((N : R) - 1)) := by
  have h := fill_load
    (fun k : Nat => 0.42 - 0.50 * m.cos (2 * m.pi * (k : R) / ((N : R) - 1))
        + 0.08 * m.cos (4 * m.pi * (k : R) / ((N : R) - 1)))
    w N n hn
  simp only [Blackman, allocate_init_order, Int.toNat_ofNat, Int.cast_natCast]
  exact h

theorem Nutall_load {R : Type} [LinearOrderedField R] (m : cmath_win R) (w : wind_fcn R)
    (N n : Nat) (hn : n < N) :
    ((w.init (N : Int)).Nutall m true).1.load n =
      0.3635819 - 0.4891775 * m.cos (2 * m.pi * (n : R) / ((N : R) - 1))
        + 0.1365995 * m.cos (4 * m.pi * (n : R) / ((N : R) - 1))
        - 0.0106411 * m.cos (6 * m.pi * (n : R) / ((N : R) - 1)) := by
  have h := fill_load
    (fun k : Nat =>
      0.3635819 - 0.4891775 * m.cos (2 * m.pi * (k : R) / ((((N : Int) - 1 : Int)) : R))
        + 0.1365995 * m.cos (4 * m.pi * (k : R) / ((((N : Int) - 1 : Int)) : R))
        - 0.0106411 * m.cos (6 * m.pi * (k : R) / ((((N : Int) - 1 : Int)) : R)))
    w N n hn
  simp only [Int.cast_sub, Int.cast_natCast, Int.cast_one] at h
  simp only [Nutall, allocate_init_order, Int.toNat_ofNat, Int.cast_sub, Int.cast_natCast,
    Int.cast_one]
  exact h

theorem Tukey_load {R : Type} [LinearOrderedField R] (m : cmath_win R) (w : wind_fcn R)
    (N n : Nat) (hn : n < N) (R0 : R) :
    ((w.init (N : Int)).Tukey m true R0).1.load n = Tukey_value m (N : Int) R0 n := by
  have h := fill_load (fun k : Nat => Tukey_value m (N : Int) R0 k) w N n hn
  simp only [Tukey, allocate_init_order, Int.toNat_ofNat]
  exact h

/-- The cosine of an even multiple of π times n/(N-1) is the same at n and at N-1-n. -/
theorem cos_mirror (j : Nat) (a : ℝ) (ha : a = (j : ℝ) * 2) (N n : Nat) (hN : 2 ≤ N)
    (hn : n < N) :
    Real.cos (a * Real.pi * ((N - 1 - n : Nat) : ℝ) / ((N : ℝ) - 1)) =
      Real.cos (a * Real.pi * (n : ℝ) / ((N : ℝ) - 1)) := by
  have h1 : (N : ℝ) - 1 ≠ 0 := by
    have : (2 : ℝ) ≤ (N : ℝ) := by exact_mod_cast hN
    intro h
    linarith
  have e : ((N - 1 - n : Nat) : ℝ) = (N : ℝ) - 1 - (n : ℝ) := by
    rw [Nat.cast_sub (by omega), Nat.cast_sub (by omega)]
    simp
  have e2 : a * Real.pi * ((N : ℝ) - 1 - (n : ℝ)) / ((N : ℝ) - 1) =
      (j : ℝ) * (2 * Real.pi) - a * Real.pi * (n : ℝ) / ((N : ℝ) - 1) := by
    rw [ha]
    field_simp
    ring
  rw [e, e2, Real.cos_nat_mul_two_pi_sub]

end wind_fcn

/-- C34: for every length N >= 2 and every n in 0..N-1, after `init(N)` and the builder
(the array reserved) each of the Hamming, Hann, Blackman and Nutall windows has
`buff[n] = buff[N-1-n]`. Here cos is the real cosine and `PI0`, `PI2` are π and 2π. -/
theorem C34_cosine_windows_symmetric (w : wind_fcn ℝ) (N n : Nat) (hN : 2 ≤ N) (hn : n < N) :
    ((w.init (N : Int)).Hamming
        ⟨Real.cos, Real.arccos, Real.cosh, fun y => Real.log (y + Real.sqrt (y ^ 2 - 1)),
          fun a b => a ^ b, Real.pi⟩ true).1.load n =
      ((w.init (N : Int)).Hamming
        ⟨Real.cos, Real.arccos, Real.cosh, fun y => Real.log (y + Real.sqrt (y ^ 2 - 1)),
          fun a b => a ^ b, Real.pi⟩ true).1.load (N - 1 - n) ∧
    ((w.init (N : Int)).Hann
        ⟨Real.cos, Real.arccos, Real.cosh, fun y => Real.log (y + Real.sqrt (y ^ 2 - 1)),
          fun a b => a ^ b, Real.pi⟩ true).1.load n =
      ((w.init (N : Int)).Hann
        ⟨Real.cos, Real.arccos, Real.cosh, fun y => Real.log (y + Real.sqrt (y ^ 2 - 1)),
          fun a b => a ^ b, Real.pi⟩ true).1.load (N - 1 - n) ∧
    ((w.init (N : Int)).Blackman
        ⟨Real.cos, Real.arccos, Real.cosh, fun y => Real.log (y + Real.sqrt (y ^ 2 - 1)),
          fun a b => a ^ b, Real.pi⟩ true).1.load n =
      ((w.init (N : Int)).Blackman
        ⟨Real.cos, Real.arccos, Real.cosh, fun y => Real.log (y + Real.sqrt (y ^ 2 - 1)),
          fun a b => a ^ b, Real.pi⟩ true).1.load (N - 1 - n) ∧
    ((w.init (N : Int)).Nutall
        ⟨Real.cos, Real.arccos, Real.cosh, fun y => Real.log (y + Real.sqrt (y ^ 2 - 1)),
          fun a b => a ^ b, Real.pi⟩ true).1.load n =
      ((w.init (N : Int)).Nutall
        ⟨Real.cos, Real.arccos, Real.cosh, fun y => Real.log (y + Real.sqrt (y ^ 2 - 1)),
          fun a b => a ^ b, Real.pi⟩ true).1.load (N - 1 - n) := by
  have hn' : N - 1 - n < N := by omega
  have c2 := wind_fcn.cos_mirror 1 2 (by norm_num) N n hN hn
  have c4 := wind_fcn.cos_mirror 2 4 (by norm_num) N n hN hn
  have c6 := wind_fcn.cos_mirror 3 6 (by norm_num) N n hN hn
  refine ⟨?_, ?_, ?_, ?_⟩
  · rw [wind_fcn.Hamming_load _ _ N n hn, wind_fcn.Hamming_load _ _ N _ hn']
    simp only [c2]
  · rw [wind_fcn.Hann_load _ _ N n hn, wind_fcn.Hann_load _ _ N _ hn']
    simp only [c2]
  · rw [wind_fcn.Blackman_load _ _ N n hn, wind_fcn.Blackman_load _ _ N _ hn']
    simp only [c2, c4]
  · rw [wind_fcn.Nutall_load _ _ N n hn, wind_fcn.Nutall_load _ _ N _ hn']
    simp only [c2, c4, c6]

/-- Witness of C34: length 8, position 2. -/
theorem C34_cosine_windows_symmetric_witness :
    (((wind_fcn.constructor 0 : wind_fcn ℝ).init ((8 : Nat) : Int)).Hamming
        ⟨Real.cos, Real.arccos, Real.cosh, fun y => Real.log (y + Real.sqrt (y ^ 2 - 1)),
          fun a b => a ^ b, Real.pi⟩ true).1.load 2 =
      (((wind_fcn.constructor 0 : wind_fcn ℝ).init ((8 : Nat) : Int)).Hamming
        ⟨Real.cos, Real.arccos, Real.cosh, fun y => Real.log (y + Real.sqrt (y ^ 2 - 1)),
          fun a b => a ^ b, Real.pi⟩ true).1.load (8 - 1 - 2) :=
  (C34_cosine_windows_symmetric (wind_fcn.constructor 0) 8 2 (by decide) (by decide)).1

namespace wind_fcn

/-- With the parameter R = 1 both tapered ranges of `Tukey` give the Hann weight, and
every x = n/(N-1) in [0, 1] falls in one of them. -/
theorem Tukey_value_one (m : cmath_win ℝ) (hm : m.is_real) (N n : Nat) (hN : 2 ≤ N)
    (hn : n < N) :
    Tukey_value m (N : Int) 1 n =
      0.5 - 0.5 * Real.cos (2 * Real.pi * (n : ℝ) / ((N : ℝ) - 1)) := by
  obtain ⟨hcos, -, -, -, -, hpi⟩ := hm
  have h1 : (0 : ℝ) < (N : ℝ) - 1 := by
    have : (2 : ℝ) ≤ (N : ℝ) := by exact_mod_cast hN
    linarith
  have hx0 : (0 : ℝ) ≤ (n : ℝ) / ((N : ℝ) - 1) := div_nonneg (Nat.cast_nonneg n) (le_of_lt h1)
  have hx1 : (n : ℝ) / ((N : ℝ) - 1) ≤ 1 := by
    rw [div_le_one h1]
    have : (n : ℝ) + 1 ≤ (N : ℝ) := by exact_mod_cast hn
    linarith
  have e1 : 2 * Real.pi / 1 * ((n : ℝ) / ((N : ℝ) - 1) - 0.5 * 1) =
      2 * Real.pi * (n : ℝ) / ((N : ℝ) - 1) - Real.pi := by
    field_simp
    ring
  have e2 : 2 * Real.pi / 1 * ((n : ℝ) / ((N : ℝ) - 1) - 1 + 0.5 * 1) =
      2 * Real.pi * (n : ℝ) / ((N : ℝ) - 1) - Real.pi := by
    field_simp
    ring
  unfold Tukey_value
  simp only [hcos, hpi, Int.cast_natCast]
  by_cases hx : (n : ℝ) / ((N : ℝ) - 1) < 1 / 2
  · rw [if_pos ⟨hx0, hx⟩, e1, Real.cos_sub_pi]
    ring
  · rw [if_neg (fun h => hx h.2), if_pos ⟨by norm_num; linarith [not_lt.mp hx], hx1⟩, e2,
      Real.cos_sub_pi]
    ring

end wind_fcn

/-- C35: for every length N >= 2 and every n in 0..N-1, after `init(N)` (the array
reserved) the weight that `Tukey(1)` leaves at n equals the weight that `Hann()` leaves
there, 0.5 - 0.5*cos(2*π*n/(N-1)). Here cos is the real cosine and `PI2` is 2π. -/
theorem C35_tukey_one_is_hann (w : wind_fcn ℝ) (N n : Nat) (hN : 2 ≤ N) (hn : n < N) :
    ((w.init (N : Int)).Tukey
        ⟨Real.cos, Real.arccos, Real.cosh, fun y => Real.log (y + Real.sqrt (y ^ 2 - 1)),
          fun a b => a ^ b, Real.pi⟩ true 1).1.load n =
      ((w.init (N : Int)).Hann
        ⟨Real.cos, Real.arccos, Real.cosh, fun y => Real.log (y + Real.sqrt (y ^ 2 - 1)),
          fun a b => a ^ b, Real.pi⟩ true).1.load n ∧
    ((w.init (N : Int)).Hann
        ⟨Real.cos, Real.arccos, Real.cosh, fun y => Real.log (y + Real.sqrt (y ^ 2 - 1)),
          fun a b => a ^ b, Real.pi⟩ true).1.load n =
      0.5 - 0.5 * Real.cos (2 * Real.pi * (n : ℝ) / ((N : ℝ) - 1)) := by
  have hm : cmath_win.is_real
      ⟨Real.cos, Real.arccos, Real.cosh, fun y => Real.log (y + Real.sqrt (y ^ 2 - 1)),
        fun a b => a ^ b, Real.pi⟩ := ⟨rfl, rfl, rfl, fun _ => rfl, fun _ _ => rfl, rfl⟩
  rw [wind_fcn.Tukey_load _ _ N n hn, wind_fcn.Hann_load _ _ N n hn,
    wind_fcn.Tukey_value_one _ hm N n hN hn]
  exact ⟨rfl, rfl⟩

/-- Witness of C35: length 6, position 4. -/
theorem C35_tukey_one_is_hann_witness :
    (((wind_fcn.constructor 0 : wind_fcn ℝ).init ((6 : Nat) : Int)).Tukey
        ⟨Real.cos, Real.arccos, Real.cosh, fun y => Real.log (y + Real.sqrt (y ^ 2 - 1)),
          fun a b => a ^ b, Real.pi⟩ true 1).1.load 4 =
      (((wind_fcn.constructor 0 : wind_fcn ℝ).init ((6 : Nat) : Int)).Hann
        ⟨Real.cos, Real.arccos, Real.cosh, fun y => Real.log (y + Real.sqrt (y ^ 2 - 1)),
          fun a b => a ^ b, Real.pi⟩ true).1.load 4 :=
  (C35_tukey_one_is_hann (wind_fcn.constructor 0) 6 4 (by decide) (by decide)).1

end DigitalFilters
